import Mathlib

/-!
# Directory tree of `directory.h`

Shallow embedding of `FileNode` and `Directory` from `src/directory.h`.

* A node owns its children (`delete` of a node deletes its subtree), so the owning
  `children` array is a nested list of nodes.
* Every node carries the address `addr` at which it was allocated.  The non-owning
  pointers of the source (`parent`, the entries of `children_pila` and
  `children_cola`, `Directory::currentDirectory`) are addresses; following such a
  pointer is `FileNode.deref`, which yields `none` when no node of the tree lives
  at that address (a dangling pointer).
* `int` values are modelled by `Int`; the node counter `idIncremental` is assumed
  not to overflow.
* The containers `arreglo_lista`, `pila` and `cola` are declared in headers that are
  not part of `src/`; they are modelled by lists.
-/

/-- Enumeration `NodeType` of the source. -/
inductive NodeType where
  | File
  | Directory
deriving DecidableEq, Repr

/-- Modelled from the spec: the container `arreglo_lista<T>` of `arreglo.h` (not in `src/`),
an ordered sequence indexed from 0. -/
abbrev arreglo_lista (α : Type) := List α

/-- Modelled from the spec: the container `pila<T>` of `pila.h` (not in `src/`), a stack whose
top is the head of the list. -/
abbrev pila (α : Type) := List α

/-- Modelled from the spec: the container `cola<T>` of `cola.h` (not in `src/`), a queue whose
front is the head of the list. -/
abbrev cola (α : Type) := List α

/-- Modelled from the spec: `arreglo_lista::push_final`, which appends at the end. -/
def arreglo_lista.push_final {α : Type} (xs : arreglo_lista α) (x : α) : arreglo_lista α :=
  xs ++ [x]

/-- Modelled from the spec: `arreglo_lista::pop(i)`, which removes the element at index `i`. -/
def arreglo_lista.pop {α : Type} (xs : arreglo_lista α) (i : Nat) : arreglo_lista α :=
  xs.eraseIdx i

/-- Modelled from the spec: `arreglo_lista::operator[]` with an `int` index; `none` stands for
an access outside `0 .. size()-1`. -/
def arreglo_lista.at {α : Type} (xs : arreglo_lista α) (i : Int) : Option α :=
  if 0 ≤ i then xs[i.toNat]? else none

/-- Modelled from the spec: `pila::push`, which puts the element on top. -/
def pila.push {α : Type} (xs : pila α) (x : α) : pila α :=
  x :: xs

/-- Modelled from the spec: `cola::encolar`, which adds the element at the back. -/
def cola.encolar {α : Type} (xs : cola α) (x : α) : cola α :=
  xs ++ [x]

/-- The data members of `FileNode` other than the owning `children` array, together with the
address `addr` of the object. -/
structure NodeFields where
  addr : Nat
  id : Int
  name : String
  type : NodeType
  content : String
  children_pila : pila Nat
  children_cola : cola Nat
  parent : Option Nat
deriving DecidableEq, Repr

/-- Class `FileNode`: the fields of the node and the children it owns. -/
inductive FileNode where
  | mk (fields : NodeFields) (children : List FileNode)

namespace FileNode

/-- The non-owning data members of the node. -/
def fields : FileNode → NodeFields
  | .mk f _ => f

/-- Accessor `getChildren`. -/
def getChildren : FileNode → arreglo_lista FileNode
  | .mk _ cs => cs

/-- The address of the object. -/
def addr (n : FileNode) : Nat := n.fields.addr

/-- Accessor `getId`. -/
def getId (n : FileNode) : Int := n.fields.id

/-- Accessor `getName`. -/
def getName (n : FileNode) : String := n.fields.name

/-- Accessor `getType`. -/
def getType (n : FileNode) : NodeType := n.fields.type

/-- Accessor `getContent`. -/
def getContent (n : FileNode) : String := n.fields.content

/-- Accessor `getParent`. -/
def getParent (n : FileNode) : Option Nat := n.fields.parent

/-- Accessor `getChildrenPila`. -/
def getChildrenPila (n : FileNode) : pila Nat := n.fields.children_pila

/-- Accessor `getChildrenCola`. -/
def getChildrenCola (n : FileNode) : cola Nat := n.fields.children_cola

/-- Mutator `setContent`. -/
def setContent (newContent : String) : FileNode → FileNode
  | .mk f cs => .mk { f with content := newContent } cs

/-- Mutator `setParent`. -/
def setParent (parent : Option Nat) : FileNode → FileNode
  | .mk f cs => .mk { f with parent := parent } cs

/-- Constructor `FileNode(name, type)` run for an object allocated at `addr` while the global
counter holds `idIncremental`: the node gets that id, empty content, no children and no
parent.  The caller advances the counter (`idIncremental++`). -/
def new (addr : Nat) (idIncremental : Int) (name : String) (type : NodeType) : FileNode :=
  .mk { addr := addr, id := idIncremental, name := name, type := type, content := "",
        children_pila := [], children_cola := [], parent := none } []

/-- Method `addChild`: the child gets this node as parent and is entered in the queue, the
array and the stack. -/
def addChild (child : FileNode) : FileNode → FileNode
  | .mk f cs =>
    let child1 := child.setParent (some f.addr)
    .mk { f with children_cola := cola.encolar f.children_cola child1.addr,
                 children_pila := pila.push f.children_pila child1.addr }
      (arreglo_lista.push_final cs child1)

/-- The loop of `deleteChild`: the first index `i` with `children[i]->getName() == name`. -/
def deleteChildIndex (name : String) : arreglo_lista FileNode → Option Nat
  | [] => none
  | c :: rest => if c.getName = name then some 0 else (deleteChildIndex name rest).map (· + 1)

/-- Method `deleteChild`: at the first child with the given name, that child is deleted (with
its subtree) and popped from the `children` array, and the result is `true`; without such a
child the result is `false`.  The stack and the queue are not touched. -/
def deleteChild (name : String) : FileNode → Bool × FileNode
  | .mk f cs =>
    match deleteChildIndex name cs with
    | some i => (true, .mk f (arreglo_lista.pop cs i))
    | none => (false, .mk f cs)

mutual
/-- Method `dfs`: the node itself when its name matches, otherwise the loop over its children. -/
def dfs (name : String) : FileNode → Option FileNode
  | .mk f cs => if f.name = name then some (.mk f cs) else dfsChildren name cs
/-- The loop of `dfs` over the children array: a Directory child is searched recursively, then
the name of the child is compared. -/
def dfsChildren (name : String) : arreglo_lista FileNode → Option FileNode
  | [] => none
  | c :: rest =>
    match (if c.getType = NodeType.Directory then dfs name c else none) with
    | some ans => some ans
    | none => if c.getName = name then some c else dfsChildren name rest
end

/-- Method `busquedaBinariaChildrenId`, called on the node `self`.  The outer `none` is an
access outside the array; `some none` is `nullptr`.  The second comparison reads the member
`id` of `self`, as the source does. -/
def busquedaBinariaChildrenId (self : FileNode) (children : arreglo_lista FileNode)
    (id_a_encontrar abajo arriba : Int) : Option (Option FileNode) :=
  if abajo > arriba then some none
  else
    let medio := abajo + (arriba - abajo).tdiv 2
    match children.at medio with
    | none => none
    | some m =>
      if m.getId = id_a_encontrar then some (some m)
      else if m.getId > self.getId then
        busquedaBinariaChildrenId self children id_a_encontrar abajo (medio - 1)
      else
        busquedaBinariaChildrenId self children id_a_encontrar (medio + 1) arriba
termination_by (arriba - abajo + 1).toNat
decreasing_by
  all_goals simp_wf
  all_goals
    have h := Int.tdiv_eq_ediv (a := arriba - abajo) (b := 2) (by omega)
    omega

mutual
/-- Pre-order list of the nodes of a subtree: the node, then the subtree of each child in
array order. -/
def nodes : FileNode → List FileNode
  | .mk f cs => .mk f cs :: nodesList cs
/-- Pre-order list of the nodes of a sequence of subtrees. -/
def nodesList : arreglo_lista FileNode → List FileNode
  | [] => []
  | c :: rest => nodes c ++ nodesList rest
end

mutual
/-- Following a pointer: the node of the subtree allocated at address `a` (the first one in
pre-order), `none` when the subtree has no node there. -/
def deref (a : Nat) : FileNode → Option FileNode
  | .mk f cs => if f.addr = a then some (.mk f cs) else derefList a cs
/-- Following a pointer into a sequence of subtrees. -/
def derefList (a : Nat) : arreglo_lista FileNode → Option FileNode
  | [] => none
  | c :: rest =>
    match deref a c with
    | some n => some n
    | none => derefList a rest
end

mutual
/-- Mutation through a pointer: the node at address `a` becomes `g` of it, the rest of the
subtree stays; `none` when the subtree has no node at `a`. -/
def update (a : Nat) (g : FileNode → FileNode) : FileNode → Option FileNode
  | .mk f cs => if f.addr = a then some (g (.mk f cs)) else (updateList a g cs).map (FileNode.mk f)
/-- Mutation through a pointer into a sequence of subtrees. -/
def updateList (a : Nat) (g : FileNode → FileNode) :
    arreglo_lista FileNode → Option (arreglo_lista FileNode)
  | [] => none
  | c :: rest =>
    match update a g c with
    | some c1 => some (c1 :: rest)
    | none => (updateList a g rest).map (c :: ·)
end

/-- Entry of a node in a pre-order listing: its fields and the number of its children. -/
def record (n : FileNode) : NodeFields × Nat := (n.fields, n.getChildren.length)

end FileNode

/-- Class `Directory` with the global state it works on: the tree owned by `root`, the pointer
`currentDirectory`, the static counter `idIncremental` and the next address that `new` hands
out. -/
structure Directory where
  root : FileNode
  currentDirectory : Nat
  idIncremental : Int
  heapNext : Nat

namespace Directory

/-- Constructor `Directory()`, run when the counter holds `idIncremental` and the allocator is
at `heapNext`. -/
def new (idIncremental : Int) (heapNext : Nat) : Directory :=
  { root := FileNode.new heapNext idIncremental "root" NodeType.Directory,
    currentDirectory := heapNext,
    idIncremental := idIncremental + 1,
    heapNext := heapNext + 1 }

/-- Method `findNodeInAll`. -/
def findNodeInAll (name : String) (d : Directory) : Option FileNode :=
  d.root.dfs name

/-- Method `findNode`; `none` outside is a dangling `currentDirectory`. -/
def findNode (name : String) (d : Directory) : Option (Option FileNode) :=
  (d.root.deref d.currentDirectory).map (FileNode.dfs name)

/-- Method `createFile`; `none` is a dangling `currentDirectory`. -/
def createFile (name : String) (d : Directory) : Option Directory :=
  let newNode := FileNode.new d.heapNext d.idIncremental name NodeType.File
  (d.root.update d.currentDirectory (FileNode.addChild newNode)).map fun r =>
    { d with root := r, idIncremental := d.idIncremental + 1, heapNext := d.heapNext + 1 }

/-- Method `createDirectory`; `none` is a dangling `currentDirectory`. -/
def createDirectory (name : String) (d : Directory) : Option Directory :=
  let newNode := FileNode.new d.heapNext d.idIncremental name NodeType.Directory
  (d.root.update d.currentDirectory (FileNode.addChild newNode)).map fun r =>
    { d with root := r, idIncremental := d.idIncremental + 1, heapNext := d.heapNext + 1 }

/-- The loop of `setContent` over the children of the current directory: the first File child
with the given name gets the new content. -/
def setContentLoop (fileName newContent : String) : arreglo_lista FileNode → arreglo_lista FileNode
  | [] => []
  | c :: rest =>
    if c.getName = fileName ∧ c.getType = NodeType.File then c.setContent newContent :: rest
    else c :: setContentLoop fileName newContent rest

/-- Method `setContent`; `none` is a dangling `currentDirectory`. -/
def setContent (fileName newContent : String) (d : Directory) : Option Directory :=
  (d.root.update d.currentDirectory
    (fun cur => FileNode.mk cur.fields (setContentLoop fileName newContent cur.getChildren))).map
    fun r => { d with root := r }

/-- The loop of `getContent` over the children of the current directory. -/
def getContentLoop (fileName : String) : arreglo_lista FileNode → String
  | [] => "noSeEncontro"
  | c :: rest =>
    if c.getName = fileName ∧ c.getType = NodeType.File then c.getContent
    else getContentLoop fileName rest

/-- Method `getContent`; `none` is a dangling `currentDirectory`. -/
def getContent (fileName : String) (d : Directory) : Option String :=
  (d.root.deref d.currentDirectory).map fun cur => getContentLoop fileName cur.getChildren

/-- Method `deleteNode`; `none` is a dangling `currentDirectory`. -/
def deleteNode (name : String) (d : Directory) : Option (Bool × Directory) :=
  match d.root.deref d.currentDirectory with
  | none => none
  | some cur =>
    (d.root.update d.currentDirectory (fun n => (n.deleteChild name).2)).map fun r =>
      ((cur.deleteChild name).1, { d with root := r })

/-- The statement `std::swap(data[i], data[j])`; `none` is an access outside the array. -/
def swap (data : arreglo_lista FileNode) (i j : Int) : Option (arreglo_lista FileNode) :=
  match data.at i, data.at j with
  | some x, some y => some ((data.set i.toNat y).set j.toNat x)
  | _, _ => none

/-- First inner loop of `sortDataQuick`:
`while (i < j && data[i]->getId() <= data[rightEdge]->getId()) i++;`
The result is the final `i`; `none` is an access outside the array. -/
def scanUp (data : arreglo_lista FileNode) (rightEdge j i : Int) : Option Int :=
  if i < j then
    match data.at i, data.at rightEdge with
    | some x, some p => if x.getId ≤ p.getId then scanUp data rightEdge j (i + 1) else some i
    | _, _ => none
  else some i
termination_by (j - i).toNat
decreasing_by
  simp_wf
  omega

/-- Second inner loop of `sortDataQuick`:
`while (i < j && data[j]->getId() >= data[rightEdge]->getId()) j--;`
The result is the final `j`; `none` is an access outside the array. -/
def scanDown (data : arreglo_lista FileNode) (rightEdge i j : Int) : Option Int :=
  if i < j then
    match data.at j, data.at rightEdge with
    | some x, some p => if x.getId ≥ p.getId then scanDown data rightEdge i (j - 1) else some j
    | _, _ => none
  else some j
termination_by (j - i).toNat
decreasing_by
  simp_wf
  omega

/-- Outer loop `while (i < j)` of `sortDataQuick`, with the number of iterations bounded by the
fuel: the result is the array and the common final value of `i` and `j`; `none` is an access
outside the array or exhausted fuel. -/
def partitionLoop : Nat → arreglo_lista FileNode → Int → Int → Int →
    Option (arreglo_lista FileNode × Int × Int)
  | 0, _, _, _, _ => none
  | fuel + 1, data, rightEdge, i, j =>
    if i < j then
      match scanUp data rightEdge j i with
      | none => none
      | some i1 =>
        match scanDown data rightEdge i1 j with
        | none => none
        | some j1 =>
          match (if i1 ≠ j1 then swap data i1 j1 else some data) with
          | none => none
          | some data1 => partitionLoop fuel data1 rightEdge i1 j1
    else some (data, i, j)

/-- Method `sortDataQuick`, with the recursion depth and the iterations of the outer loop
bounded by the fuel: `none` is an access outside the array or exhausted fuel. -/
def sortDataQuick : Nat → Int → Int → arreglo_lista FileNode → Option (arreglo_lista FileNode)
  | 0, _, _, _ => none
  | fuel + 1, leftEdge, rightEdge, data =>
    if leftEdge ≥ rightEdge then some data
    else
      match partitionLoop fuel data rightEdge leftEdge rightEdge with
      | none => none
      | some (data1, i, _) =>
        match (if i ≠ rightEdge then swap data1 i rightEdge else some data1) with
        | none => none
        | some data2 =>
          match sortDataQuick fuel leftEdge (i - 1) data2 with
          | none => none
          | some data3 => sortDataQuick fuel (i + 1) rightEdge data3

end Directory

/-- Three nodes with ids 1, 2, 3, sorted by id, as created right after a root with id 0. -/
def sampleData : arreglo_lista FileNode :=
  [FileNode.new 1 1 "a" NodeType.File, FileNode.new 2 2 "b" NodeType.File,
   FileNode.new 3 3 "c" NodeType.File]

/-- The file `a` of the sample tree. -/
def sampleFileA : FileNode :=
  .mk { addr := 1, id := 1, name := "a", type := NodeType.File, content := "",
        children_pila := [], children_cola := [], parent := some 0 } []

/-- The directory `d` of the sample tree, holding the file `f`. -/
def sampleDirD : FileNode :=
  .mk { addr := 2, id := 2, name := "d", type := NodeType.Directory, content := "",
        children_pila := [3], children_cola := [3], parent := some 0 }
    [.mk { addr := 3, id := 3, name := "f", type := NodeType.File, content := "",
           children_pila := [], children_cola := [], parent := some 2 } []]

/-- The root of the sample tree: the tree built by `createFile("a")`, `createDirectory("d")` and,
inside `d`, `createFile("f")`. -/
def sampleRoot : FileNode :=
  .mk { addr := 0, id := 0, name := "root", type := NodeType.Directory, content := "",
        children_pila := [2, 1], children_cola := [1, 2], parent := none }
    [sampleFileA, sampleDirD]

/-- The sample state: the sample tree with the cursor on its root. -/
def sampleDir : Directory :=
  { root := sampleRoot, currentDirectory := 0, idIncremental := 4, heapNext := 4 }

/-- Relation between an array before (`data`) and after (`data1`) a pass that works inside the
index range `lo .. hi-1` only: the arrays are permutations of each other, the elements outside
the range are the same, and whatever holds of all elements of the range before holds of all
elements of the range afterwards. -/
def Directory.Within (lo hi : Nat) (data data1 : arreglo_lista FileNode) : Prop :=
  List.Perm data1 data ∧
  (∀ k, (k < lo ∨ hi ≤ k) → data1[k]? = data[k]?) ∧
  (∀ P : FileNode → Prop, (∀ k x, lo ≤ k → k < hi → data[k]? = some x → P x) →
    ∀ k x, lo ≤ k → k < hi → data1[k]? = some x → P x)

namespace FileNode

/-- The fields of a node that stay fixed once it is linked into the tree: address, id, name, type
and parent (the content and the two views are blanked). -/
def ident (n : FileNode) : NodeFields :=
  { n.fields with content := "", children_pila := [], children_cola := [] }

/-- Entry of a node in the pre-order listing of the tree structure: its fixed fields and those of
its children, in array order. -/
def shape (n : FileNode) : NodeFields × List NodeFields :=
  (n.ident, n.getChildren.map ident)

mutual
/-- The nodes `dfs` compares names with, in its order: the node, then for each child its whole
search list when it is a Directory and the child alone otherwise. -/
def dfsNodes : FileNode → List FileNode
  | .mk f cs => .mk f cs :: dfsNodesList cs
/-- The nodes the loop of `dfs` over a children array compares names with. -/
def dfsNodesList : List FileNode → List FileNode
  | [] => []
  | c :: rest => (if c.getType = NodeType.Directory then dfsNodes c else [c]) ++ dfsNodesList rest
end

end FileNode

namespace Directory

/-- Method `goToParentDirectory`: the cursor moves to the parent of the current node when that
pointer is not null and stays otherwise (the message is not modelled); `none` is a dangling
`currentDirectory`. -/
def goToParentDirectory (d : Directory) : Option Directory :=
  match d.root.deref d.currentDirectory with
  | none => none
  | some cur =>
    match cur.getParent with
    | some p => some { d with currentDirectory := p }
    | none => some d

/-- Method `setCurrentDirectory`; `none` is a dangling `currentDirectory`. -/
def setCurrentDirectory (name : String) (d : Directory) : Option Directory :=
  if name = ".." then goToParentDirectory d
  else if name = "/" then some { d with currentDirectory := d.root.addr }
  else
    match d.root.deref d.currentDirectory with
    | none => none
    | some cur =>
      match cur.dfs name with
      | none => some d
      | some toReach => some { d with currentDirectory := toReach.addr }

/-- The part shared by `getAll`, `getAllLastest` and `getAllOldest`: the lines printed for the
collected file names and directory names. -/
def printListing (fileNames directoryNames : List String) : List String :=
  if fileNames.length > 0 ∨ directoryNames.length > 0 then
    fileNames.map (fun s => "[File] " ++ s) ++
      directoryNames.map (fun s => "[Directory] " ++ s) ++
      ["Total de archivos: " ++ toString fileNames.length,
       "Total de directorios: " ++ toString directoryNames.length]
  else ["Directorio vacio"]

/-- The loop of `getAll` over the children array, filling `fileNames` and `directoryNames`. -/
def getAllLoop : arreglo_lista FileNode → List String × List String → List String × List String
  | [], acc => acc
  | c :: rest, (fileNames, directoryNames) =>
    if c.getType = NodeType.File then
      getAllLoop rest (arreglo_lista.push_final fileNames c.getName, directoryNames)
    else getAllLoop rest (fileNames, arreglo_lista.push_final directoryNames c.getName)

/-- Method `getAll`: the lines it prints; `none` is a dangling `currentDirectory`. -/
def getAll (d : Directory) : Option (List String) :=
  (d.root.deref d.currentDirectory).map fun cur =>
    let r := getAllLoop cur.getChildren ([], [])
    printListing r.1 r.2

/-- The loop of `getAllLastest` over the copy of the stack: the node on top is read through its
pointer and popped; `none` is a dangling pointer. -/
def getAllLastestLoop (root : FileNode) :
    pila Nat → List String × List String → Option (List String × List String)
  | [], acc => some acc
  | tope :: rest, (fileNames, directoryNames) =>
    match root.deref tope with
    | none => none
    | some n =>
      if n.getType = NodeType.File then
        getAllLastestLoop root rest (cola.encolar fileNames n.getName, directoryNames)
      else getAllLastestLoop root rest (fileNames, cola.encolar directoryNames n.getName)

/-- Method `getAllLastest`: the lines it prints; `none` is a dangling pointer (the cursor or an
entry of the stack). -/
def getAllLastest (d : Directory) : Option (List String) :=
  match d.root.deref d.currentDirectory with
  | none => none
  | some cur =>
    (getAllLastestLoop d.root cur.getChildrenPila ([], [])).map fun r => printListing r.1 r.2

/-- The loop of `getAllOldest` over the copy of the queue: the node at the front is read through
its pointer and dequeued; `none` is a dangling pointer. -/
def getAllOldestLoop (root : FileNode) :
    cola Nat → List String × List String → Option (List String × List String)
  | [], acc => some acc
  | frente :: rest, (fileNames, directoryNames) =>
    match root.deref frente with
    | none => none
    | some n =>
      if n.getType = NodeType.File then
        getAllOldestLoop root rest (cola.encolar fileNames n.getName, directoryNames)
      else getAllOldestLoop root rest (fileNames, cola.encolar directoryNames n.getName)

/-- Method `getAllOldest`: the lines it prints; `none` is a dangling pointer (the cursor or an
entry of the queue). -/
def getAllOldest (d : Directory) : Option (List String) :=
  match d.root.deref d.currentDirectory with
  | none => none
  | some cur =>
    (getAllOldestLoop d.root cur.getChildrenCola ([], [])).map fun r => printListing r.1 r.2

/-- The state-changing operations of `Directory`. -/
inductive Op where
  | createFile (name : String)
  | createDirectory (name : String)
  | setCurrentDirectory (name : String)
  | goToParentDirectory
  | setContent (fileName newContent : String)
  | deleteNode (name : String)

/-- One call of an operation; `none` is a dangling `currentDirectory`. -/
def step : Op → Directory → Option Directory
  | .createFile name, d => d.createFile name
  | .createDirectory name, d => d.createDirectory name
  | .setCurrentDirectory name, d => d.setCurrentDirectory name
  | .goToParentDirectory, d => d.goToParentDirectory
  | .setContent fileName newContent, d => d.setContent fileName newContent
  | .deleteNode name, d => (d.deleteNode name).map Prod.snd

/-- A sequence of calls, from left to right. -/
def run : List Op → Directory → Option Directory
  | [], d => some d
  | op :: rest, d =>
    match step op d with
    | none => none
    | some d1 => run rest d1

/-- The states reached from a freshly constructed `Directory` by calls of the operations. -/
inductive Reachable : Directory → Prop where
  | init (idIncremental : Int) (heapNext : Nat) : Reachable (Directory.new idIncremental heapNext)
  | step (op : Op) (d d1 : Directory) : Reachable d → step op d = some d1 → Reachable d1

/-- What holds of the pre-order structure listing `l` of a well-formed tree when the allocator is
at `heapNext` and the counter at `idIncremental`: addresses and ids are pairwise distinct and
below the allocator and the counter, and every child records its holder as parent. -/
def ShapesInv (l : List (NodeFields × List NodeFields)) (heapNext : Nat) (idIncremental : Int) :
    Prop :=
  (l.map (fun s => s.1.addr)).Nodup ∧ (l.map (fun s => s.1.id)).Nodup ∧
  ∀ s ∈ l, s.1.addr < heapNext ∧ s.1.id < idIncremental ∧ ∀ k ∈ s.2, k.parent = some s.1.addr

/-- Well-formedness of a state: the structure listing of the tree is well formed, the root is a
Directory without parent, and the cursor points to a node of the tree. -/
structure Inv (d : Directory) : Prop where
  tree : ShapesInv (d.root.nodes.map FileNode.shape) d.heapNext d.idIncremental
  rootParent : d.root.getParent = none
  rootType : d.root.getType = NodeType.Directory
  live : d.currentDirectory ∈ d.root.nodes.map FileNode.addr

/-- Whether the call is a `setCurrentDirectory(name)` whose name `dfs` resolves to a File. -/
def movesOntoFile : Op → Directory → Bool
  | .setCurrentDirectory name, d =>
    if name = ".." ∨ name = "/" then false
    else
      match d.root.deref d.currentDirectory with
      | none => false
      | some cur =>
        match cur.dfs name with
        | none => false
        | some toReach => decide (toReach.getType = NodeType.File)
  | _, _ => false

/-- The states reached from a freshly constructed `Directory` by calls none of which is a
`setCurrentDirectory` resolving to a File. -/
inductive ReachableOnDirectories : Directory → Prop where
  | init (idIncremental : Int) (heapNext : Nat) :
    ReachableOnDirectories (Directory.new idIncremental heapNext)
  | step (op : Op) (d d1 : Directory) : ReachableOnDirectories d → movesOntoFile op d = false →
    step op d = some d1 → ReachableOnDirectories d1

/-- The cursor is on a Directory and every node that has children is a Directory. -/
structure InvDir (d : Directory) : Prop where
  holders : ∀ q ∈ d.root.nodes, q.getChildren ≠ [] → q.getType = NodeType.Directory
  cursor : ∀ cur, d.root.deref d.currentDirectory = some cur → cur.getType = NodeType.Directory

/-- The node an operation constructs with `new FileNode(...)` in state `d`, if it constructs
one. -/
def constructed : Op → Directory → Option FileNode
  | .createFile name, d => some (FileNode.new d.heapNext d.idIncremental name NodeType.File)
  | .createDirectory name, d =>
    some (FileNode.new d.heapNext d.idIncremental name NodeType.Directory)
  | _, _ => none

/-- The ids of the nodes constructed along a sequence of calls, in creation order. -/
def idsConstructed : List Op → Directory → List Int
  | [], _ => []
  | op :: rest, d =>
    match step op d with
    | none => []
    | some d1 =>
      match constructed op d with
      | some n => n.getId :: idsConstructed rest d1
      | none => idsConstructed rest d1

/-- The operation that creates a child of the given name and type. -/
def createOp (c : String × NodeType) : Op :=
  match c.2 with
  | NodeType.File => Op.createFile c.1
  | NodeType.Directory => Op.createDirectory c.1

/-- Whether the operation constructs a node. -/
def Op.isCreate : Op → Bool
  | .createFile _ => true
  | .createDirectory _ => true
  | _ => false

/-- The names of the files in a sequence of names and types, in order. -/
def fileNamesOf (cs : List (String × NodeType)) : List String :=
  (cs.filter (fun c => decide (c.2 = NodeType.File))).map Prod.fst

/-- The names of the directories in a sequence of names and types, in order. -/
def directoryNamesOf (cs : List (String × NodeType)) : List String :=
  (cs.filter (fun c => decide (c.2 = NodeType.Directory))).map Prod.fst

/-- The statement `std::swap(data[i], data[j])` with the indices it accesses. -/
def swapT (data : arreglo_lista FileNode) (i j : Int) :
    Option (arreglo_lista FileNode × List Int) :=
  (swap data i j).map fun r => (r, [i, j])

/-- First inner loop of `sortDataQuick` with the indices at which it reads `data`. -/
def scanUpT (data : arreglo_lista FileNode) (rightEdge j i : Int) : Option (Int × List Int) :=
  if i < j then
    match data.at i, data.at rightEdge with
    | some x, some p =>
      if x.getId ≤ p.getId then
        (scanUpT data rightEdge j (i + 1)).map fun r => (r.1, i :: rightEdge :: r.2)
      else some (i, [i, rightEdge])
    | _, _ => none
  else some (i, [])
termination_by (j - i).toNat
decreasing_by
  simp_wf
  omega

/-- Second inner loop of `sortDataQuick` with the indices at which it reads `data`. -/
def scanDownT (data : arreglo_lista FileNode) (rightEdge i j : Int) : Option (Int × List Int) :=
  if i < j then
    match data.at j, data.at rightEdge with
    | some x, some p =>
      if x.getId ≥ p.getId then
        (scanDownT data rightEdge i (j - 1)).map fun r => (r.1, j :: rightEdge :: r.2)
      else some (j, [j, rightEdge])
    | _, _ => none
  else some (j, [])
termination_by (j - i).toNat
decreasing_by
  simp_wf
  omega

/-- Outer loop of `sortDataQuick` with the indices at which it accesses `data`. -/
def partitionLoopT : Nat → arreglo_lista FileNode → Int → Int → Int →
    Option ((arreglo_lista FileNode × Int × Int) × List Int)
  | 0, _, _, _, _ => none
  | fuel + 1, data, rightEdge, i, j =>
    if i < j then
      match scanUpT data rightEdge j i with
      | none => none
      | some (i1, log1) =>
        match scanDownT data rightEdge i1 j with
        | none => none
        | some (j1, log2) =>
          match (if i1 ≠ j1 then swapT data i1 j1 else some (data, [])) with
          | none => none
          | some (data1, log3) =>
            (partitionLoopT fuel data1 rightEdge i1 j1).map fun r =>
              (r.1, log1 ++ log2 ++ log3 ++ r.2)
    else some ((data, i, j), [])

/-- Method `sortDataQuick` with the indices at which it accesses `data`, in the order of the
accesses. -/
def sortDataQuickT : Nat → Int → Int → arreglo_lista FileNode →
    Option (arreglo_lista FileNode × List Int)
  | 0, _, _, _ => none
  | fuel + 1, leftEdge, rightEdge, data =>
    if leftEdge ≥ rightEdge then some (data, [])
    else
      match partitionLoopT fuel data rightEdge leftEdge rightEdge with
      | none => none
      | some ((data1, i, _), log1) =>
        match (if i ≠ rightEdge then swapT data1 i rightEdge else some (data1, [])) with
        | none => none
        | some (data2, log2) =>
          match sortDataQuickT fuel leftEdge (i - 1) data2 with
          | none => none
          | some (data3, log3) =>
            (sortDataQuickT fuel (i + 1) rightEdge data3).map fun r =>
              (r.1, log1 ++ log2 ++ log3 ++ r.2)

end Directory

/-- The state after `createFile("a")` and `setCurrentDirectory("a")` on a fresh Directory: the
cursor is on the File `a`. -/
def sampleOnFile : Directory :=
  { root := .mk { addr := 0, id := 0, name := "root", type := NodeType.Directory, content := "",
                  children_pila := [1], children_cola := [1], parent := none }
      [.mk { addr := 1, id := 1, name := "a", type := NodeType.File, content := "",
             children_pila := [], children_cola := [], parent := some 0 } []],
    currentDirectory := 1, idIncremental := 2, heapNext := 2 }

/-- The state after `createFile("a")`, `setCurrentDirectory("a")` and `createFile("b")` on a
fresh Directory: the File `a` holds the File `b`. -/
def sampleBelowFile : Directory :=
  { root := .mk { addr := 0, id := 0, name := "root", type := NodeType.Directory, content := "",
                  children_pila := [1], children_cola := [1], parent := none }
      [.mk { addr := 1, id := 1, name := "a", type := NodeType.File, content := "",
             children_pila := [2], children_cola := [2], parent := some 0 }
        [.mk { addr := 2, id := 2, name := "b", type := NodeType.File, content := "",
               children_pila := [], children_cola := [], parent := some 1 } []]],
    currentDirectory := 1, idIncremental := 3, heapNext := 3 }

namespace FileNode

theorem nodes_mk (f : NodeFields) (cs : List FileNode) :
    nodes (.mk f cs) = .mk f cs :: nodesList cs := by
  simp [nodes]

theorem self_mem_nodes (n : FileNode) : n ∈ n.nodes := by
  cases n with
  | mk f cs => simp [nodes]

mutual
theorem nodes_subset_of_mem (t n : FileNode) (h : n ∈ t.nodes) : ∀ m ∈ n.nodes, m ∈ t.nodes := by
  match t with
  | .mk f cs =>
    intro m hm
    rw [nodes_mk] at h ⊢
    rcases List.mem_cons.1 h with h1 | h1
    · subst h1
      rw [nodes_mk] at hm
      exact hm
    · exact List.mem_cons_of_mem _ (nodesList_subset_of_mem cs n h1 m hm)
theorem nodesList_subset_of_mem (cs : List FileNode) (n : FileNode) (h : n ∈ nodesList cs) :
    ∀ m ∈ n.nodes, m ∈ nodesList cs := by
  match cs with
  | [] => simp [nodesList] at h
  | c :: rest =>
    intro m hm
    simp only [nodesList, List.mem_append] at h ⊢
    rcases h with h1 | h1
    · exact Or.inl (nodes_subset_of_mem c n h1 m hm)
    · exact Or.inr (nodesList_subset_of_mem rest n h1 m hm)
end

mutual
theorem dfs_eq_find (s : String) (n : FileNode)
    (h : ∀ m ∈ n.nodes, m.getType = NodeType.File → m.getChildren = []) :
    n.dfs s = n.nodes.find? (fun m => decide (m.getName = s)) := by
  match n with
  | .mk f cs =>
    rw [nodes_mk] at h
    rw [nodes_mk, dfs, List.find?_cons]
    by_cases hn : f.name = s
    · simp [hn, getName, fields]
    · simp only [hn, if_false, getName, fields, decide_False]
      exact dfsChildren_eq_find s cs (fun m hm => h m (List.mem_cons_of_mem _ hm))
theorem dfsChildren_eq_find (s : String) (cs : List FileNode)
    (h : ∀ m ∈ nodesList cs, m.getType = NodeType.File → m.getChildren = []) :
    dfsChildren s cs = (nodesList cs).find? (fun m => decide (m.getName = s)) := by
  match cs with
  | [] => simp [dfsChildren, nodesList]
  | c :: rest =>
    have hrest := dfsChildren_eq_find s rest (fun m hm => h m (by simp [nodesList, hm]))
    have hc := dfs_eq_find s c (fun m hm => h m (by simp [nodesList, hm]))
    rw [dfsChildren, nodesList, List.find?_append]
    cases ht : c.getType with
    | Directory =>
      simp only [if_true]
      rw [hc]
      cases hf : List.find? (fun m => decide (m.getName = s)) c.nodes with
      | some ans => simp
      | none =>
        have hcn : ¬ c.getName = s := by
          have := List.find?_eq_none.1 hf c (self_mem_nodes c)
          simpa using this
        simp [hcn, hrest]
    | File =>
      have hch : c.getChildren = [] := h c (by simp [nodesList, self_mem_nodes]) ht
      have hnodes : c.nodes = [c] := by
        cases c with
        | mk f cs1 =>
          simp only [getChildren] at hch
          subst hch
          simp [nodes, nodesList]
      rw [hnodes]
      by_cases hcn : c.getName = s
      · simp [hcn]
      · simp [hcn, hrest]
end

end FileNode

/-- C1: in a tree whose File nodes have no children, `dfs` called on any node `n` with any name
`s` returns the first node named `s` of the pre-order listing of the subtree of `n`, and it
returns not-found exactly when no node of that subtree is named `s`. -/
theorem C1_dfs_first_preorder (t : FileNode)
    (hleaf : ∀ m ∈ t.nodes, m.getType = NodeType.File → m.getChildren = [])
    (n : FileNode) (hn : n ∈ t.nodes) (s : String) :
    n.dfs s = n.nodes.find? (fun m => decide (m.getName = s)) ∧
    (n.dfs s = none ↔ ∀ m ∈ n.nodes, m.getName ≠ s) := by
  have h := FileNode.dfs_eq_find s n
    (fun m hm => hleaf m (FileNode.nodes_subset_of_mem t n hn m hm))
  refine ⟨h, ?_⟩
  rw [h, List.find?_eq_none]
  simp

namespace FileNode

theorem at_natCast {α : Type} (xs : arreglo_lista α) (k : Nat) :
    arreglo_lista.at xs (k : Int) = xs[k]? := by
  simp [arreglo_lista.at]

theorem at_eq_some_mem {α : Type} (xs : arreglo_lista α) (i : Int) (m : α)
    (h : arreglo_lista.at xs i = some m) : m ∈ xs := by
  unfold arreglo_lista.at at h
  split at h
  · exact List.getElem?_mem h
  · cases h

theorem at_isSome {α : Type} (xs : arreglo_lista α) (i : Int) (h0 : 0 ≤ i)
    (h1 : i < xs.length) : ∃ m, arreglo_lista.at xs i = some m := by
  have hlt : i.toNat < xs.length := by omega
  refine ⟨xs[i.toNat], ?_⟩
  simp [arreglo_lista.at, h0, List.getElem?_eq_getElem hlt]

theorem busqueda_absent (self : FileNode) (data : arreglo_lista FileNode) (id : Int)
    (h : ∀ x ∈ data, x.getId ≠ id) :
    ∀ (k : Nat) (abajo arriba : Int), (arriba - abajo + 1).toNat ≤ k → 0 ≤ abajo →
      arriba < data.length →
      busquedaBinariaChildrenId self data id abajo arriba = some none := by
  intro k
  induction k with
  | zero =>
    intro abajo arriba hk _ _
    rw [busquedaBinariaChildrenId]
    have : abajo > arriba := by omega
    simp [this]
  | succ k ih =>
    intro abajo arriba hk h0 h1
    rw [busquedaBinariaChildrenId]
    by_cases hgt : abajo > arriba
    · simp [hgt]
    · have hd := Int.tdiv_eq_ediv (a := arriba - abajo) (b := 2) (by omega)
      simp only [hgt, if_false]
      obtain ⟨m, hm⟩ := at_isSome data (abajo + (arriba - abajo).tdiv 2) (by omega) (by omega)
      rw [hm]
      simp only
      have hne : ¬ m.getId = id := h m (at_eq_some_mem _ _ _ hm)
      simp only [hne, if_false]
      split
      · exact ih _ _ (by omega) h0 (by omega)
      · exact ih _ _ (by omega) (by omega) h1

theorem busqueda_found (self : FileNode) (data : arreglo_lista FileNode) (id : Int)
    (m : FileNode) :
    ∀ (k : Nat) (abajo arriba : Int), (arriba - abajo + 1).toNat ≤ k →
      busquedaBinariaChildrenId self data id abajo arriba = some (some m) →
      m.getId = id ∧ m ∈ data := by
  intro k
  induction k with
  | zero =>
    intro abajo arriba hk h
    rw [busquedaBinariaChildrenId] at h
    have : abajo > arriba := by omega
    simp [this] at h
  | succ k ih =>
    intro abajo arriba hk h
    rw [busquedaBinariaChildrenId] at h
    by_cases hgt : abajo > arriba
    · simp [hgt] at h
    · have hd := Int.tdiv_eq_ediv (a := arriba - abajo) (b := 2) (by omega)
      simp only [hgt, if_false] at h
      cases hm : arreglo_lista.at data (abajo + (arriba - abajo).tdiv 2) with
      | none => rw [hm] at h; cases h
      | some x =>
        rw [hm] at h
        simp only at h
        by_cases hx : x.getId = id
        · simp only [hx, if_true] at h
          have hxm : x = m := by simpa using h
          subst hxm
          exact ⟨hx, at_eq_some_mem _ _ _ hm⟩
        · simp only [hx, if_false] at h
          split at h
          · exact ih _ _ (by omega) h
          · exact ih _ _ (by omega) h

theorem deleteChildIndex_split (s : String) :
    ∀ (cs : arreglo_lista FileNode), (∃ c ∈ cs, c.getName = s) →
      ∃ pre x post, cs = pre ++ x :: post ∧ x.getName = s ∧ (∀ c ∈ pre, c.getName ≠ s) ∧
        deleteChildIndex s cs = some pre.length := by
  intro cs
  induction cs with
  | nil => intro h; simp at h
  | cons c rest ih =>
    intro h
    by_cases hc : c.getName = s
    · exact ⟨[], c, rest, rfl, hc, by simp, by simp [deleteChildIndex, hc]⟩
    · have h2 : ∃ c ∈ rest, c.getName = s := by
        obtain ⟨y, hy, hys⟩ := h
        rcases List.mem_cons.1 hy with h3 | h3
        · subst h3; exact absurd hys hc
        · exact ⟨y, h3, hys⟩
      obtain ⟨pre, x, post, e, hx, hpre, hidx⟩ := ih h2
      refine ⟨c :: pre, x, post, by simp [e], hx, ?_, by simp [deleteChildIndex, hc, hidx]⟩
      intro y hy
      rcases List.mem_cons.1 hy with h3 | h3
      · subst h3; exact hc
      · exact hpre y h3

theorem deleteChildIndex_none (s : String) :
    ∀ (cs : arreglo_lista FileNode), (∀ c ∈ cs, c.getName ≠ s) → deleteChildIndex s cs = none := by
  intro cs
  induction cs with
  | nil => intro _; rfl
  | cons c rest ih =>
    intro h
    have hc : ¬ c.getName = s := h c (by simp)
    simp [deleteChildIndex, hc, ih (fun y hy => h y (List.mem_cons_of_mem _ hy))]

theorem pop_length_append {α : Type} (pre post : List α) (x : α) :
    arreglo_lista.pop (pre ++ x :: post) pre.length = pre ++ post := by
  simp [arreglo_lista.pop, List.eraseIdx_append_of_length_le]

theorem deleteChild_split (s : String) (p : FileNode) (pre post : List FileNode) (x : FileNode)
    (hch : p.getChildren = pre ++ x :: post) (hx : x.getName = s)
    (hpre : ∀ c ∈ pre, c.getName ≠ s) :
    p.deleteChild s = (true, FileNode.mk p.fields (pre ++ post)) := by
  cases p with
  | mk f cs =>
    simp only [getChildren] at hch
    subst hch
    obtain ⟨pre2, x2, post2, e, hx2, hpre2, hidx⟩ :=
      deleteChildIndex_split s (pre ++ x :: post) ⟨x, by simp, hx⟩
    have hlen : pre2.length = pre.length := by
      rcases Nat.lt_trichotomy pre2.length pre.length with hlt | heq | hgt
      · exfalso
        have h1 : (pre ++ x :: post)[pre2.length]? = some x2 := by
          rw [e, List.getElem?_append_right (le_refl _)]; simp
        rw [List.getElem?_append_left hlt] at h1
        exact hpre x2 (List.getElem?_mem h1) hx2
      · exact heq
      · exfalso
        have h1 : (pre2 ++ x2 :: post2)[pre.length]? = some x := by
          rw [← e, List.getElem?_append_right (le_refl _)]; simp
        rw [List.getElem?_append_left hgt] at h1
        exact hpre2 x (List.getElem?_mem h1) hx
    simp only [deleteChild, hidx, fields, hlen, pop_length_append]

theorem deleteChild_none (s : String) (p : FileNode) (h : ∀ c ∈ p.getChildren, c.getName ≠ s) :
    p.deleteChild s = (false, p) := by
  cases p with
  | mk f cs =>
    simp only [getChildren] at h
    simp [deleteChild, deleteChildIndex_none s cs h]

end FileNode

namespace Directory

theorem within_refl (lo hi : Nat) (data : arreglo_lista FileNode) : Within lo hi data data :=
  ⟨List.Perm.refl _, fun _ _ => rfl, fun _ h => h⟩

theorem within_trans (lo hi : Nat) (d1 d2 d3 : arreglo_lista FileNode)
    (h12 : Within lo hi d1 d2) (h23 : Within lo hi d2 d3) : Within lo hi d1 d3 := by
  obtain ⟨p1, f1, k1⟩ := h12
  obtain ⟨p2, f2, k2⟩ := h23
  exact ⟨p2.trans p1, fun k hk => (f2 k hk).trans (f1 k hk), fun P hP => k2 P (k1 P hP)⟩

theorem within_mono (lo hi lo1 hi1 : Nat) (d1 d2 : arreglo_lista FileNode)
    (hlo : lo ≤ lo1) (hhi : hi1 ≤ hi) (h : Within lo1 hi1 d1 d2) : Within lo hi d1 d2 := by
  obtain ⟨p, f, kp⟩ := h
  refine ⟨p, fun k hk => f k (by omega), ?_⟩
  intro P hP k x h1 h2 hx
  by_cases hin : lo1 ≤ k ∧ k < hi1
  · exact kp P (fun k' x' a b c => hP k' x' (by omega) (by omega) c) k x hin.1 hin.2 hx
  · rw [f k (by omega)] at hx
    exact hP k x h1 h2 hx

theorem cons_set_perm {α : Type} (a y : α) :
    ∀ (t : List α) (j : Nat), t[j]? = some y → List.Perm (y :: t.set j a) (a :: t) := by
  intro t
  induction t with
  | nil => intro j h; simp at h
  | cons b t ih =>
    intro j h
    cases j with
    | zero =>
      simp only [List.getElem?_cons_zero, Option.some.injEq] at h
      subst h
      simpa using List.Perm.swap a b t
    | succ j =>
      simp only [List.getElem?_cons_succ] at h
      have h1 := ih j h
      simp only [List.set_cons_succ]
      exact ((List.Perm.swap b y _).trans (List.Perm.cons b h1)).trans (List.Perm.swap a b t)

theorem set_set_perm_of_getElem? {α : Type} :
    ∀ (l : List α) (i j : Nat) (x y : α), l[i]? = some x → l[j]? = some y →
      List.Perm ((l.set i y).set j x) l := by
  intro l
  induction l with
  | nil => intro i j x y h; simp at h
  | cons a t ih =>
    intro i j x y hi hj
    cases i with
    | zero =>
      simp only [List.getElem?_cons_zero, Option.some.injEq] at hi
      subst hi
      cases j with
      | zero =>
        simp only [List.getElem?_cons_zero, Option.some.injEq] at hj
        subst hj
        simp
      | succ j =>
        simp only [List.getElem?_cons_succ] at hj
        simpa using cons_set_perm a y t j hj
    | succ i =>
      simp only [List.getElem?_cons_succ] at hi
      cases j with
      | zero =>
        simp only [List.getElem?_cons_zero, Option.some.injEq] at hj
        subst hj
        simpa using cons_set_perm a x t i hi
      | succ j =>
        simp only [List.getElem?_cons_succ] at hj
        simpa using List.Perm.cons a (ih i j x y hi hj)

theorem getElem?_swap (data : List FileNode) (i j k : Nat) (x y : FileNode)
    (hi : data[i]? = some x) (hj : data[j]? = some y) :
    ((data.set i y).set j x)[k]? =
      if k = j then some x else if k = i then some y else data[k]? := by
  have hil : i < data.length := (List.getElem?_eq_some.1 hi).1
  have hjl : j < data.length := (List.getElem?_eq_some.1 hj).1
  rw [List.getElem?_set, List.getElem?_set]
  by_cases h1 : j = k
  · subst h1; simp [hjl]
  · by_cases h2 : i = k
    · subst h2; simp [h1, hil, Ne.symm h1]
    · simp [h1, h2, Ne.symm h1, Ne.symm h2]

theorem swap_eq (data : List FileNode) (i j : Nat) (x y : FileNode)
    (hi : data[i]? = some x) (hj : data[j]? = some y) :
    swap data (i : Int) (j : Int) = some ((data.set i y).set j x) := by
  simp [swap, FileNode.at_natCast, hi, hj]

theorem within_swap (lo hi : Nat) (data : List FileNode) (i j : Nat) (x y : FileNode)
    (hi1 : lo ≤ i) (hi2 : i < hi) (hj1 : lo ≤ j) (hj2 : j < hi)
    (hx : data[i]? = some x) (hy : data[j]? = some y) :
    Within lo hi data ((data.set i y).set j x) := by
  refine ⟨set_set_perm_of_getElem? data i j x y hx hy, ?_, ?_⟩
  · intro k hk
    rw [getElem?_swap data i j k x y hx hy]
    have h1 : k ≠ j := by omega
    have h2 : k ≠ i := by omega
    simp [h1, h2]
  · intro P hP k z h1 h2 hz
    rw [getElem?_swap data i j k x y hx hy] at hz
    by_cases hkj : k = j
    · rw [if_pos hkj] at hz
      simp only [Option.some.injEq] at hz
      subst hz
      exact hP i x hi1 hi2 hx
    · by_cases hki : k = i
      · rw [if_neg hkj, if_pos hki] at hz
        simp only [Option.some.injEq] at hz
        subst hz
        exact hP j y hj1 hj2 hy
      · rw [if_neg hkj, if_neg hki] at hz
        exact hP k z h1 h2 hz

theorem scanUp_spec (data : List FileNode) (r : Nat) (pR : FileNode)
    (hr : data[r]? = some pR) :
    ∀ (d i j : Nat), j - i ≤ d → i ≤ j → j ≤ data.length →
      ∃ i1 : Nat, scanUp data (r : Int) (j : Int) (i : Int) = some (i1 : Int) ∧ i ≤ i1 ∧ i1 ≤ j ∧
        (∀ k x, i ≤ k → k < i1 → data[k]? = some x → x.getId ≤ pR.getId) ∧
        (∀ x, data[i1]? = some x → i1 < j → ¬ x.getId ≤ pR.getId) := by
  intro d
  induction d with
  | zero =>
    intro i j hd hij _
    have : i = j := by omega
    subst this
    refine ⟨i, ?_, le_refl _, le_refl _, fun k x h1 h2 => by omega, fun x _ h => by omega⟩
    rw [scanUp]; simp
  | succ d ih =>
    intro i j hd hij hjn
    by_cases hlt : i < j
    · have hil : i < data.length := by omega
      have hxi : data[i]? = some data[i] := List.getElem?_eq_getElem hil
      rw [scanUp]
      have hlt' : (i : Int) < (j : Int) := by omega
      simp only [hlt', if_true, FileNode.at_natCast, hxi, hr]
      by_cases hle : data[i].getId ≤ pR.getId
      · simp only [hle, if_true]
        obtain ⟨i1, h1, h2, h3, h4, h5⟩ := ih (i + 1) j (by omega) (by omega) hjn
        have hc : ((i : Int) + 1) = ((i + 1 : Nat) : Int) := by omega
        rw [hc]
        refine ⟨i1, h1, by omega, h3, ?_, h5⟩
        intro k x hk1 hk2 hkx
        by_cases hki : k = i
        · subst hki
          rw [hxi] at hkx
          simp only [Option.some.injEq] at hkx
          subst hkx
          exact hle
        · exact h4 k x (by omega) hk2 hkx
      · simp only [hle, if_false]
        refine ⟨i, rfl, le_refl _, by omega, fun k x h1 h2 => by omega, ?_⟩
        intro x hx _
        rw [hxi] at hx
        simp only [Option.some.injEq] at hx
        subst hx
        exact hle
    · have : i = j := by omega
      subst this
      refine ⟨i, ?_, le_refl _, le_refl _, fun k x h1 h2 => by omega, fun x _ h => by omega⟩
      rw [scanUp]; simp

theorem scanDown_spec (data : List FileNode) (r : Nat) (pR : FileNode)
    (hr : data[r]? = some pR) :
    ∀ (d i j : Nat), j - i ≤ d → i ≤ j → j < data.length →
      ∃ j1 : Nat, scanDown data (r : Int) (i : Int) (j : Int) = some (j1 : Int) ∧ i ≤ j1 ∧
        j1 ≤ j ∧
        (∀ k x, j1 < k → k ≤ j → data[k]? = some x → pR.getId ≤ x.getId) ∧
        (∀ x, data[j1]? = some x → i < j1 → ¬ pR.getId ≤ x.getId) := by
  intro d
  induction d with
  | zero =>
    intro i j hd hij _
    have : i = j := by omega
    subst this
    refine ⟨i, ?_, le_refl _, le_refl _, fun k x h1 h2 => by omega, fun x _ h => by omega⟩
    rw [scanDown]; simp
  | succ d ih =>
    intro i j hd hij hjn
    by_cases hlt : i < j
    · have hxj : data[j]? = some data[j] := List.getElem?_eq_getElem hjn
      rw [scanDown]
      have hlt' : (i : Int) < (j : Int) := by omega
      simp only [hlt', if_true, FileNode.at_natCast, hxj, hr]
      by_cases hle : data[j].getId ≥ pR.getId
      · simp only [hle, if_true]
        have hc : ((j : Int) - 1) = ((j - 1 : Nat) : Int) := by omega
        rw [hc]
        obtain ⟨j1, h1, h2, h3, h4, h5⟩ := ih i (j - 1) (by omega) (by omega) (by omega)
        refine ⟨j1, h1, h2, by omega, ?_, h5⟩
        intro k x hk1 hk2 hkx
        by_cases hkj : k = j
        · subst hkj
          rw [hxj] at hkx
          simp only [Option.some.injEq] at hkx
          subst hkx
          exact hle
        · exact h4 k x hk1 (by omega) hkx
      · simp only [hle, if_false]
        refine ⟨j, rfl, by omega, le_refl _, fun k x h1 h2 => by omega, ?_⟩
        intro x hx _
        rw [hxj] at hx
        simp only [Option.some.injEq] at hx
        subst hx
        exact hle
    · have : i = j := by omega
      subst this
      refine ⟨i, ?_, le_refl _, le_refl _, fun k x h1 h2 => by omega, fun x _ h => by omega⟩
      rw [scanDown]; simp

end Directory

namespace Directory

theorem partitionLoop_spec (lo r : Nat) (pR : FileNode) :
    ∀ (fuel : Nat) (data : List FileNode) (i j : Nat),
      lo ≤ i → i ≤ j → j ≤ r → r < data.length → data[r]? = some pR →
      (∀ k x, lo ≤ k → k < i → data[k]? = some x → x.getId ≤ pR.getId) →
      (∀ k x, j ≤ k → k ≤ r → data[k]? = some x → pR.getId ≤ x.getId) →
      j - i + 1 ≤ fuel →
      ∃ (data1 : List FileNode) (m : Nat),
        partitionLoop fuel data (r : Int) (i : Int) (j : Int)
          = some (data1, (m : Int), (m : Int)) ∧
        i ≤ m ∧ m ≤ j ∧ Within i (j + 1) data data1 ∧ data1[r]? = some pR ∧
        (∀ k x, lo ≤ k → k < m → data1[k]? = some x → x.getId ≤ pR.getId) ∧
        (∀ k x, m ≤ k → k ≤ r → data1[k]? = some x → pR.getId ≤ x.getId) := by
  intro fuel
  induction fuel with
  | zero => intro data i j _ _ _ _ _ _ _ hf; omega
  | succ fuel ih =>
    intro data i j hlo hij hjr hrn hr hA hB hf
    by_cases hlt : i < j
    · have hlt' : (i : Int) < (j : Int) := by omega
      obtain ⟨i1, hs1, hi1a, hi1b, hup, hstop1⟩ :=
        scanUp_spec data r pR hr (j - i) i j (le_refl _) hij (by omega)
      obtain ⟨j1, hs2, hj1a, hj1b, hdown, hstop2⟩ :=
        scanDown_spec data r pR hr (j - i1) i1 j (le_refl _) hi1b (by omega)
      rw [partitionLoop]
      simp only [hlt', if_true, hs1, hs2]
      by_cases hsw : i1 = j1
      · subst hsw
        simp only [ne_eq, not_true_eq_false, if_false]
        have hA1 : ∀ k x, lo ≤ k → k < i1 → data[k]? = some x → x.getId ≤ pR.getId := by
          intro k x h1 h2 hx
          by_cases hk : k < i
          · exact hA k x h1 hk hx
          · exact hup k x (by omega) h2 hx
        have hB1 : ∀ k x, i1 ≤ k → k ≤ r → data[k]? = some x → pR.getId ≤ x.getId := by
          intro k x h1 h2 hx
          by_cases hk : k = i1
          · subst hk
            by_cases hkj : k < j
            · have hny := hstop1 x hx hkj
              omega
            · exact hB k x (by omega) h2 hx
          · by_cases hkj : k ≤ j
            · exact hdown k x (by omega) hkj hx
            · exact hB k x (by omega) h2 hx
        obtain ⟨data1, m, hres, hm1, hm2, hw, hr1, hA2, hB2⟩ :=
          ih data i1 i1 (by omega) (le_refl _) (by omega) hrn hr hA1 hB1 (by omega)
        exact ⟨data1, m, hres, by omega, by omega,
          within_mono i (j + 1) i1 (i1 + 1) data data1 hi1a (by omega) hw, hr1, hA2, hB2⟩
      · have hij1 : i1 < j1 := by omega
        obtain ⟨x1, hx1⟩ : ∃ x1, data[i1]? = some x1 :=
          ⟨_, List.getElem?_eq_getElem (by omega)⟩
        obtain ⟨y1, hy1⟩ : ∃ y1, data[j1]? = some y1 :=
          ⟨_, List.getElem?_eq_getElem (by omega)⟩
        have hnx1 := hstop1 x1 hx1 (by omega)
        have hny1 := hstop2 y1 hy1 hij1
        have hj1j : j1 < j := by
          by_contra hcon
          have : j1 = j := by omega
          subst this
          have := hB j1 y1 (le_refl _) hjr hy1
          omega
        have hne : ¬ ((i1 : Int) = (j1 : Int)) := by omega
        simp only [ne_eq, hne, not_false_eq_true, if_true, swap_eq data i1 j1 x1 y1 hx1 hy1]
        have hget := getElem?_swap data i1 j1
        have hA1 : ∀ k x, lo ≤ k → k < i1 →
            ((data.set i1 y1).set j1 x1)[k]? = some x → x.getId ≤ pR.getId := by
          intro k x h1 h2 hx
          rw [hget k x1 y1 hx1 hy1, if_neg (by omega), if_neg (by omega)] at hx
          by_cases hk : k < i
          · exact hA k x h1 hk hx
          · exact hup k x (by omega) h2 hx
        have hB1 : ∀ k x, j1 ≤ k → k ≤ r →
            ((data.set i1 y1).set j1 x1)[k]? = some x → pR.getId ≤ x.getId := by
          intro k x h1 h2 hx
          rw [hget k x1 y1 hx1 hy1] at hx
          by_cases hk : k = j1
          · rw [if_pos hk] at hx
            simp only [Option.some.injEq] at hx
            subst hx
            omega
          · rw [if_neg hk, if_neg (by omega)] at hx
            by_cases hkj : k ≤ j
            · exact hdown k x (by omega) hkj hx
            · exact hB k x (by omega) h2 hx
        have hr1 : ((data.set i1 y1).set j1 x1)[r]? = some pR := by
          rw [hget r x1 y1 hx1 hy1, if_neg (by omega), if_neg (by omega)]
          exact hr
        obtain ⟨data1, m, hres, hm1, hm2, hw, hr2, hA2, hB2⟩ :=
          ih ((data.set i1 y1).set j1 x1) i1 j1 (by omega) (by omega) (by omega)
            (by simpa using hrn) hr1 hA1 hB1 (by omega)
        refine ⟨data1, m, hres, by omega, by omega, ?_, hr2, hA2, hB2⟩
        exact within_trans i (j + 1) _ _ _
          (within_swap i (j + 1) data i1 j1 x1 y1 hi1a (by omega) (by omega) (by omega) hx1 hy1)
          (within_mono i (j + 1) i1 (j1 + 1) _ _ hi1a (by omega) hw)
    · have hij' : i = j := by omega
      subst hij'
      rw [partitionLoop]
      simp only [lt_self_iff_false, if_false]
      exact ⟨data, i, rfl, le_refl _, le_refl _, within_refl _ _ _, hr, hA, hB⟩

end Directory

namespace Directory

theorem sortDataQuick_spec :
    ∀ (fuel : Nat) (data : List FileNode) (lo hi : Nat),
      lo ≤ hi → hi ≤ data.length → hi - lo + 1 ≤ fuel →
      ∃ data1, sortDataQuick fuel (lo : Int) ((hi : Int) - 1) data = some data1 ∧
        Within lo hi data data1 ∧
        (∀ k1 k2 x y, lo ≤ k1 → k1 ≤ k2 → k2 < hi → data1[k1]? = some x →
          data1[k2]? = some y → x.getId ≤ y.getId) := by
  intro fuel
  induction fuel with
  | zero => intro data lo hi _ _ hf; omega
  | succ fuel ih =>
    intro data lo hi hlh hhn hf
    rw [sortDataQuick]
    by_cases hge : (lo : Int) ≥ (hi : Int) - 1
    · simp only [hge, if_true]
      refine ⟨data, rfl, within_refl _ _ _, ?_⟩
      intro k1 k2 x y h1 h2 h3 hx hy
      have hk : k1 = k2 := by omega
      subst hk
      rw [hx] at hy
      simp only [Option.some.injEq] at hy
      subst hy
      exact le_refl _
    · simp only [hge, if_false]
      obtain ⟨r, hr⟩ : ∃ r : Nat, hi = r + 1 := ⟨hi - 1, by omega⟩
      subst hr
      have hc : (((r + 1 : Nat) : Int) - 1) = (r : Int) := by omega
      rw [hc]
      obtain ⟨pR, hpR⟩ : ∃ pR, data[r]? = some pR := ⟨_, List.getElem?_eq_getElem (by omega)⟩
      obtain ⟨data1, m, hloop, hm1, hm2, hw1, hr1, hA1, hB1⟩ :=
        partitionLoop_spec lo r pR fuel data lo r (le_refl _) (by omega) (le_refl _) (by omega)
          hpR (fun k x h1 h2 => by omega)
          (fun k x h1 h2 hx => by
            have hk : k = r := by omega
            subst hk
            rw [hpR] at hx
            simp only [Option.some.injEq] at hx
            subst hx
            exact le_refl _)
          (by omega)
      rw [hloop]
      simp only
      have hlen1 : data1.length = data.length := hw1.1.length_eq
      obtain ⟨data2, hswap, hw2, hm, hA2, hB2⟩ : ∃ data2,
          (if (m : Int) ≠ (r : Int) then swap data1 (m : Int) (r : Int) else some data1)
            = some data2 ∧
          Within lo (r + 1) data1 data2 ∧ data2[m]? = some pR ∧
          (∀ k x, lo ≤ k → k < m → data2[k]? = some x → x.getId ≤ pR.getId) ∧
          (∀ k x, m < k → k ≤ r → data2[k]? = some x → pR.getId ≤ x.getId) := by
        by_cases hmr : m = r
        · subst hmr
          refine ⟨data1, by simp, within_refl _ _ _, hr1, hA1, ?_⟩
          intro k x h1 h2
          omega
        · have hne : ¬ ((m : Int) = (r : Int)) := by omega
          obtain ⟨xm, hxm⟩ : ∃ xm, data1[m]? = some xm :=
            ⟨_, List.getElem?_eq_getElem (by omega)⟩
          refine ⟨(data1.set m pR).set r xm, ?_, ?_, ?_, ?_, ?_⟩
          · simp only [ne_eq, hne, not_false_eq_true, if_true]
            exact swap_eq data1 m r xm pR hxm hr1
          · exact within_swap lo (r + 1) data1 m r xm pR hm1 (by omega) (by omega) (by omega)
              hxm hr1
          · rw [getElem?_swap data1 m r m xm pR hxm hr1, if_neg hmr, if_pos rfl]
          · intro k x h1 h2 hx
            rw [getElem?_swap data1 m r k xm pR hxm hr1, if_neg (by omega),
              if_neg (by omega)] at hx
            exact hA1 k x h1 h2 hx
          · intro k x h1 h2 hx
            rw [getElem?_swap data1 m r k xm pR hxm hr1] at hx
            by_cases hk : k = r
            · rw [if_pos hk] at hx
              simp only [Option.some.injEq] at hx
              subst hx
              exact hB1 m xm (le_refl _) hm2 hxm
            · rw [if_neg hk, if_neg (by omega)] at hx
              exact hB1 k x (by omega) h2 hx
      rw [hswap]
      simp only
      have hlen2 : data2.length = data1.length := hw2.1.length_eq
      obtain ⟨data3, hs3, hw3, hsorted3⟩ := ih data2 lo m hm1 (by omega) (by omega)
      rw [hs3]
      simp only
      have hlen3 : data3.length = data2.length := hw3.1.length_eq
      obtain ⟨data4, hs4, hw4, hsorted4⟩ := ih data3 (m + 1) (r + 1) (by omega) (by omega)
        (by omega)
      have hc2 : ((m : Int) + 1) = ((m + 1 : Nat) : Int) := by omega
      rw [hc] at hs4
      rw [hc2, hs4]
      refine ⟨data4, rfl, ?_, ?_⟩
      · exact within_trans lo (r + 1) _ _ _ hw1
          (within_trans lo (r + 1) _ _ _ hw2
            (within_trans lo (r + 1) _ _ _
              (within_mono lo (r + 1) lo m _ _ (le_refl _) (by omega) hw3)
              (within_mono lo (r + 1) (m + 1) (r + 1) _ _ (by omega) (le_refl _) hw4)))
      · have hlow : ∀ k x, lo ≤ k → k < m → data4[k]? = some x → x.getId ≤ pR.getId := by
          intro k x h1 h2 hx
          rw [hw4.2.1 k (Or.inl (by omega))] at hx
          exact hw3.2.2 (fun z => z.getId ≤ pR.getId) hA2 k x h1 h2 hx
        have hmid : data4[m]? = some pR := by
          rw [hw4.2.1 m (Or.inl (by omega)), hw3.2.1 m (Or.inr (le_refl _))]
          exact hm
        have hhigh : ∀ k x, m + 1 ≤ k → k < r + 1 → data4[k]? = some x →
            pR.getId ≤ x.getId := by
          intro k x h1 h2 hx
          refine hw4.2.2 (fun z => pR.getId ≤ z.getId) ?_ k x h1 h2 hx
          intro k' x' h1' h2' hx'
          rw [hw3.2.1 k' (Or.inr (by omega))] at hx'
          exact hB2 k' x' (by omega) (by omega) hx'
        intro k1 k2 x y h1 h2 h3 hx hy
        rcases Nat.lt_trichotomy k1 m with hk1 | hk1 | hk1
        · have hxle := hlow k1 x h1 hk1 hx
          rcases Nat.lt_trichotomy k2 m with hk2 | hk2 | hk2
          · rw [hw4.2.1 k1 (Or.inl (by omega))] at hx
            rw [hw4.2.1 k2 (Or.inl (by omega))] at hy
            exact hsorted3 k1 k2 x y h1 h2 hk2 hx hy
          · subst hk2
            rw [hmid] at hy
            simp only [Option.some.injEq] at hy
            subst hy
            exact hxle
          · exact le_trans hxle (hhigh k2 y (by omega) h3 hy)
        · subst hk1
          rw [hmid] at hx
          simp only [Option.some.injEq] at hx
          subst hx
          rcases Nat.eq_or_lt_of_le h2 with hk2 | hk2
          · rw [← hk2, hmid] at hy
            simp only [Option.some.injEq] at hy
            subst hy
            exact le_refl _
          · exact hhigh k2 y (by omega) h3 hy
        · exact hsorted4 k1 k2 x y (by omega) h2 h3 hx hy

theorem partitionLoop_fuel_succ :
    ∀ (fuel : Nat) (data : List FileNode) (r i j : Int) (res : List FileNode × Int × Int),
      partitionLoop fuel data r i j = some res → partitionLoop (fuel + 1) data r i j = some res := by
  intro fuel
  induction fuel with
  | zero => intro data r i j res h; simp [partitionLoop] at h
  | succ fuel ih =>
    intro data r i j res h
    rw [partitionLoop] at h
    rw [partitionLoop]
    by_cases hlt : i < j
    · simp only [hlt, if_true] at h ⊢
      cases h1 : scanUp data r j i with
      | none => rw [h1] at h; cases h
      | some i1 =>
        rw [h1] at h
        simp only at h ⊢
        cases h2 : scanDown data r i1 j with
        | none => rw [h2] at h; cases h
        | some j1 =>
          rw [h2] at h
          simp only at h ⊢
          cases h3 : (if i1 ≠ j1 then swap data i1 j1 else some data) with
          | none => rw [h3] at h; cases h
          | some data1 =>
            rw [h3] at h
            simp only at h ⊢
            exact ih data1 r i1 j1 res h
    · simp only [hlt, if_false] at h ⊢
      exact h

theorem sortDataQuick_fuel_succ :
    ∀ (fuel : Nat) (lo hi : Int) (data out : List FileNode),
      sortDataQuick fuel lo hi data = some out → sortDataQuick (fuel + 1) lo hi data = some out := by
  intro fuel
  induction fuel with
  | zero => intro lo hi data out h; simp [sortDataQuick] at h
  | succ fuel ih =>
    intro lo hi data out h
    rw [sortDataQuick] at h
    rw [sortDataQuick]
    by_cases hge : lo ≥ hi
    · simp only [hge, if_true] at h ⊢
      exact h
    · simp only [hge, if_false] at h ⊢
      cases h1 : partitionLoop fuel data hi lo hi with
      | none => rw [h1] at h; cases h
      | some res =>
        obtain ⟨data1, i, j⟩ := res
        rw [h1] at h
        rw [partitionLoop_fuel_succ fuel data hi lo hi _ h1]
        simp only at h ⊢
        cases h2 : (if i ≠ hi then swap data1 i hi else some data1) with
        | none => rw [h2] at h; cases h
        | some data2 =>
          rw [h2] at h
          simp only at h ⊢
          cases h3 : sortDataQuick fuel lo (i - 1) data2 with
          | none => rw [h3] at h; cases h
          | some data3 =>
            rw [h3] at h
            rw [ih lo (i - 1) data2 data3 h3]
            simp only at h ⊢
            exact ih (i + 1) hi data3 out h

theorem sortDataQuick_fuel_le (lo hi : Int) (data out : List FileNode) (fuel : Nat)
    (h : sortDataQuick fuel lo hi data = some out) :
    ∀ fuel1, fuel ≤ fuel1 → sortDataQuick fuel1 lo hi data = some out := by
  intro fuel1 hle
  induction fuel1 with
  | zero =>
    have : fuel = 0 := by omega
    subst this
    exact h
  | succ n ih =>
    by_cases hn : fuel ≤ n
    · exact sortDataQuick_fuel_succ n lo hi data out (ih hn)
    · have : fuel = n + 1 := by omega
      subst this
      exact h

end Directory

/-- C2: for every array `data`, `sortDataQuick(0, n-1, data)` with `n = data.size()` terminates
(with any fuel from `n + 1` on the run completes, always with the same array `out`), and `out`
is a permutation of `data` ordered ascending by id: every earlier element has an id at most
that of every later one, in particular `out[k].id <= out[k+1].id` for every `k`. -/
theorem C2_sortDataQuick_sorts (data : arreglo_lista FileNode) :
    ∃ out : arreglo_lista FileNode,
      (∀ fuel, data.length + 1 ≤ fuel →
        Directory.sortDataQuick fuel 0 ((data.length : Int) - 1) data = some out) ∧
      List.Perm out data ∧
      List.Pairwise (fun a b : FileNode => a.getId ≤ b.getId) out ∧
      (∀ k (h : k + 1 < out.length),
        (out.get ⟨k, by omega⟩).getId ≤ (out.get ⟨k + 1, h⟩).getId) := by
  obtain ⟨out, hs, hw, hsorted⟩ := Directory.sortDataQuick_spec (data.length + 1) data 0
    data.length (Nat.zero_le _) (le_refl _) (by omega)
  have hlen : out.length = data.length := hw.1.length_eq
  refine ⟨out, ?_, hw.1, ?_, ?_⟩
  · intro fuel hf
    exact Directory.sortDataQuick_fuel_le 0 _ data out _ (by simpa using hs) fuel hf
  · rw [List.pairwise_iff_getElem]
    intro i j hi hj hij
    exact hsorted i j _ _ (Nat.zero_le _) (by omega) (by omega)
      (List.getElem?_eq_getElem hi) (List.getElem?_eq_getElem hj)
  · intro k h
    exact hsorted k (k + 1) _ _ (Nat.zero_le _) (by omega) (by omega)
      (List.getElem?_eq_getElem (by omega)) (List.getElem?_eq_getElem h)

/-- C3 (evaluation of the code): called on a node with id 0, the search for id 3 in the array
of ids 1, 2, 3 (sorted, distinct) returns `nullptr` although the third element carries id 3. -/
theorem C3_busqueda_misses_present_id :
    FileNode.busquedaBinariaChildrenId (FileNode.new 0 0 "root" NodeType.Directory) sampleData
      3 0 2 = some none := by
  rw [FileNode.busquedaBinariaChildrenId]
  simp [sampleData, arreglo_lista.at, FileNode.new, FileNode.getId, FileNode.fields, Int.tdiv]
  rw [FileNode.busquedaBinariaChildrenId]
  simp [arreglo_lista.at, FileNode.new, FileNode.getId, FileNode.fields, Int.tdiv]
  rw [FileNode.busquedaBinariaChildrenId]
  simp

/-- C4: for every array and every id carried by none of its elements, the binary search over the
whole array returns not-found; and whenever it returns a node, that node is an element of the
array whose id is the id searched for.  The function is total, so the search terminates. -/
theorem C4_busqueda_absent_not_found (self : FileNode) (data : arreglo_lista FileNode) (id : Int) :
    ((∀ x ∈ data, x.getId ≠ id) →
      FileNode.busquedaBinariaChildrenId self data id 0 ((data.length : Int) - 1) = some none) ∧
    (∀ m, FileNode.busquedaBinariaChildrenId self data id 0 ((data.length : Int) - 1)
        = some (some m) → m.getId = id ∧ m ∈ data) := by
  constructor
  · intro h
    exact FileNode.busqueda_absent self data id h _ 0 _ (le_refl _) (le_refl _) (by omega)
  · intro m hm
    exact FileNode.busqueda_found self data id m _ 0 _ (le_refl _) hm

/-- C5: when some child of `p` is named `s`, `deleteChild(s)` returns true and the children array
becomes the old one without its first child named `s`: with the array split at that child as
`pre ++ x :: post`, the new array is `pre ++ post`, and the other fields of `p` are unchanged. -/
theorem C5_deleteChild_removes_first (p : FileNode) (s : String)
    (h : ∃ c ∈ p.getChildren, c.getName = s) :
    ∃ pre x post, p.getChildren = pre ++ x :: post ∧ x.getName = s ∧
      (∀ c ∈ pre, c.getName ≠ s) ∧
      p.deleteChild s = (true, FileNode.mk p.fields (pre ++ post)) := by
  obtain ⟨pre, x, post, e, hx, hpre, _⟩ := FileNode.deleteChildIndex_split s p.getChildren h
  exact ⟨pre, x, post, e, hx, hpre, FileNode.deleteChild_split s p pre post x e hx hpre⟩

namespace FileNode

theorem fields_mk (f : NodeFields) (cs : List FileNode) : (FileNode.mk f cs).fields = f := rfl

theorem getChildren_mk (f : NodeFields) (cs : List FileNode) :
    (FileNode.mk f cs).getChildren = cs := rfl

theorem nodesList_append (xs ys : List FileNode) :
    nodesList (xs ++ ys) = nodesList xs ++ nodesList ys := by
  induction xs with
  | nil => simp [nodesList]
  | cons c rest ih => simp [nodesList, ih]

theorem nodesList_cons (c : FileNode) (rest : List FileNode) :
    nodesList (c :: rest) = nodes c ++ nodesList rest := by
  simp [nodesList]

theorem nodes_eq (n : FileNode) : n.nodes = n :: nodesList n.getChildren := by
  cases n with
  | mk f cs => simp [nodes, getChildren]

theorem deref_self (n : FileNode) : n.deref n.addr = some n := by
  cases n with
  | mk f cs => simp [deref, addr, fields]

mutual
theorem deref_addr (a : Nat) (t n : FileNode) (h : t.deref a = some n) : n.addr = a := by
  match t with
  | .mk f cs =>
    rw [deref] at h
    by_cases hf : f.addr = a
    · simp only [hf, if_true, Option.some.injEq] at h
      subst h
      simpa [addr, fields] using hf
    · simp only [hf, if_false] at h
      exact derefList_addr a cs n h
theorem derefList_addr (a : Nat) (cs : List FileNode) (n : FileNode)
    (h : derefList a cs = some n) : n.addr = a := by
  match cs with
  | [] => simp [derefList] at h
  | c :: rest =>
    rw [derefList] at h
    cases hc : deref a c with
    | some m =>
      rw [hc] at h
      simp only [Option.some.injEq] at h
      subst h
      exact deref_addr a c m hc
    | none =>
      rw [hc] at h
      exact derefList_addr a rest n h
end

mutual
theorem update_none (a : Nat) (g : FileNode → FileNode) (t : FileNode) (h : t.deref a = none) :
    t.update a g = none := by
  match t with
  | .mk f cs =>
    rw [deref] at h
    by_cases hf : f.addr = a
    · simp [hf] at h
    · simp only [hf, if_false] at h
      simp [update, hf, updateList_none a g cs h]
theorem updateList_none (a : Nat) (g : FileNode → FileNode) (cs : List FileNode)
    (h : derefList a cs = none) : updateList a g cs = none := by
  match cs with
  | [] => simp [updateList]
  | c :: rest =>
    rw [derefList] at h
    cases hc : deref a c with
    | some m => rw [hc] at h; cases h
    | none =>
      rw [hc] at h
      simp [updateList, update_none a g c hc, updateList_none a g rest h]
end

theorem record_mk (f : NodeFields) (cs : List FileNode) :
    (FileNode.mk f cs).record = (f, cs.length) := rfl

mutual
theorem update_spec (a : Nat) (t n : FileNode) (h : t.deref a = some n) :
    ∃ l1 l2, t.nodes.map record = l1 ++ n.nodes.map record ++ l2 ∧
      ∀ g : FileNode → FileNode, ∃ t1, t.update a g = some t1 ∧
        t1.nodes.map record = l1 ++ (g n).nodes.map record ++ l2 ∧
        ((g n).addr = a → t1.deref a = some (g n)) ∧ (g n = n → t1 = t) := by
  match t with
  | .mk f cs =>
    rw [deref] at h
    by_cases hf : f.addr = a
    · simp only [hf, if_true, Option.some.injEq] at h
      subst h
      refine ⟨[], [], by simp, fun g => ⟨g (.mk f cs), by simp [update, hf], by simp, ?_, ?_⟩⟩
      · intro hg
        rw [← hg]
        exact deref_self _
      · intro hg
        exact hg
    · simp only [hf, if_false] at h
      obtain ⟨l1, l2, e, hg⟩ := updateList_spec a cs n h
      refine ⟨(f, cs.length) :: l1, l2, by simp [nodes, record, fields, getChildren, e], ?_⟩
      intro g
      obtain ⟨cs1, hu, hlen, e1, hd, hid⟩ := hg g
      refine ⟨.mk f cs1, by simp [update, hf, hu], ?_, ?_, ?_⟩
      · simp [nodes, record, fields, getChildren, e1, hlen]
      · intro hga
        rw [deref]
        simp only [hf, if_false]
        exact hd hga
      · intro hgn
        rw [hid hgn]
theorem updateList_spec (a : Nat) (cs : List FileNode) (n : FileNode)
    (h : derefList a cs = some n) :
    ∃ l1 l2, (nodesList cs).map record = l1 ++ n.nodes.map record ++ l2 ∧
      ∀ g : FileNode → FileNode, ∃ cs1, updateList a g cs = some cs1 ∧ cs1.length = cs.length ∧
        (nodesList cs1).map record = l1 ++ (g n).nodes.map record ++ l2 ∧
        ((g n).addr = a → derefList a cs1 = some (g n)) ∧ (g n = n → cs1 = cs) := by
  match cs with
  | [] => simp [derefList] at h
  | c :: rest =>
    rw [derefList] at h
    cases hc : deref a c with
    | some m =>
      rw [hc] at h
      simp only [Option.some.injEq] at h
      subst h
      obtain ⟨l1, l2, e, hg⟩ := update_spec a c m hc
      refine ⟨l1, l2 ++ (nodesList rest).map record, by simp [nodesList, e], ?_⟩
      intro g
      obtain ⟨c1, hu, e1, hd, hid⟩ := hg g
      refine ⟨c1 :: rest, by simp [updateList, hu], by simp, by simp [nodesList, e1], ?_, ?_⟩
      · intro hga
        simp [derefList, hd hga]
      · intro hgn
        rw [hid hgn]
    | none =>
      rw [hc] at h
      obtain ⟨l1, l2, e, hg⟩ := updateList_spec a rest n h
      refine ⟨c.nodes.map record ++ l1, l2, by simp [nodesList, e], ?_⟩
      intro g
      obtain ⟨rest1, hu, hlen, e1, hd, hid⟩ := hg g
      refine ⟨c :: rest1, by simp [updateList, update_none a g c hc, hu], by simp [hlen],
        by simp [nodesList, e1], ?_, ?_⟩
      · intro hga
        simp [derefList, hc, hd hga]
      · intro hgn
        rw [hid hgn]
end

mutual
theorem dfs_none_of_absent (s : String) (t : FileNode) (h : ∀ m ∈ t.nodes, m.getName ≠ s) :
    t.dfs s = none := by
  match t with
  | .mk f cs =>
    rw [nodes] at h
    have hf : ¬ f.name = s := h (.mk f cs) (by simp)
    rw [dfs]
    simp only [hf, if_false]
    exact dfsChildren_none_of_absent s cs (fun m hm => h m (List.mem_cons_of_mem _ hm))
theorem dfsChildren_none_of_absent (s : String) (cs : List FileNode)
    (h : ∀ m ∈ nodesList cs, m.getName ≠ s) : dfsChildren s cs = none := by
  match cs with
  | [] => simp [dfsChildren]
  | c :: rest =>
    have hc := dfs_none_of_absent s c (fun m hm => h m (by simp [nodesList, hm]))
    have hr := dfsChildren_none_of_absent s rest (fun m hm => h m (by simp [nodesList, hm]))
    have hn : ¬ c.getName = s := h c (by simp [nodesList, self_mem_nodes])
    rw [dfsChildren, hc]
    simp [hn, hr]
end

end FileNode

namespace Directory

theorem setContentLoop_split (a x : String) (pre post : List FileNode) (f : FileNode)
    (hf : f.getName = a ∧ f.getType = NodeType.File)
    (hpre : ∀ c ∈ pre, ¬ (c.getName = a ∧ c.getType = NodeType.File)) :
    setContentLoop a x (pre ++ f :: post) = pre ++ f.setContent x :: post := by
  induction pre with
  | nil => simp [setContentLoop, hf]
  | cons c rest ih =>
    have hc := hpre c (by simp)
    rw [List.cons_append, setContentLoop, if_neg hc,
      ih (fun y hy => hpre y (List.mem_cons_of_mem _ hy)), List.cons_append]

theorem setContentLoop_absent (a x : String) (cs : List FileNode)
    (h : ∀ c ∈ cs, ¬ (c.getName = a ∧ c.getType = NodeType.File)) :
    setContentLoop a x cs = cs := by
  induction cs with
  | nil => rfl
  | cons c rest ih =>
    have hc := h c (by simp)
    rw [setContentLoop, if_neg hc, ih (fun y hy => h y (List.mem_cons_of_mem _ hy))]

theorem getContentLoop_split (a : String) (pre post : List FileNode) (f : FileNode)
    (hf : f.getName = a ∧ f.getType = NodeType.File)
    (hpre : ∀ c ∈ pre, ¬ (c.getName = a ∧ c.getType = NodeType.File)) :
    getContentLoop a (pre ++ f :: post) = f.getContent := by
  induction pre with
  | nil => simp [getContentLoop, hf]
  | cons c rest ih =>
    have hc := hpre c (by simp)
    rw [List.cons_append, getContentLoop, if_neg hc,
      ih (fun y hy => hpre y (List.mem_cons_of_mem _ hy))]

theorem getContentLoop_absent (a : String) (cs : List FileNode)
    (h : ∀ c ∈ cs, ¬ (c.getName = a ∧ c.getType = NodeType.File)) :
    getContentLoop a cs = "noSeEncontro" := by
  induction cs with
  | nil => rfl
  | cons c rest ih =>
    have hc := h c (by simp)
    rw [getContentLoop, if_neg hc, ih (fun y hy => h y (List.mem_cons_of_mem _ hy))]

end Directory

namespace Directory

theorem with_root_self (st : Directory) : { st with root := st.root } = st := by
  cases st
  rfl

theorem deleteNode_fields (t t1 cur d : FileNode) (a : Nat) (pre post : List FileNode)
    (hcur : t.deref a = some cur) (hch : cur.getChildren = pre ++ d :: post)
    (hfirst : ∀ c ∈ pre, c.getName ≠ d.getName)
    (hup : t.update a (fun n => (n.deleteChild d.getName).2) = some t1) :
    ∃ fx fy : List NodeFields,
      t.nodes.map FileNode.fields = fx ++ d.nodes.map FileNode.fields ++ fy ∧
      t1.nodes.map FileNode.fields = fx ++ fy := by
  obtain ⟨l1, l2, e, hg⟩ := FileNode.update_spec a t cur hcur
  obtain ⟨t2, hu2, e2, _, _⟩ := hg (fun n => (n.deleteChild d.getName).2)
  rw [hup] at hu2
  simp only [Option.some.injEq] at hu2
  subst hu2
  have hdel := FileNode.deleteChild_split d.getName cur pre post d hch rfl hfirst
  simp only [hdel] at e2
  have hfst : ∀ n : FileNode, (FileNode.record n).1 = n.fields := fun n => rfl
  have hmapf : ∀ l : List FileNode,
      (l.map FileNode.record).map Prod.fst = l.map FileNode.fields := by
    intro l
    simp [List.map_map, Function.comp_def, hfst]
  have e' := congrArg (List.map Prod.fst) e
  have e2' := congrArg (List.map Prod.fst) e2
  rw [hmapf] at e' e2'
  rw [FileNode.nodes_eq cur, hch] at e'
  simp only [List.map_append, hmapf, FileNode.nodesList_append, FileNode.nodesList_cons,
    List.map_cons] at e'
  simp only [List.map_append, hmapf, FileNode.nodes, FileNode.nodesList_append,
    List.map_cons] at e2'
  refine ⟨l1.map Prod.fst ++ cur.fields :: (FileNode.nodesList pre).map FileNode.fields,
    (FileNode.nodesList post).map FileNode.fields ++ l2.map Prod.fst, ?_, ?_⟩
  · rw [e']; simp [hfst]
  · rw [e2']; simp [FileNode.record_mk]

end Directory

/-- C6: when the first child named `d.name` of the current directory is the Directory `d`,
`deleteNode(d.name)` succeeds, the addresses of the nodes owned by root afterwards are exactly
the previous ones that are not in the subtree of `d`, and `findNodeInAll(s)` reports not-found
for every name `s` carried only by nodes of that subtree.  Live nodes have distinct
addresses. -/
theorem C6_deleteNode_removes_subtree (st : Directory) (cur d : FileNode)
    (pre post : List FileNode)
    (hwf : (st.root.nodes.map FileNode.addr).Nodup)
    (hcur : st.root.deref st.currentDirectory = some cur)
    (hch : cur.getChildren = pre ++ d :: post)
    (hfirst : ∀ c ∈ pre, c.getName ≠ d.getName)
    (hdir : d.getType = NodeType.Directory) :
    ∃ st1, st.deleteNode d.getName = some (true, st1) ∧
      st1.currentDirectory = st.currentDirectory ∧
      (∀ a, a ∈ st1.root.nodes.map FileNode.addr ↔
        (a ∈ st.root.nodes.map FileNode.addr ∧ a ∉ d.nodes.map FileNode.addr)) ∧
      (∀ s, (∀ m ∈ st.root.nodes, m.getName = s → m.addr ∈ d.nodes.map FileNode.addr) →
        st1.findNodeInAll s = none) := by
  have _ := hdir
  obtain ⟨_, _, _, hg⟩ := FileNode.update_spec st.currentDirectory st.root cur hcur
  obtain ⟨t1, hu, _, _, _⟩ := hg (fun n => (n.deleteChild d.getName).2)
  have hdel := FileNode.deleteChild_split d.getName cur pre post d hch rfl hfirst
  obtain ⟨fx, fy, ef, ef1⟩ :=
    Directory.deleteNode_fields st.root t1 cur d st.currentDirectory pre post hcur hch hfirst hu
  have haddr : ∀ l : List FileNode,
      l.map FileNode.addr = (l.map FileNode.fields).map NodeFields.addr := by
    intro l
    simp [List.map_map, Function.comp_def, FileNode.addr]
  have hA : st.root.nodes.map FileNode.addr
      = fx.map NodeFields.addr ++ d.nodes.map FileNode.addr ++ fy.map NodeFields.addr := by
    rw [haddr, ef, haddr d.nodes]; simp
  have hA1 : t1.nodes.map FileNode.addr = fx.map NodeFields.addr ++ fy.map NodeFields.addr := by
    rw [haddr, ef1]; simp
  rw [hA] at hwf
  have hdisj : ∀ a, a ∈ fx.map NodeFields.addr ++ fy.map NodeFields.addr →
      a ∉ d.nodes.map FileNode.addr := by
    intro a ha hd
    rw [List.append_assoc, List.nodup_append] at hwf
    obtain ⟨_, h2, h3⟩ := hwf
    rw [List.nodup_append] at h2
    obtain ⟨_, _, h4⟩ := h2
    rcases List.mem_append.1 ha with h | h
    · exact h3 h (List.mem_append_left _ hd)
    · exact h4 hd h
  have hset : ∀ a, a ∈ t1.nodes.map FileNode.addr ↔
      (a ∈ st.root.nodes.map FileNode.addr ∧ a ∉ d.nodes.map FileNode.addr) := by
    intro a
    rw [hA1, hA]
    constructor
    · intro ha
      refine ⟨?_, hdisj a ha⟩
      rcases List.mem_append.1 ha with h | h
      · simp [h]
      · simp [h]
    · rintro ⟨ha, hnd⟩
      simp only [List.mem_append] at ha ⊢
      rcases ha with (h | h) | h
      · exact Or.inl h
      · exact absurd h hnd
      · exact Or.inr h
  refine ⟨{ st with root := t1 }, ?_, rfl, hset, ?_⟩
  · simp [Directory.deleteNode, hcur, hu, hdel]
  · intro s hs
    apply FileNode.dfs_none_of_absent
    intro m hm hname
    have hmf : m.fields ∈ fx ++ fy := by
      rw [← ef1]
      exact List.mem_map_of_mem _ hm
    have hmt : m.fields ∈ st.root.nodes.map FileNode.fields := by
      rw [ef]
      rcases List.mem_append.1 hmf with h | h
      · simp [h]
      · simp [h]
    obtain ⟨m0, hm0, hm0f⟩ := List.mem_map.1 hmt
    have hin := hs m0 hm0 (by simpa [FileNode.getName, hm0f] using hname)
    have hm0a : m0.addr = m.addr := by simp [FileNode.addr, hm0f]
    rw [hm0a] at hin
    have hma : m.addr ∈ fx.map NodeFields.addr ++ fy.map NodeFields.addr := by
      rw [← hA1]
      exact List.mem_map_of_mem _ hm
    exact hdisj _ hma hin

/-- C7: when no direct child of the current directory is named `s`, `deleteNode(s)` and
`deleteChild(s)` on the current directory return false and the state (tree, child views, cursor,
counters) is the same afterwards. -/
theorem C7_delete_missing_name_no_effect (st : Directory) (cur : FileNode) (s : String)
    (hcur : st.root.deref st.currentDirectory = some cur)
    (hno : ∀ c ∈ cur.getChildren, c.getName ≠ s) :
    st.deleteNode s = some (false, st) ∧ cur.deleteChild s = (false, cur) := by
  have hdel := FileNode.deleteChild_none s cur hno
  obtain ⟨_, _, _, hg⟩ := FileNode.update_spec st.currentDirectory st.root cur hcur
  obtain ⟨t1, hu, _, _, hid⟩ := hg (fun n => (n.deleteChild s).2)
  have ht : t1 = st.root := hid (by simp [hdel])
  subst ht
  refine ⟨?_, hdel⟩
  simp [Directory.deleteNode, hcur, hu, hdel, Directory.with_root_self]

namespace Directory

theorem exists_first_split (P : FileNode → Prop) [DecidablePred P] :
    ∀ cs : List FileNode, (∃ c ∈ cs, P c) →
      ∃ pre f post, cs = pre ++ f :: post ∧ P f ∧ ∀ c ∈ pre, ¬ P c := by
  intro cs
  induction cs with
  | nil => intro h; simp at h
  | cons c rest ih =>
    intro h
    by_cases hc : P c
    · exact ⟨[], c, rest, rfl, hc, by simp⟩
    · have h2 : ∃ y ∈ rest, P y := by
        obtain ⟨y, hy, hP⟩ := h
        rcases List.mem_cons.1 hy with h3 | h3
        · subst h3; exact absurd hP hc
        · exact ⟨y, h3, hP⟩
      obtain ⟨pre, f, post, e, hf, hpre⟩ := ih h2
      refine ⟨c :: pre, f, post, by simp [e], hf, ?_⟩
      intro y hy
      rcases List.mem_cons.1 hy with h3 | h3
      · subst h3; exact hc
      · exact hpre y h3

theorem setContent_spec (st : Directory) (cur f : FileNode) (pre post : List FileNode)
    (a x : String)
    (hcur : st.root.deref st.currentDirectory = some cur)
    (hch : cur.getChildren = pre ++ f :: post)
    (hf : f.getName = a ∧ f.getType = NodeType.File)
    (hpre : ∀ c ∈ pre, ¬ (c.getName = a ∧ c.getType = NodeType.File)) :
    ∃ st1, st.setContent a x = some st1 ∧ st1.getContent a = some x ∧
      st1.currentDirectory = st.currentDirectory ∧
      st1.idIncremental = st.idIncremental ∧ st1.heapNext = st.heapNext ∧
      st1.root.deref st.currentDirectory
        = some (FileNode.mk cur.fields (pre ++ f.setContent x :: post)) ∧
      ∃ l1 l2, st.root.nodes.map FileNode.record = l1 ++ f.record :: l2 ∧
        st1.root.nodes.map FileNode.record = l1 ++ (f.setContent x).record :: l2 ∧
        (f.setContent x).record = ({ f.fields with content := x }, f.getChildren.length) := by
  obtain ⟨l1, l2, e, hg⟩ := FileNode.update_spec st.currentDirectory st.root cur hcur
  obtain ⟨t1, hu, e1, hd, _⟩ := hg (fun c =>
    FileNode.mk c.fields (Directory.setContentLoop a x c.getChildren))
  have hloop := Directory.setContentLoop_split a x pre post f hf hpre
  simp only [hch, hloop] at e1 hd
  have hca : cur.addr = st.currentDirectory := FileNode.deref_addr _ _ _ hcur
  have hd1 := hd (by simpa [FileNode.addr, FileNode.fields] using hca)
  have hf1 : (f.setContent x).getName = a ∧ (f.setContent x).getType = NodeType.File := by
    cases f with
    | mk ff fcs => simpa [FileNode.setContent, FileNode.getName, FileNode.getType,
        FileNode.fields] using hf
  have hget : (f.setContent x).getContent = x := by
    cases f with
    | mk ff fcs => simp [FileNode.setContent, FileNode.getContent, FileNode.fields]
  have hrec : (f.setContent x).record = ({ f.fields with content := x }, f.getChildren.length) := by
    cases f with
    | mk ff fcs => simp [FileNode.setContent, FileNode.record, FileNode.fields,
        FileNode.getChildren]
  have hkids : FileNode.nodesList (f.setContent x).getChildren
      = FileNode.nodesList f.getChildren := by
    cases f with
    | mk ff fcs => simp [FileNode.setContent, FileNode.getChildren]
  refine ⟨{ st with root := t1 }, ?_, ?_, rfl, rfl, rfl, hd1, ?_⟩
  · simp [Directory.setContent, hu]
  · simp only [Directory.getContent, hd1, Option.map_some', FileNode.getChildren]
    rw [Directory.getContentLoop_split a pre post (f.setContent x) hf1 hpre, hget]
  · refine ⟨l1 ++ cur.record :: (FileNode.nodesList pre).map FileNode.record,
      (FileNode.nodesList f.getChildren).map FileNode.record
        ++ (FileNode.nodesList post).map FileNode.record ++ l2, ?_, ?_, hrec⟩
    · rw [e, FileNode.nodes_eq cur, hch]
      simp [FileNode.nodesList_append, FileNode.nodesList_cons, FileNode.nodes_eq f]
    · show t1.nodes.map FileNode.record = _
      have hcr : cur.record = (cur.fields, (pre ++ f :: post).length) := by
        rw [FileNode.record, hch]
      rw [e1, hcr]
      simp [FileNode.nodes, FileNode.nodesList_append, FileNode.nodesList_cons,
        FileNode.nodes_eq (f.setContent x), hkids, FileNode.record_mk]

end Directory

/-- C8: when the current directory has at least one direct File child named `a`, then with `f`
the first such child (other children, also later ones named `a`, are arbitrary),
`setContent(a, x)` followed by `getContent(a)` returns `x`; the children of the current
directory are the old ones with the content of `f` replaced, the cursor and the counters are
unchanged, and the pre-order listing of the whole tree (fields and number of children of each
node) is the old one with only the content in the entry of `f` changed. -/
theorem C8_setContent_getContent (st : Directory) (cur : FileNode) (a x : String)
    (hcur : st.root.deref st.currentDirectory = some cur)
    (hex : ∃ c ∈ cur.getChildren, c.getName = a ∧ c.getType = NodeType.File) :
    ∃ st1 pre f post, cur.getChildren = pre ++ f :: post ∧
      (f.getName = a ∧ f.getType = NodeType.File) ∧
      (∀ c ∈ pre, ¬ (c.getName = a ∧ c.getType = NodeType.File)) ∧
      st.setContent a x = some st1 ∧ st1.getContent a = some x ∧
      st1.currentDirectory = st.currentDirectory ∧
      st1.idIncremental = st.idIncremental ∧ st1.heapNext = st.heapNext ∧
      st1.root.deref st.currentDirectory
        = some (FileNode.mk cur.fields (pre ++ f.setContent x :: post)) ∧
      ∃ l1 l2, st.root.nodes.map FileNode.record = l1 ++ f.record :: l2 ∧
        st1.root.nodes.map FileNode.record = l1 ++ (f.setContent x).record :: l2 ∧
        (f.setContent x).record = ({ f.fields with content := x }, f.getChildren.length) := by
  obtain ⟨pre, f, post, hch, hf, hpre⟩ := Directory.exists_first_split
    (fun c : FileNode => c.getName = a ∧ c.getType = NodeType.File) cur.getChildren hex
  obtain ⟨st1, h⟩ := Directory.setContent_spec st cur f pre post a x hcur hch hf hpre
  exact ⟨st1, pre, f, post, hch, hf, hpre, h⟩

/-- C9: when the current directory has no File child named `a`, `createFile(a)` followed by
`getContent(a)` returns the empty string. -/
theorem C9_createFile_getContent_empty (st : Directory) (cur : FileNode) (a : String)
    (hcur : st.root.deref st.currentDirectory = some cur)
    (hno : ∀ c ∈ cur.getChildren, ¬ (c.getName = a ∧ c.getType = NodeType.File)) :
    ∃ st1, st.createFile a = some st1 ∧ st1.getContent a = some "" := by
  obtain ⟨_, _, _, hg⟩ := FileNode.update_spec st.currentDirectory st.root cur hcur
  obtain ⟨t1, hu, _, hd, _⟩ := hg
    (FileNode.addChild (FileNode.new st.heapNext st.idIncremental a NodeType.File))
  have hca : cur.addr = st.currentDirectory := FileNode.deref_addr _ _ _ hcur
  have hd1 := hd (by
    cases cur with
    | mk cf ccs => simpa [FileNode.addChild, FileNode.addr, FileNode.fields] using hca)
  have h1 : st.createFile a = some (Directory.mk t1 st.currentDirectory
      (st.idIncremental + 1) (st.heapNext + 1)) := by
    simp [Directory.createFile, hu]
  refine ⟨_, h1, ?_⟩
  · simp only [Directory.getContent, hd1, Option.map_some']
    cases cur with
    | mk cf ccs =>
      simp only [FileNode.getChildren] at hno
      simp only [FileNode.addChild, FileNode.getChildren, arreglo_lista.push_final]
      rw [Directory.getContentLoop_split a ccs [] _ (by
        simp [FileNode.new, FileNode.setParent, FileNode.getName, FileNode.getType,
          FileNode.fields]) hno]
      simp [FileNode.new, FileNode.setParent, FileNode.getContent, FileNode.fields]

/-- C10: when no direct child of the current directory is a File named `f`, `getContent(f)`
returns the sentinel "noSeEncontro" and `setContent(f, t)` leaves the state as it was, for
every `t`. -/
theorem C10_content_of_missing_file (st : Directory) (cur : FileNode) (f : String)
    (hcur : st.root.deref st.currentDirectory = some cur)
    (hno : ∀ c ∈ cur.getChildren, ¬ (c.getName = f ∧ c.getType = NodeType.File)) :
    st.getContent f = some "noSeEncontro" ∧ ∀ t, st.setContent f t = some st := by
  constructor
  · simp [Directory.getContent, hcur, Directory.getContentLoop_absent f _ hno]
  · intro t
    obtain ⟨_, _, _, hg⟩ := FileNode.update_spec st.currentDirectory st.root cur hcur
    obtain ⟨t1, hu, _, _, hid⟩ := hg (fun c =>
      FileNode.mk c.fields (Directory.setContentLoop f t c.getChildren))
    have ht : t1 = st.root := hid (by
      rw [Directory.setContentLoop_absent f t _ hno]
      cases cur
      rfl)
    subst ht
    simp [Directory.setContent, hu, Directory.with_root_self]

/-- The sample state is the one the operations build: from a fresh Directory, `createFile("a")`
and `createDirectory("d")`, then `createFile("f")` with the cursor on `d`, and the cursor back on
the root. -/
theorem sampleDir_built :
    (((Directory.new 0 0).createFile "a").bind (Directory.createDirectory "d")).bind
      (fun st => (Directory.createFile "f" { st with currentDirectory := 2 }).map
        (fun st1 => { st1 with currentDirectory := 0 })) = some sampleDir := by
  rfl

/-- Instance of C1 on the sample tree, searching `f` from the root. -/
theorem C1_dfs_first_preorder_witness :
    sampleRoot.dfs "f" = sampleRoot.nodes.find? (fun m => decide (m.getName = "f")) ∧
    (sampleRoot.dfs "f" = none ↔ ∀ m ∈ sampleRoot.nodes, m.getName ≠ "f") :=
  C1_dfs_first_preorder sampleRoot
    (by simp [sampleRoot, sampleFileA, sampleDirD, FileNode.nodes, FileNode.nodesList,
      FileNode.getType, FileNode.getChildren, FileNode.fields])
    sampleRoot (FileNode.self_mem_nodes sampleRoot) "f"

/-- Instance of C4: id 7 is not among the ids 1, 2, 3 of the sample array. -/
theorem C4_busqueda_absent_not_found_witness :
    FileNode.busquedaBinariaChildrenId sampleRoot sampleData 7 0
      ((sampleData.length : Int) - 1) = some none :=
  (C4_busqueda_absent_not_found sampleRoot sampleData 7).1
    (by simp [sampleData, FileNode.new, FileNode.getId, FileNode.fields])

/-- Instance of C5 on the sample root and its child `d`. -/
theorem C5_deleteChild_removes_first_witness :
    ∃ pre x post, sampleRoot.getChildren = pre ++ x :: post ∧ x.getName = "d" ∧
      (∀ c ∈ pre, c.getName ≠ "d") ∧
      sampleRoot.deleteChild "d" = (true, FileNode.mk sampleRoot.fields (pre ++ post)) :=
  C5_deleteChild_removes_first sampleRoot "d" ⟨sampleDirD, by simp [sampleRoot, FileNode.getChildren], rfl⟩

/-- Instance of C6 on the sample state: after `deleteNode("d")`, `findNodeInAll("f")` reports not-found. -/
theorem C6_deleteNode_removes_subtree_witness :
    ∃ st1, sampleDir.deleteNode "d" = some (true, st1) ∧ st1.findNodeInAll "f" = none := by
  obtain ⟨st1, h1, _, _, h4⟩ := C6_deleteNode_removes_subtree sampleDir sampleRoot sampleDirD
    [sampleFileA] []
    (by decide) rfl rfl
    (by simp [sampleFileA, sampleDirD, FileNode.getName, FileNode.fields]) rfl
  refine ⟨st1, h1, h4 "f" ?_⟩
  simp [sampleDir, sampleRoot, sampleFileA, sampleDirD, FileNode.nodes, FileNode.nodesList,
    FileNode.getName, FileNode.fields, FileNode.addr]

/-- Instance of C7 on the sample state: `f` is not a direct child of the root. -/
theorem C7_delete_missing_name_no_effect_witness :
    sampleDir.deleteNode "f" = some (false, sampleDir) ∧
    sampleRoot.deleteChild "f" = (false, sampleRoot) :=
  C7_delete_missing_name_no_effect sampleDir sampleRoot "f" rfl
    (by simp [sampleRoot, sampleFileA, sampleDirD, FileNode.getChildren, FileNode.getName,
      FileNode.fields])

/-- Instance of C8 on the sample state and its file `a`. -/
theorem C8_setContent_getContent_witness :
    ∃ st1, sampleDir.setContent "a" "x" = some st1 ∧ st1.getContent "a" = some "x" := by
  obtain ⟨st1, _, _, _, _, _, _, h1, h2, _⟩ := C8_setContent_getContent sampleDir sampleRoot
    "a" "x" rfl ⟨sampleFileA, by simp [sampleRoot, FileNode.getChildren], rfl, rfl⟩
  exact ⟨st1, h1, h2⟩

/-- Instance of C9 on the sample state with the new name `b`. -/
theorem C9_createFile_getContent_empty_witness :
    ∃ st1, sampleDir.createFile "b" = some st1 ∧ st1.getContent "b" = some "" :=
  C9_createFile_getContent_empty sampleDir sampleRoot "b" rfl
    (by simp [sampleRoot, sampleFileA, sampleDirD, FileNode.getChildren, FileNode.getName,
      FileNode.fields])

/-- Instance of C10 on the sample state: `d` is a Directory child, not a File. -/
theorem C10_content_of_missing_file_witness :
    sampleDir.getContent "d" = some "noSeEncontro" ∧
    ∀ t, sampleDir.setContent "d" t = some sampleDir :=
  C10_content_of_missing_file sampleDir sampleRoot "d" rfl
    (by simp [sampleRoot, sampleFileA, sampleDirD, FileNode.getChildren, FileNode.getName,
      FileNode.getType, FileNode.fields])

namespace FileNode

theorem mem_nodesList_of_mem (cs : List FileNode) (c : FileNode) (h : c ∈ cs) :
    c ∈ nodesList cs := by
  induction cs with
  | nil => cases h
  | cons x rest ih =>
    rw [nodesList_cons]
    rcases List.mem_cons.1 h with h1 | h1
    · subst h1
      exact List.mem_append_left _ (self_mem_nodes c)
    · exact List.mem_append_right _ (ih h1)

theorem child_mem_nodes (t q c : FileNode) (hq : q ∈ t.nodes) (hc : c ∈ q.getChildren) :
    c ∈ t.nodes := by
  apply nodes_subset_of_mem t q hq
  rw [nodes_eq]
  exact List.mem_cons_of_mem _ (mem_nodesList_of_mem _ _ hc)

mutual
theorem mem_nodes_cases (t n : FileNode) (h : n ∈ t.nodes) :
    n = t ∨ ∃ q ∈ t.nodes, n ∈ q.getChildren := by
  match t with
  | .mk f cs =>
    rw [nodes_mk] at h ⊢
    rcases List.mem_cons.1 h with h1 | h1
    · exact Or.inl h1
    · right
      rcases mem_nodesList_cases cs n h1 with h2 | ⟨q, hq, hn⟩
      · exact ⟨.mk f cs, by simp, h2⟩
      · exact ⟨q, List.mem_cons_of_mem _ hq, hn⟩
theorem mem_nodesList_cases (cs : List FileNode) (n : FileNode) (h : n ∈ nodesList cs) :
    n ∈ cs ∨ ∃ q ∈ nodesList cs, n ∈ q.getChildren := by
  match cs with
  | [] => simp [nodesList] at h
  | c :: rest =>
    rw [nodesList_cons] at h ⊢
    rcases List.mem_append.1 h with h1 | h1
    · rcases mem_nodes_cases c n h1 with h2 | ⟨q, hq, hn⟩
      · exact Or.inl (by simp [h2])
      · exact Or.inr ⟨q, List.mem_append_left _ hq, hn⟩
    · rcases mem_nodesList_cases rest n h1 with h2 | ⟨q, hq, hn⟩
      · exact Or.inl (List.mem_cons_of_mem _ h2)
      · exact Or.inr ⟨q, List.mem_append_right _ hq, hn⟩
end

mutual
theorem deref_mem (a : Nat) (t n : FileNode) (h : t.deref a = some n) : n ∈ t.nodes := by
  match t with
  | .mk f cs =>
    rw [deref] at h
    rw [nodes_mk]
    by_cases hf : f.addr = a
    · simp only [hf, if_true, Option.some.injEq] at h
      subst h
      simp
    · simp only [hf, if_false] at h
      exact List.mem_cons_of_mem _ (derefList_mem a cs n h)
theorem derefList_mem (a : Nat) (cs : List FileNode) (n : FileNode)
    (h : derefList a cs = some n) : n ∈ nodesList cs := by
  match cs with
  | [] => simp [derefList] at h
  | c :: rest =>
    rw [derefList] at h
    rw [nodesList_cons]
    cases hc : deref a c with
    | some m =>
      rw [hc] at h
      simp only [Option.some.injEq] at h
      subst h
      exact List.mem_append_left _ (deref_mem a c m hc)
    | none =>
      rw [hc] at h
      exact List.mem_append_right _ (derefList_mem a rest n h)
end

theorem deref_none_of_not_mem (a : Nat) (t : FileNode) (h : a ∉ t.nodes.map addr) :
    t.deref a = none := by
  cases hd : t.deref a with
  | none => rfl
  | some n =>
    exfalso
    apply h
    rw [← deref_addr a t n hd]
    exact List.mem_map_of_mem _ (deref_mem a t n hd)

mutual
theorem deref_of_mem_nodup (t n : FileNode) (hnd : (t.nodes.map addr).Nodup)
    (h : n ∈ t.nodes) : t.deref n.addr = some n := by
  match t with
  | .mk f cs =>
    rw [nodes_mk] at h hnd
    rw [List.map_cons, List.nodup_cons] at hnd
    rcases List.mem_cons.1 h with h1 | h1
    · subst h1
      exact deref_self _
    · have hne : ¬ f.addr = n.addr := by
        intro he
        apply hnd.1
        have : (FileNode.mk f cs).addr = n.addr := he
        rw [this]
        exact List.mem_map_of_mem _ h1
      rw [deref]
      simp only [hne, if_false]
      exact derefList_of_mem_nodup cs n hnd.2 h1
theorem derefList_of_mem_nodup (cs : List FileNode) (n : FileNode)
    (hnd : ((nodesList cs).map addr).Nodup) (h : n ∈ nodesList cs) :
    derefList n.addr cs = some n := by
  match cs with
  | [] => simp [nodesList] at h
  | c :: rest =>
    rw [nodesList_cons] at h hnd
    rw [List.map_append, List.nodup_append] at hnd
    obtain ⟨h1, h2, h3⟩ := hnd
    rw [derefList]
    rcases List.mem_append.1 h with hc | hr
    · rw [deref_of_mem_nodup c n h1 hc]
    · have hno : deref n.addr c = none := by
        apply deref_none_of_not_mem
        intro hin
        exact h3 hin (List.mem_map_of_mem _ hr)
      rw [hno]
      exact derefList_of_mem_nodup rest n h2 hr
end

theorem deref_isSome_of_mem (a : Nat) (t : FileNode) (h : a ∈ t.nodes.map addr) :
    ∃ n, t.deref a = some n := by
  cases hd : t.deref a with
  | some n => exact ⟨n, rfl⟩
  | none =>
    exfalso
    obtain ⟨m, hm, hma⟩ := List.mem_map.1 h
    have main : ∀ (k : Nat) (t : FileNode), sizeOf t ≤ k → m ∈ t.nodes → t.deref a = none →
        False := by
      intro k
      induction k with
      | zero =>
        intro t hk _ _
        cases t
        simp at hk
      | succ k ih =>
        intro t hk hmt hdt
        cases t with
        | mk f cs =>
          rw [nodes_mk] at hmt
          rw [deref] at hdt
          by_cases hf : f.addr = a
          · simp [hf] at hdt
          · simp only [hf, if_false] at hdt
            rcases List.mem_cons.1 hmt with h1 | h1
            · apply hf
              rw [← hma, h1]
              rfl
            · have aux : ∀ (l : List FileNode), sizeOf l ≤ k → m ∈ nodesList l →
                  derefList a l = none → False := by
                intro l
                induction l with
                | nil => intro _ h2 _; simp [nodesList] at h2
                | cons c rest ihl =>
                  intro hs h2 h3
                  rw [derefList] at h3
                  cases hc : deref a c with
                  | some x => rw [hc] at h3; cases h3
                  | none =>
                    rw [hc] at h3
                    rw [nodesList_cons] at h2
                    simp only [List.cons.sizeOf_spec] at hs
                    rcases List.mem_append.1 h2 with h4 | h4
                    · exact ih c (by omega) h4 hc
                    · exact ihl (by omega) h4 h3
              simp only [FileNode.mk.sizeOf_spec] at hk
              exact aux cs (by omega) h1 hdt
    exact main (sizeOf t) t (le_refl _) hm hd

mutual
theorem dfs_mem (s : String) (t r : FileNode) (h : t.dfs s = some r) :
    r ∈ t.nodes ∧ r.getName = s := by
  match t with
  | .mk f cs =>
    rw [dfs] at h
    rw [nodes_mk]
    by_cases hf : f.name = s
    · simp only [hf, if_true, Option.some.injEq] at h
      subst h
      exact ⟨by simp, hf⟩
    · simp only [hf, if_false] at h
      obtain ⟨h1, h2⟩ := dfsChildren_mem s cs r h
      exact ⟨List.mem_cons_of_mem _ h1, h2⟩
theorem dfsChildren_mem (s : String) (cs : List FileNode) (r : FileNode)
    (h : dfsChildren s cs = some r) : r ∈ nodesList cs ∧ r.getName = s := by
  match cs with
  | [] => simp [dfsChildren] at h
  | c :: rest =>
    rw [dfsChildren] at h
    rw [nodesList_cons]
    by_cases ht : c.getType = NodeType.Directory
    · simp only [ht, if_true] at h
      cases hc : dfs s c with
      | some ans =>
        rw [hc] at h
        simp only [Option.some.injEq] at h
        subst h
        obtain ⟨h1, h2⟩ := dfs_mem s c ans hc
        exact ⟨List.mem_append_left _ h1, h2⟩
      | none =>
        rw [hc] at h
        simp only at h
        by_cases hn : c.getName = s
        · simp only [hn, if_true, Option.some.injEq] at h
          subst h
          exact ⟨List.mem_append_left _ (self_mem_nodes _), hn⟩
        · simp only [hn, if_false] at h
          obtain ⟨h1, h2⟩ := dfsChildren_mem s rest r h
          exact ⟨List.mem_append_right _ h1, h2⟩
    · simp only [ht, if_false] at h
      by_cases hn : c.getName = s
      · simp only [hn, if_true, Option.some.injEq] at h
        subst h
        exact ⟨List.mem_append_left _ (self_mem_nodes _), hn⟩
      · simp only [hn, if_false] at h
        obtain ⟨h1, h2⟩ := dfsChildren_mem s rest r h
        exact ⟨List.mem_append_right _ h1, h2⟩
end

end FileNode

namespace FileNode

theorem dfsNodes_mk (f : NodeFields) (cs : List FileNode) :
    dfsNodes (.mk f cs) = .mk f cs :: dfsNodesList cs := by
  simp [dfsNodes]

theorem dfsNodesList_cons (c : FileNode) (rest : List FileNode) :
    dfsNodesList (c :: rest)
      = (if c.getType = NodeType.Directory then dfsNodes c else [c]) ++ dfsNodesList rest := by
  simp [dfsNodesList]

theorem self_mem_dfsNodes (n : FileNode) : n ∈ n.dfsNodes := by
  cases n with
  | mk f cs => simp [dfsNodes]

mutual
theorem dfsNodes_subset (t : FileNode) : ∀ m ∈ t.dfsNodes, m ∈ t.nodes := by
  match t with
  | .mk f cs =>
    intro m hm
    rw [dfsNodes_mk] at hm
    rw [nodes_mk]
    rcases List.mem_cons.1 hm with h | h
    · exact List.mem_cons.2 (Or.inl h)
    · exact List.mem_cons_of_mem _ (dfsNodesList_subset cs m h)
theorem dfsNodesList_subset (cs : List FileNode) :
    ∀ m ∈ dfsNodesList cs, m ∈ nodesList cs := by
  match cs with
  | [] => intro m hm; simp [dfsNodesList] at hm
  | c :: rest =>
    intro m hm
    rw [dfsNodesList_cons] at hm
    rw [nodesList_cons]
    rcases List.mem_append.1 hm with h | h
    · by_cases ht : c.getType = NodeType.Directory
      · simp only [ht, if_true] at h
        exact List.mem_append_left _ (dfsNodes_subset c m h)
      · simp only [ht, if_false, List.mem_singleton] at h
        subst h
        exact List.mem_append_left _ (self_mem_nodes _)
    · exact List.mem_append_right _ (dfsNodesList_subset rest m h)
end

mutual
theorem dfs_eq_find_dfsNodes (s : String) (t : FileNode) :
    t.dfs s = t.dfsNodes.find? (fun m => decide (m.getName = s)) := by
  match t with
  | .mk f cs =>
    rw [dfsNodes_mk, dfs, List.find?_cons]
    by_cases hn : f.name = s
    · simp [hn, getName, fields]
    · simp only [hn, if_false, getName, fields, decide_False]
      exact dfsChildren_eq_find_dfsNodes s cs
theorem dfsChildren_eq_find_dfsNodes (s : String) (cs : List FileNode) :
    dfsChildren s cs = (dfsNodesList cs).find? (fun m => decide (m.getName = s)) := by
  match cs with
  | [] => simp [dfsChildren, dfsNodesList]
  | c :: rest =>
    have hrest := dfsChildren_eq_find_dfsNodes s rest
    have hc := dfs_eq_find_dfsNodes s c
    rw [dfsChildren, dfsNodesList_cons, List.find?_append]
    by_cases ht : c.getType = NodeType.Directory
    · simp only [ht, if_true]
      rw [hc]
      cases hf : List.find? (fun m => decide (m.getName = s)) c.dfsNodes with
      | some ans => simp
      | none =>
        have hcn : ¬ c.getName = s := by
          have := List.find?_eq_none.1 hf c (self_mem_dfsNodes c)
          simpa using this
        simp [hcn, hrest]
    · simp only [ht, if_false]
      by_cases hcn : c.getName = s
      · simp [hcn]
      · simp [hcn, hrest]
end

theorem ident_mk (f : NodeFields) (cs : List FileNode) :
    (FileNode.mk f cs).ident
      = { f with content := "", children_pila := [], children_cola := [] } := rfl

theorem ident_addr (n : FileNode) : n.ident.addr = n.addr := rfl

theorem ident_id (n : FileNode) : n.ident.id = n.getId := rfl

theorem ident_type (n : FileNode) : n.ident.type = n.getType := rfl

theorem ident_parent (n : FileNode) : n.ident.parent = n.getParent := rfl

theorem ident_name (n : FileNode) : n.ident.name = n.getName := rfl

theorem shape_mk (f : NodeFields) (cs : List FileNode) :
    (FileNode.mk f cs).shape = ((FileNode.mk f cs).ident, cs.map ident) := rfl

theorem ident_eq_of_fields (f : NodeFields) (cs cs1 : List FileNode) :
    (FileNode.mk f cs1).ident = (FileNode.mk f cs).ident := rfl

theorem update_isSome (a : Nat) (g : FileNode → FileNode) (t t1 : FileNode)
    (h : t.update a g = some t1) : ∃ n, t.deref a = some n := by
  cases hd : t.deref a with
  | some n => exact ⟨n, rfl⟩
  | none => rw [update_none a g t hd] at h; cases h

theorem updateList_isSome (a : Nat) (g : FileNode → FileNode) (cs cs1 : List FileNode)
    (h : updateList a g cs = some cs1) : ∃ n, derefList a cs = some n := by
  cases hd : derefList a cs with
  | some n => exact ⟨n, rfl⟩
  | none => rw [updateList_none a g cs hd] at h; cases h

mutual
theorem update_shapes (a : Nat) (t n : FileNode) (h : t.deref a = some n) :
    ∃ l1 l2, t.nodes.map shape = l1 ++ n.nodes.map shape ++ l2 ∧
      ∀ g : FileNode → FileNode, (g n).ident = n.ident → ∀ t1, t.update a g = some t1 →
        t1.nodes.map shape = l1 ++ (g n).nodes.map shape ++ l2 ∧ t1.ident = t.ident := by
  match t with
  | .mk f cs =>
    rw [deref] at h
    by_cases hf : f.addr = a
    · simp only [hf, if_true, Option.some.injEq] at h
      subst h
      refine ⟨[], [], by simp, ?_⟩
      intro g hg t1 ht1
      simp only [update, hf, if_true, Option.some.injEq] at ht1
      subst ht1
      exact ⟨by simp, hg⟩
    · simp only [hf, if_false] at h
      obtain ⟨l1, l2, e, hgs⟩ := updateList_shapes a cs n h
      refine ⟨((FileNode.mk f cs).ident, cs.map ident) :: l1, l2, ?_, ?_⟩
      · rw [nodes_mk, List.map_cons, shape_mk, e]
        simp
      · intro g hg t1 ht1
        simp only [update, hf, if_false] at ht1
        cases hu : updateList a g cs with
        | none => rw [hu] at ht1; cases ht1
        | some cs1 =>
          rw [hu] at ht1
          simp only [Option.map_some', Option.some.injEq] at ht1
          subst ht1
          obtain ⟨e1, hmap⟩ := hgs g hg cs1 hu
          refine ⟨?_, rfl⟩
          rw [nodes_mk, List.map_cons, shape_mk, e1, hmap]
          simp [ident_mk]
theorem updateList_shapes (a : Nat) (cs : List FileNode) (n : FileNode)
    (h : derefList a cs = some n) :
    ∃ l1 l2, (nodesList cs).map shape = l1 ++ n.nodes.map shape ++ l2 ∧
      ∀ g : FileNode → FileNode, (g n).ident = n.ident → ∀ cs1, updateList a g cs = some cs1 →
        (nodesList cs1).map shape = l1 ++ (g n).nodes.map shape ++ l2 ∧
        cs1.map ident = cs.map ident := by
  match cs with
  | [] => simp [derefList] at h
  | c :: rest =>
    rw [derefList] at h
    cases hc : deref a c with
    | some m =>
      rw [hc] at h
      simp only [Option.some.injEq] at h
      subst h
      obtain ⟨l1, l2, e, hgs⟩ := update_shapes a c m hc
      refine ⟨l1, l2 ++ (nodesList rest).map shape, by simp [nodesList, e], ?_⟩
      intro g hg cs1 hcs1
      rw [updateList] at hcs1
      cases hu : update a g c with
      | none =>
        exfalso
        obtain ⟨_, _, _, hex⟩ := update_spec a c m hc
        obtain ⟨c1, hc1, _⟩ := hex g
        rw [hu] at hc1
        cases hc1
      | some c1 =>
        rw [hu] at hcs1
        simp only [Option.some.injEq] at hcs1
        subst hcs1
        obtain ⟨e1, hid⟩ := hgs g hg c1 hu
        exact ⟨by simp [nodesList, e1], by simp [hid]⟩
    | none =>
      rw [hc] at h
      obtain ⟨l1, l2, e, hgs⟩ := updateList_shapes a rest n h
      refine ⟨c.nodes.map shape ++ l1, l2, by simp [nodesList, e], ?_⟩
      intro g hg cs1 hcs1
      rw [updateList, update_none a g c hc] at hcs1
      cases hu : updateList a g rest with
      | none => rw [hu] at hcs1; cases hcs1
      | some rest1 =>
        rw [hu] at hcs1
        simp only [Option.map_some', Option.some.injEq] at hcs1
        subst hcs1
        obtain ⟨e1, hid⟩ := hgs g hg rest1 hu
        exact ⟨by simp [nodesList, e1], by simp [hid]⟩
end

end FileNode

namespace Directory

theorem nodup_insert_middle {α : Type} (A B : List α) (x : α) (h : (A ++ B).Nodup)
    (hx : x ∉ A ++ B) : (A ++ x :: B).Nodup := by
  have hp : List.Perm (A ++ x :: B) (x :: (A ++ B)) := List.perm_middle
  rw [hp.nodup_iff, List.nodup_cons]
  exact ⟨hx, h⟩

theorem shapesInv_create (l1 l2 S : List (NodeFields × List NodeFields)) (c nw : NodeFields)
    (K : List NodeFields) (hp : Nat) (ctr : Int)
    (h : ShapesInv (l1 ++ ((c, K) :: S) ++ l2) hp ctr)
    (ha : nw.addr = hp) (hi : nw.id = ctr) (hpar : nw.parent = some c.addr) :
    ShapesInv (l1 ++ ((c, K ++ [nw]) :: S ++ [(nw, [])]) ++ l2) (hp + 1) (ctr + 1) := by
  obtain ⟨hA, hI, hP⟩ := h
  refine ⟨?_, ?_, ?_⟩
  · have e : List.map (fun s : NodeFields × List NodeFields => s.1.addr)
        (l1 ++ ((c, K ++ [nw]) :: S ++ [(nw, [])]) ++ l2)
        = List.map (fun s => s.1.addr) (l1 ++ (c, K) :: S) ++
          nw.addr :: List.map (fun s => s.1.addr) l2 := by
      simp
    rw [e]
    apply nodup_insert_middle
    · simpa using hA
    · intro hin
      rw [← List.map_append, List.mem_map] at hin
      obtain ⟨s, hs, hsa⟩ := hin
      have := (hP s (by simpa using hs)).1
      omega
  · have e : List.map (fun s : NodeFields × List NodeFields => s.1.id)
        (l1 ++ ((c, K ++ [nw]) :: S ++ [(nw, [])]) ++ l2)
        = List.map (fun s => s.1.id) (l1 ++ (c, K) :: S) ++
          nw.id :: List.map (fun s => s.1.id) l2 := by
      simp
    rw [e]
    apply nodup_insert_middle
    · simpa using hI
    · intro hin
      rw [← List.map_append, List.mem_map] at hin
      obtain ⟨s, hs, hsa⟩ := hin
      have := (hP s (by simpa using hs)).2.1
      omega
  · intro s hs
    simp only [List.mem_append, List.mem_cons, List.mem_singleton, List.not_mem_nil,
      or_false] at hs
    have old : ∀ s' ∈ l1 ++ ((c, K) :: S) ++ l2,
        s'.1.addr < hp + 1 ∧ s'.1.id < ctr + 1 ∧ ∀ k ∈ s'.2, k.parent = some s'.1.addr := by
      intro s' hs'
      obtain ⟨h1, h2, h3⟩ := hP s' hs'
      exact ⟨by omega, by omega, h3⟩
    rcases hs with (h1 | (h1 | h1) | h1) | h1
    · exact old s (by simp [h1])
    · subst h1
      obtain ⟨h2, h3, h4⟩ := old (c, K) (by simp)
      refine ⟨h2, h3, ?_⟩
      intro k hk
      rcases List.mem_append.1 hk with h5 | h5
      · exact h4 k h5
      · simp only [List.mem_singleton] at h5
        subst h5
        exact hpar
    · exact old s (by simp [h1])
    · subst h1
      exact ⟨by simp; omega, by simp; omega, by simp⟩
    · exact old s (by simp [h1])

theorem shapesInv_delete (l1 l2 Spre Sd Spost : List (NodeFields × List NodeFields))
    (c kd : NodeFields) (Kpre Kpost : List NodeFields) (hp : Nat) (ctr : Int)
    (h : ShapesInv (l1 ++ ((c, Kpre ++ kd :: Kpost) :: (Spre ++ Sd ++ Spost)) ++ l2) hp ctr) :
    ShapesInv (l1 ++ ((c, Kpre ++ Kpost) :: (Spre ++ Spost)) ++ l2) hp ctr := by
  obtain ⟨hA, hI, hP⟩ := h
  have hsub : ∀ (β : Type) (ψ : NodeFields → β),
      List.Sublist
        (List.map (fun s : NodeFields × List NodeFields => ψ s.1)
          (l1 ++ ((c, Kpre ++ Kpost) :: (Spre ++ Spost)) ++ l2))
        (List.map (fun s : NodeFields × List NodeFields => ψ s.1)
          (l1 ++ ((c, Kpre ++ kd :: Kpost) :: (Spre ++ Sd ++ Spost)) ++ l2)) := by
    intro β ψ
    simp only [List.map_append, List.map_cons, List.append_assoc, List.cons_append]
    apply List.Sublist.append (List.Sublist.refl _)
    apply List.Sublist.cons₂
    apply List.Sublist.append (List.Sublist.refl _)
    exact List.sublist_append_right _ _
  refine ⟨List.Nodup.sublist (hsub Nat (fun f => f.addr)) hA,
    List.Nodup.sublist (hsub Int (fun f => f.id)) hI, ?_⟩
  intro s hs
  simp only [List.mem_append, List.mem_cons] at hs
  rcases hs with (h1 | h1 | h1 | h1) | h1
  · exact hP s (by simp [h1])
  · subst h1
    obtain ⟨h2, h3, h4⟩ := hP (c, Kpre ++ kd :: Kpost) (by simp)
    refine ⟨h2, h3, ?_⟩
    intro k hk
    apply h4 k
    rcases List.mem_append.1 hk with h5 | h5
    · simp [h5]
    · simp [h5]
  · exact hP s (by simp [h1])
  · exact hP s (by simp [h1])
  · exact hP s (by simp [h1])

end Directory

namespace Directory

open FileNode

theorem shapes_eq (t : FileNode) :
    t.nodes.map shape
      = (t.ident, t.getChildren.map ident) :: (nodesList t.getChildren).map shape := by
  cases t with
  | mk f cs => simp [nodes, shape, getChildren]

theorem addr_map_shapes (l : List FileNode) :
    l.map FileNode.addr = (l.map shape).map (fun s => s.1.addr) := by
  simp [List.map_map, Function.comp_def, shape, ident_addr]

theorem id_map_shapes (l : List FileNode) :
    l.map FileNode.getId = (l.map shape).map (fun s => s.1.id) := by
  simp [List.map_map, Function.comp_def, shape, ident_id]

theorem ident_addChild (child cur : FileNode) : (FileNode.addChild child cur).ident = cur.ident := by
  cases cur with
  | mk f cs => simp [addChild, ident, fields]

theorem getChildren_addChild (child cur : FileNode) :
    (FileNode.addChild child cur).getChildren
      = cur.getChildren ++ [child.setParent (some cur.addr)] := by
  cases cur with
  | mk f cs => simp [addChild, getChildren, arreglo_lista.push_final, FileNode.addr, fields]

theorem newChild_shape (a : Nat) (i : Int) (name : String) (ty : NodeType) (p : Option Nat) :
    ((FileNode.new a i name ty).setParent p).nodes.map shape
      = [(((FileNode.new a i name ty).setParent p).ident, [])] := by
  simp [FileNode.new, setParent, nodes, nodesList, shape, getChildren]

theorem newChild_ident (a : Nat) (i : Int) (name : String) (ty : NodeType) (p : Option Nat) :
    ((FileNode.new a i name ty).setParent p).ident.addr = a ∧
    ((FileNode.new a i name ty).setParent p).ident.id = i ∧
    ((FileNode.new a i name ty).setParent p).ident.parent = p ∧
    ((FileNode.new a i name ty).setParent p).ident.type = ty := by
  simp [FileNode.new, setParent, ident, fields]

theorem addChild_shapes (child cur : FileNode) :
    (FileNode.addChild child cur).nodes.map shape
      = (cur.ident, cur.getChildren.map ident ++ [(child.setParent (some cur.addr)).ident])
        :: ((nodesList cur.getChildren).map shape
            ++ (child.setParent (some cur.addr)).nodes.map shape) := by
  rw [shapes_eq, ident_addChild, getChildren_addChild]
  simp [nodesList_append, nodesList_cons, nodesList]

theorem ident_setContent (x : String) (c : FileNode) : (c.setContent x).ident = c.ident := by
  cases c with
  | mk f cs => simp [FileNode.setContent, ident, fields]

theorem shapes_setContent (x : String) (c : FileNode) :
    (c.setContent x).nodes.map shape = c.nodes.map shape := by
  cases c with
  | mk f cs => simp [FileNode.setContent, nodes, shape, ident, fields, getChildren]

theorem setContentLoop_shapes (a x : String) (cs : List FileNode) :
    (nodesList (setContentLoop a x cs)).map shape = (nodesList cs).map shape ∧
    (setContentLoop a x cs).map ident = cs.map ident := by
  induction cs with
  | nil => simp [setContentLoop]
  | cons c rest ih =>
    rw [setContentLoop]
    by_cases hc : c.getName = a ∧ c.getType = NodeType.File
    · rw [if_pos hc]
      simp [nodesList_cons, shapes_setContent, ident_setContent]
    · rw [if_neg hc]
      simp [nodesList_cons, ih.1, ih.2]

theorem inv_new (idIncremental : Int) (heapNext : Nat) :
    Inv (Directory.new idIncremental heapNext) := by
  refine ⟨?_, rfl, rfl, ?_⟩
  · refine ⟨?_, ?_, ?_⟩
    · simp [Directory.new, FileNode.new, nodes, nodesList]
    · simp [Directory.new, FileNode.new, nodes, nodesList]
    · intro s hs
      simp only [Directory.new, FileNode.new, nodes, nodesList, List.map_cons, List.map_nil,
        List.mem_singleton] at hs
      subst hs
      simp [shape, ident, fields, getChildren, Directory.new]
  · simp [Directory.new, FileNode.new, nodes, nodesList, FileNode.addr, fields]

theorem inv_nodup_addr (d : Directory) (h : Inv d) : (d.root.nodes.map FileNode.addr).Nodup := by
  rw [addr_map_shapes]
  exact h.tree.1

theorem inv_nodup_id (d : Directory) (h : Inv d) : (d.root.nodes.map FileNode.getId).Nodup := by
  rw [id_map_shapes]
  exact h.tree.2.1

theorem inv_node (d : Directory) (h : Inv d) (q : FileNode) (hq : q ∈ d.root.nodes) :
    q.addr < d.heapNext ∧ q.getId < d.idIncremental ∧
    ∀ c ∈ q.getChildren, c.getParent = some q.addr := by
  obtain ⟨h1, h2, h3⟩ := h.tree.2.2 q.shape (List.mem_map_of_mem _ hq)
  refine ⟨h1, h2, ?_⟩
  intro c hc
  exact h3 c.ident (List.mem_map_of_mem _ hc)

theorem inv_of_same_shapes (d : Directory) (t1 : FileNode) (h : Inv d)
    (hs : t1.nodes.map shape = d.root.nodes.map shape) (hid : t1.ident = d.root.ident) :
    Inv { d with root := t1 } := by
  refine ⟨?_, ?_, ?_, ?_⟩
  · show ShapesInv (t1.nodes.map shape) d.heapNext d.idIncremental
    rw [hs]
    exact h.tree
  · show t1.ident.parent = none
    rw [hid]
    exact h.rootParent
  · show t1.ident.type = NodeType.Directory
    rw [hid]
    exact h.rootType
  · show d.currentDirectory ∈ t1.nodes.map FileNode.addr
    rw [addr_map_shapes, hs, ← addr_map_shapes]
    exact h.live

theorem inv_create (d : Directory) (name : String) (ty : NodeType) (t1 : FileNode)
    (h : Inv d)
    (hu : d.root.update d.currentDirectory
      (FileNode.addChild (FileNode.new d.heapNext d.idIncremental name ty)) = some t1) :
    Inv (Directory.mk t1 d.currentDirectory (d.idIncremental + 1) (d.heapNext + 1)) := by
  obtain ⟨cur, hcur⟩ := update_isSome _ _ _ _ hu
  obtain ⟨l1, l2, e, hg⟩ := update_shapes d.currentDirectory d.root cur hcur
  obtain ⟨e1, hid⟩ := hg _ (ident_addChild _ cur) t1 hu
  rw [addChild_shapes, newChild_shape] at e1
  rw [shapes_eq cur] at e
  obtain ⟨ha, hi, hp, _⟩ := newChild_ident d.heapNext d.idIncremental name ty (some cur.addr)
  have htree := h.tree
  rw [e] at htree
  refine ⟨?_, ?_, ?_, ?_⟩
  · show ShapesInv (t1.nodes.map shape) (d.heapNext + 1) (d.idIncremental + 1)
    rw [e1]
    exact shapesInv_create l1 l2 _ cur.ident _ _ d.heapNext d.idIncremental htree ha hi
      (by rw [hp]; rfl)
  · show t1.ident.parent = none
    rw [hid]
    exact h.rootParent
  · show t1.ident.type = NodeType.Directory
    rw [hid]
    exact h.rootType
  · show d.currentDirectory ∈ t1.nodes.map FileNode.addr
    rw [addr_map_shapes, e1]
    have hca : cur.ident.addr = d.currentDirectory := deref_addr _ _ _ hcur
    simp [hca]

theorem inv_setContent (d d1 : Directory) (a x : String) (h : Inv d)
    (hs : d.setContent a x = some d1) : Inv d1 := by
  unfold Directory.setContent at hs
  cases hu : d.root.update d.currentDirectory
      (fun cur => FileNode.mk cur.fields (setContentLoop a x cur.getChildren)) with
  | none => rw [hu] at hs; cases hs
  | some t1 =>
    rw [hu] at hs
    simp only [Option.map_some', Option.some.injEq] at hs
    subst hs
    obtain ⟨cur, hcur⟩ := update_isSome _ _ _ _ hu
    obtain ⟨l1, l2, e, hg⟩ := update_shapes d.currentDirectory d.root cur hcur
    obtain ⟨e1, hid⟩ := hg _ (by cases cur; rfl) t1 hu
    apply inv_of_same_shapes d t1 h _ hid
    rw [e1, e, shapes_eq cur, shapes_eq (FileNode.mk _ _)]
    have hl := setContentLoop_shapes a x cur.getChildren
    simp only [getChildren_mk, hl.1, hl.2]
    cases cur
    rfl

theorem inv_deleteNode (d d1 : Directory) (s : String) (b : Bool) (h : Inv d)
    (hs : d.deleteNode s = some (b, d1)) : Inv d1 := by
  unfold Directory.deleteNode at hs
  cases hcur : d.root.deref d.currentDirectory with
  | none => rw [hcur] at hs; cases hs
  | some cur =>
    rw [hcur] at hs
    simp only at hs
    cases hu : d.root.update d.currentDirectory (fun n => (n.deleteChild s).2) with
    | none => rw [hu] at hs; cases hs
    | some t1 =>
      rw [hu] at hs
      simp only [Option.map_some', Option.some.injEq, Prod.mk.injEq] at hs
      obtain ⟨_, hd1⟩ := hs
      subst hd1
      by_cases hex : ∃ c ∈ cur.getChildren, c.getName = s
      · obtain ⟨pre, x, post, hch, hx, hpre, _⟩ := deleteChildIndex_split s cur.getChildren hex
        have hdel := deleteChild_split s cur pre post x hch hx hpre
        obtain ⟨l1, l2, e, hg⟩ := update_shapes d.currentDirectory d.root cur hcur
        obtain ⟨e1, hid⟩ := hg (fun n => (n.deleteChild s).2) (by simp only [hdel]; cases cur; rfl)
          t1 hu
        simp only [hdel] at e1
        rw [shapes_eq (FileNode.mk _ _)] at e1
        rw [shapes_eq cur, hch] at e
        have htree := h.tree
        rw [e] at htree
        have hident : (FileNode.mk cur.fields (pre ++ post)).ident = cur.ident := by
          cases cur; rfl
        simp only [getChildren_mk, hident, List.map_append, List.map_cons, nodesList_append,
          nodesList_cons] at e1 htree
        refine ⟨?_, ?_, ?_, ?_⟩
        · show ShapesInv (t1.nodes.map shape) d.heapNext d.idIncremental
          rw [e1]
          have := shapesInv_delete l1 l2 ((nodesList pre).map shape) (x.nodes.map shape)
            ((nodesList post).map shape) cur.ident x.ident (pre.map ident) (post.map ident)
            d.heapNext d.idIncremental (by simpa using htree)
          simpa using this
        · show t1.ident.parent = none
          rw [hid]
          exact h.rootParent
        · show t1.ident.type = NodeType.Directory
          rw [hid]
          exact h.rootType
        · show d.currentDirectory ∈ t1.nodes.map FileNode.addr
          rw [addr_map_shapes, e1]
          have hca : cur.ident.addr = d.currentDirectory := deref_addr _ _ _ hcur
          simp [hca]
      · have hno : ∀ c ∈ cur.getChildren, c.getName ≠ s := by
          intro c hc hn
          exact hex ⟨c, hc, hn⟩
        have hdel := deleteChild_none s cur hno
        obtain ⟨_, _, _, hg⟩ := update_spec d.currentDirectory d.root cur hcur
        obtain ⟨t2, hu2, _, _, hid⟩ := hg (fun n => (n.deleteChild s).2)
        rw [hu] at hu2
        simp only [Option.some.injEq] at hu2
        subst hu2
        have ht : t1 = d.root := hid (by simp [hdel])
        subst ht
        exact h

end Directory

namespace Directory

open FileNode

theorem cursor_parent (d : Directory) (h : Inv d) (cur : FileNode) (p : Nat)
    (hcur : d.root.deref d.currentDirectory = some cur) (hp : cur.getParent = some p) :
    ∃ q ∈ d.root.nodes, cur ∈ q.getChildren ∧ q.addr = p ∧ d.root.deref p = some q := by
  have hmem := deref_mem _ _ _ hcur
  rcases mem_nodes_cases d.root cur hmem with h1 | ⟨q, hq, hc⟩
  · subst h1
    rw [h.rootParent] at hp
    cases hp
  · have hpar := (inv_node d h q hq).2.2 cur hc
    rw [hp] at hpar
    simp only [Option.some.injEq] at hpar
    subst hpar
    exact ⟨q, hq, hc, rfl, deref_of_mem_nodup d.root q (inv_nodup_addr d h) hq⟩

theorem goToParent_of_child (d : Directory) (h : Inv d) (cur q : FileNode)
    (hcur : d.root.deref d.currentDirectory = some cur) (hq : q ∈ d.root.nodes)
    (hc : cur ∈ q.getChildren) :
    d.goToParentDirectory = some { d with currentDirectory := q.addr } := by
  have hpar := (inv_node d h q hq).2.2 cur hc
  simp [goToParentDirectory, hcur, hpar]

theorem inv_cursor (d : Directory) (h : Inv d) (a : Nat) (ha : a ∈ d.root.nodes.map FileNode.addr) :
    Inv { d with currentDirectory := a } :=
  ⟨h.tree, h.rootParent, h.rootType, ha⟩

theorem inv_goToParent (d d1 : Directory) (h : Inv d) (hs : d.goToParentDirectory = some d1) :
    Inv d1 := by
  unfold goToParentDirectory at hs
  cases hcur : d.root.deref d.currentDirectory with
  | none => rw [hcur] at hs; cases hs
  | some cur =>
    rw [hcur] at hs
    simp only at hs
    cases hp : cur.getParent with
    | none =>
      rw [hp] at hs
      simp only [Option.some.injEq] at hs
      subst hs
      exact h
    | some p =>
      rw [hp] at hs
      simp only [Option.some.injEq] at hs
      subst hs
      obtain ⟨q, hq, _, hqa, _⟩ := cursor_parent d h cur p hcur hp
      apply inv_cursor d h
      rw [← hqa]
      exact List.mem_map_of_mem _ hq

theorem inv_setCurrentDirectory (d d1 : Directory) (name : String) (h : Inv d)
    (hs : d.setCurrentDirectory name = some d1) : Inv d1 := by
  unfold setCurrentDirectory at hs
  by_cases h1 : name = ".."
  · rw [if_pos h1] at hs
    exact inv_goToParent d d1 h hs
  · rw [if_neg h1] at hs
    by_cases h2 : name = "/"
    · rw [if_pos h2] at hs
      simp only [Option.some.injEq] at hs
      subst hs
      exact inv_cursor d h _ (List.mem_map_of_mem _ (self_mem_nodes _))
    · rw [if_neg h2] at hs
      cases hcur : d.root.deref d.currentDirectory with
      | none => rw [hcur] at hs; cases hs
      | some cur =>
        rw [hcur] at hs
        simp only at hs
        cases hd : cur.dfs name with
        | none =>
          rw [hd] at hs
          simp only [Option.some.injEq] at hs
          subst hs
          exact h
        | some r =>
          rw [hd] at hs
          simp only [Option.some.injEq] at hs
          subst hs
          apply inv_cursor d h
          apply List.mem_map_of_mem
          exact nodes_subset_of_mem d.root cur (deref_mem _ _ _ hcur) r (dfs_mem name cur r hd).1

theorem inv_step (op : Op) (d d1 : Directory) (h : Inv d) (hs : step op d = some d1) :
    Inv d1 := by
  cases op with
  | createFile name =>
    simp only [step, createFile] at hs
    cases hu : d.root.update d.currentDirectory
        (FileNode.addChild (FileNode.new d.heapNext d.idIncremental name NodeType.File)) with
    | none => rw [hu] at hs; cases hs
    | some t1 =>
      rw [hu] at hs
      simp only [Option.map_some', Option.some.injEq] at hs
      subst hs
      exact inv_create d name NodeType.File t1 h hu
  | createDirectory name =>
    simp only [step, createDirectory] at hs
    cases hu : d.root.update d.currentDirectory
        (FileNode.addChild (FileNode.new d.heapNext d.idIncremental name NodeType.Directory)) with
    | none => rw [hu] at hs; cases hs
    | some t1 =>
      rw [hu] at hs
      simp only [Option.map_some', Option.some.injEq] at hs
      subst hs
      exact inv_create d name NodeType.Directory t1 h hu
  | setCurrentDirectory name => exact inv_setCurrentDirectory d d1 name h hs
  | goToParentDirectory => exact inv_goToParent d d1 h hs
  | setContent a x => exact inv_setContent d d1 a x h hs
  | deleteNode name =>
    simp only [step] at hs
    cases hdn : d.deleteNode name with
    | none => rw [hdn] at hs; cases hs
    | some r =>
      obtain ⟨b, d2⟩ := r
      rw [hdn] at hs
      simp only [Option.map_some', Option.some.injEq] at hs
      subst hs
      exact inv_deleteNode d d2 name b h hdn

theorem reachable_inv (d : Directory) (h : Reachable d) : Inv d := by
  induction h with
  | init c hp => exact inv_new c hp
  | step op d d1 _ hs ih => exact inv_step op d d1 ih hs

theorem reachable_run (ops : List Op) :
    ∀ (d d1 : Directory), Reachable d → run ops d = some d1 → Reachable d1 := by
  induction ops with
  | nil =>
    intro d d1 h hr
    simp only [run, Option.some.injEq] at hr
    subst hr
    exact h
  | cons op rest ih =>
    intro d d1 h hr
    rw [run] at hr
    cases hs : step op d with
    | none => rw [hs] at hr; cases hr
    | some d2 =>
      rw [hs] at hr
      exact ih d2 d1 (Reachable.step op d d2 h hs) hr

theorem step_isSome (op : Op) (d : Directory) (cur : FileNode)
    (hcur : d.root.deref d.currentDirectory = some cur) : ∃ d1, step op d = some d1 := by
  have hupd : ∀ g : FileNode → FileNode, ∃ t1, d.root.update d.currentDirectory g = some t1 := by
    intro g
    obtain ⟨_, _, _, hg⟩ := update_spec d.currentDirectory d.root cur hcur
    obtain ⟨t1, hu, _⟩ := hg g
    exact ⟨t1, hu⟩
  cases op with
  | createFile name =>
    obtain ⟨t1, hu⟩ := hupd
      (FileNode.addChild (FileNode.new d.heapNext d.idIncremental name NodeType.File))
    simp only [step, createFile, hu, Option.map_some']
    exact ⟨_, rfl⟩
  | createDirectory name =>
    obtain ⟨t1, hu⟩ := hupd
      (FileNode.addChild (FileNode.new d.heapNext d.idIncremental name NodeType.Directory))
    simp only [step, createDirectory, hu, Option.map_some']
    exact ⟨_, rfl⟩
  | setCurrentDirectory name =>
    simp only [step, setCurrentDirectory, goToParentDirectory, hcur]
    by_cases h1 : name = ".."
    · rw [if_pos h1]
      cases cur.getParent <;> simp
    · rw [if_neg h1]
      by_cases h2 : name = "/"
      · rw [if_pos h2]; simp
      · rw [if_neg h2]
        cases cur.dfs name <;> simp
  | goToParentDirectory =>
    simp only [step, goToParentDirectory, hcur]
    cases cur.getParent <;> simp
  | setContent a x =>
    obtain ⟨t1, hu⟩ := hupd
      (fun c => FileNode.mk c.fields (setContentLoop a x c.getChildren))
    simp only [step, Directory.setContent, hu, Option.map_some']
    exact ⟨_, rfl⟩
  | deleteNode name =>
    obtain ⟨t1, hu⟩ := hupd (fun n => (n.deleteChild name).2)
    simp only [step, deleteNode, hcur, hu, Option.map_some']
    exact ⟨_, rfl⟩

end Directory

namespace Directory

open FileNode

theorem holders_iff_shapes (t : FileNode) :
    (∀ q ∈ t.nodes, q.getChildren ≠ [] → q.getType = NodeType.Directory) ↔
    ∀ s ∈ t.nodes.map shape, s.2 ≠ [] → s.1.type = NodeType.Directory := by
  constructor
  · intro h s hs
    obtain ⟨q, hq, rfl⟩ := List.mem_map.1 hs
    intro hne
    apply h q hq
    intro he
    apply hne
    simp [shape, he]
  · intro h q hq hne
    apply h q.shape (List.mem_map_of_mem _ hq)
    intro he
    apply hne
    simpa [shape] using he

theorem holders_update (t t1 cur : FileNode) (a : Nat) (g : FileNode → FileNode)
    (hold : ∀ q ∈ t.nodes, q.getChildren ≠ [] → q.getType = NodeType.Directory)
    (hcur : t.deref a = some cur) (hid : (g cur).ident = cur.ident)
    (hu : t.update a g = some t1)
    (hnew : ∀ s ∈ (g cur).nodes.map shape, s.2 ≠ [] → s.1.type = NodeType.Directory) :
    ∀ q ∈ t1.nodes, q.getChildren ≠ [] → q.getType = NodeType.Directory := by
  rw [holders_iff_shapes] at hold ⊢
  obtain ⟨l1, l2, e, hg⟩ := update_shapes a t cur hcur
  obtain ⟨e1, _⟩ := hg g hid t1 hu
  rw [e] at hold
  rw [e1]
  intro s hs
  simp only [List.mem_append] at hs
  rcases hs with (h1 | h1) | h1
  · exact hold s (by simp [h1])
  · exact hnew s h1
  · exact hold s (by simp [h1])

theorem cursor_after_update (t t1 cur : FileNode) (a : Nat) (g : FileNode → FileNode)
    (hcur : t.deref a = some cur) (hid : (g cur).ident = cur.ident)
    (hu : t.update a g = some t1) : t1.deref a = some (g cur) := by
  obtain ⟨_, _, _, hg⟩ := update_spec a t cur hcur
  obtain ⟨t2, hu2, _, hd, _⟩ := hg g
  rw [hu] at hu2
  simp only [Option.some.injEq] at hu2
  subst hu2
  apply hd
  have h1 : (g cur).ident.addr = cur.ident.addr := by rw [hid]
  have h2 : cur.addr = a := deref_addr _ _ _ hcur
  exact h1.trans h2

theorem invDir_update (d : Directory) (t1 cur : FileNode) (g : FileNode → FileNode)
    (c : Int) (hp : Nat) (hD : InvDir d)
    (hcur : d.root.deref d.currentDirectory = some cur) (hid : (g cur).ident = cur.ident)
    (hu : d.root.update d.currentDirectory g = some t1)
    (hnew : ∀ s ∈ (g cur).nodes.map shape, s.2 ≠ [] → s.1.type = NodeType.Directory) :
    InvDir (Directory.mk t1 d.currentDirectory c hp) := by
  refine ⟨holders_update d.root t1 cur _ g hD.holders hcur hid hu hnew, ?_⟩
  intro cur1 hcur1
  have h1 : t1.deref d.currentDirectory = some (g cur) :=
    cursor_after_update d.root t1 cur _ g hcur hid hu
  have h2 : t1.deref d.currentDirectory = some cur1 := hcur1
  rw [h1] at h2
  simp only [Option.some.injEq] at h2
  subst h2
  have h3 : (g cur).ident.type = cur.ident.type := by rw [hid]
  exact h3.trans (hD.cursor cur hcur)

theorem shapes_of_cursor_subtree (d : Directory) (cur : FileNode) (hD : InvDir d)
    (hcur : d.root.deref d.currentDirectory = some cur) :
    ∀ s ∈ cur.nodes.map shape, s.2 ≠ [] → s.1.type = NodeType.Directory := by
  rw [← holders_iff_shapes]
  intro q hq
  exact hD.holders q (nodes_subset_of_mem d.root cur (deref_mem _ _ _ hcur) q hq)

theorem invDir_create (d : Directory) (name : String) (ty : NodeType) (t1 : FileNode)
    (hD : InvDir d)
    (hu : d.root.update d.currentDirectory
      (FileNode.addChild (FileNode.new d.heapNext d.idIncremental name ty)) = some t1) :
    InvDir (Directory.mk t1 d.currentDirectory (d.idIncremental + 1) (d.heapNext + 1)) := by
  obtain ⟨cur, hcur⟩ := update_isSome _ _ _ _ hu
  apply invDir_update d t1 cur _ _ _ hD hcur (ident_addChild _ cur) hu
  have hsub := shapes_of_cursor_subtree d cur hD hcur
  rw [shapes_eq cur] at hsub
  rw [addChild_shapes, newChild_shape]
  intro s hs
  simp only [List.mem_cons, List.mem_append, List.mem_singleton, List.not_mem_nil,
    or_false] at hs
  rcases hs with h1 | h1 | h1
  · subst h1
    intro _
    exact hD.cursor cur hcur
  · exact hsub s (by simp [h1])
  · subst h1
    intro hne
    exact absurd rfl hne

theorem invDir_step (op : Op) (d d1 : Directory) (h : Inv d) (hD : InvDir d)
    (hm : movesOntoFile op d = false) (hs : step op d = some d1) : InvDir d1 := by
  cases op with
  | createFile name =>
    simp only [step, createFile] at hs
    cases hu : d.root.update d.currentDirectory
        (FileNode.addChild (FileNode.new d.heapNext d.idIncremental name NodeType.File)) with
    | none => rw [hu] at hs; cases hs
    | some t1 =>
      rw [hu] at hs
      simp only [Option.map_some', Option.some.injEq] at hs
      subst hs
      exact invDir_create d name NodeType.File t1 hD hu
  | createDirectory name =>
    simp only [step, createDirectory] at hs
    cases hu : d.root.update d.currentDirectory
        (FileNode.addChild (FileNode.new d.heapNext d.idIncremental name NodeType.Directory)) with
    | none => rw [hu] at hs; cases hs
    | some t1 =>
      rw [hu] at hs
      simp only [Option.map_some', Option.some.injEq] at hs
      subst hs
      exact invDir_create d name NodeType.Directory t1 hD hu
  | setContent a x =>
    simp only [step, Directory.setContent] at hs
    cases hu : d.root.update d.currentDirectory
        (fun cur => FileNode.mk cur.fields (setContentLoop a x cur.getChildren)) with
    | none => rw [hu] at hs; cases hs
    | some t1 =>
      rw [hu] at hs
      simp only [Option.map_some', Option.some.injEq] at hs
      subst hs
      obtain ⟨cur, hcur⟩ := update_isSome _ _ _ _ hu
      apply invDir_update d t1 cur _ _ _ hD hcur (by cases cur; rfl) hu
      have hsub := shapes_of_cursor_subtree d cur hD hcur
      rw [shapes_eq cur] at hsub
      rw [shapes_eq (FileNode.mk _ _)]
      have hl := setContentLoop_shapes a x cur.getChildren
      simp only [getChildren_mk, hl.1, hl.2]
      have hident : (FileNode.mk cur.fields (setContentLoop a x cur.getChildren)).ident
          = cur.ident := by cases cur; rfl
      rw [hident]
      exact hsub
  | deleteNode name =>
    simp only [step, deleteNode] at hs
    cases hcur : d.root.deref d.currentDirectory with
    | none => rw [hcur] at hs; cases hs
    | some cur =>
      rw [hcur] at hs
      simp only at hs
      cases hu : d.root.update d.currentDirectory (fun n => (n.deleteChild name).2) with
      | none => rw [hu] at hs; cases hs
      | some t1 =>
        rw [hu] at hs
        simp only [Option.map_some', Option.some.injEq] at hs
        subst hs
        have hsub := shapes_of_cursor_subtree d cur hD hcur
        by_cases hex : ∃ c ∈ cur.getChildren, c.getName = name
        · obtain ⟨pre, x, post, hch, hx, hpre, _⟩ :=
            deleteChildIndex_split name cur.getChildren hex
          have hdel := deleteChild_split name cur pre post x hch hx hpre
          apply invDir_update d t1 cur _ _ _ hD hcur (by simp only [hdel]; cases cur; rfl) hu
          simp only [hdel]
          rw [shapes_eq cur, hch] at hsub
          rw [shapes_eq (FileNode.mk _ _)]
          have hident : (FileNode.mk cur.fields (pre ++ post)).ident = cur.ident := by
            cases cur; rfl
          simp only [getChildren_mk, hident, List.map_append, List.map_cons, nodesList_append,
            nodesList_cons] at hsub ⊢
          intro s hs
          simp only [List.mem_cons, List.mem_append] at hs
          rcases hs with h1 | h1 | h1
          · subst h1
            intro _
            exact hD.cursor cur hcur
          · exact hsub s (by simp [h1])
          · exact hsub s (by simp [h1])
        · have hno : ∀ c ∈ cur.getChildren, c.getName ≠ name := by
            intro c hc hn
            exact hex ⟨c, hc, hn⟩
          have hdel := deleteChild_none name cur hno
          apply invDir_update d t1 cur _ _ _ hD hcur (by simp only [hdel]) hu
          simp only [hdel]
          exact hsub
  | goToParentDirectory =>
    simp only [step, goToParentDirectory] at hs
    cases hcur : d.root.deref d.currentDirectory with
    | none => rw [hcur] at hs; cases hs
    | some cur =>
      rw [hcur] at hs
      simp only at hs
      cases hp : cur.getParent with
      | none =>
        rw [hp] at hs
        simp only [Option.some.injEq] at hs
        subst hs
        exact hD
      | some p =>
        rw [hp] at hs
        simp only [Option.some.injEq] at hs
        subst hs
        obtain ⟨q, hq, hc, hqa, hdq⟩ := cursor_parent d h cur p hcur hp
        refine ⟨hD.holders, ?_⟩
        intro cur1 hcur1
        have h2 : d.root.deref p = some cur1 := hcur1
        rw [hdq] at h2
        simp only [Option.some.injEq] at h2
        subst h2
        exact hD.holders q hq (List.ne_nil_of_mem hc)
  | setCurrentDirectory name =>
    simp only [step, setCurrentDirectory] at hs
    simp only [movesOntoFile] at hm
    by_cases h1 : name = ".."
    · rw [if_pos h1] at hs
      simp only [goToParentDirectory] at hs
      cases hcur : d.root.deref d.currentDirectory with
      | none => rw [hcur] at hs; cases hs
      | some cur =>
        rw [hcur] at hs
        simp only at hs
        cases hp : cur.getParent with
        | none =>
          rw [hp] at hs
          simp only [Option.some.injEq] at hs
          subst hs
          exact hD
        | some p =>
          rw [hp] at hs
          simp only [Option.some.injEq] at hs
          subst hs
          obtain ⟨q, hq, hc, hqa, hdq⟩ := cursor_parent d h cur p hcur hp
          refine ⟨hD.holders, ?_⟩
          intro cur1 hcur1
          have h2 : d.root.deref p = some cur1 := hcur1
          rw [hdq] at h2
          simp only [Option.some.injEq] at h2
          subst h2
          exact hD.holders q hq (List.ne_nil_of_mem hc)
    · rw [if_neg h1] at hs
      by_cases h2 : name = "/"
      · rw [if_pos h2] at hs
        simp only [Option.some.injEq] at hs
        subst hs
        refine ⟨hD.holders, ?_⟩
        intro cur1 hcur1
        have h3 : d.root.deref d.root.addr = some cur1 := hcur1
        rw [deref_self] at h3
        simp only [Option.some.injEq] at h3
        subst h3
        exact h.rootType
      · rw [if_neg h2] at hs
        have hor : ¬ (name = ".." ∨ name = "/") := by
          intro ho
          rcases ho with ho | ho
          · exact h1 ho
          · exact h2 ho
        rw [if_neg hor] at hm
        cases hcur : d.root.deref d.currentDirectory with
        | none => rw [hcur] at hs; cases hs
        | some cur =>
          rw [hcur] at hs hm
          simp only at hs hm
          cases hd : cur.dfs name with
          | none =>
            rw [hd] at hs
            simp only [Option.some.injEq] at hs
            subst hs
            exact hD
          | some r =>
            rw [hd] at hs hm
            simp only [Option.some.injEq] at hs
            simp only [decide_eq_false_iff_not] at hm
            subst hs
            have hr : r ∈ d.root.nodes :=
              nodes_subset_of_mem d.root cur (deref_mem _ _ _ hcur) r (dfs_mem name cur r hd).1
            refine ⟨hD.holders, ?_⟩
            intro cur1 hcur1
            have h3 : d.root.deref r.addr = some cur1 := hcur1
            rw [deref_of_mem_nodup d.root r (inv_nodup_addr d h) hr] at h3
            simp only [Option.some.injEq] at h3
            subst h3
            cases ht : r.getType with
            | File => exact absurd ht hm
            | Directory => rfl

theorem reachableOnDirectories_reachable (d : Directory) (h : ReachableOnDirectories d) :
    Reachable d := by
  induction h with
  | init c hp => exact Reachable.init c hp
  | step op d d1 _ _ hs ih => exact Reachable.step op d d1 ih hs

theorem invDir_new (idIncremental : Int) (heapNext : Nat) :
    InvDir (Directory.new idIncremental heapNext) := by
  refine ⟨?_, ?_⟩
  · intro q hq hne
    simp only [Directory.new, FileNode.new, nodes, nodesList, List.mem_singleton] at hq
    subst hq
    rfl
  · intro cur hcur
    have h1 : (Directory.new idIncremental heapNext).root.deref heapNext = some cur := hcur
    have h2 : (Directory.new idIncremental heapNext).root.deref heapNext
        = some (Directory.new idIncremental heapNext).root :=
      deref_self (Directory.new idIncremental heapNext).root
    rw [h2] at h1
    simp only [Option.some.injEq] at h1
    subst h1
    rfl

theorem reachableOnDirectories_invDir (d : Directory) (h : ReachableOnDirectories d) :
    InvDir d := by
  induction h with
  | init c hp => exact invDir_new c hp
  | step op d d1 hr hm hs ih =>
    exact invDir_step op d d1 (reachable_inv d (reachableOnDirectories_reachable d hr)) ih hm hs

end Directory

namespace Directory

theorem sampleDir_reachable : Reachable sampleDir :=
  reachable_run
    [Op.createFile "a", Op.createDirectory "d", Op.setCurrentDirectory "d", Op.createFile "f",
     Op.setCurrentDirectory ".."]
    (Directory.new 0 0) sampleDir (Reachable.init 0 0) rfl

theorem sampleDir_reachableOnDirectories : ReachableOnDirectories sampleDir :=
  ReachableOnDirectories.step (Op.setCurrentDirectory "..") _ _
    (ReachableOnDirectories.step (Op.createFile "f") _ _
      (ReachableOnDirectories.step (Op.setCurrentDirectory "d") _ _
        (ReachableOnDirectories.step (Op.createDirectory "d") _ _
          (ReachableOnDirectories.step (Op.createFile "a") _ _
            (ReachableOnDirectories.init 0 0) rfl rfl) rfl rfl) rfl rfl) rfl rfl) rfl rfl

theorem files_are_leaves (d : Directory) (h : InvDir d) :
    ∀ m ∈ d.root.nodes, m.getType = NodeType.File → m.getChildren = [] := by
  intro m hm ht
  by_contra hne
  have := h.holders m hm hne
  rw [ht] at this
  cases this

end Directory

/-- C11: a failed navigation changes nothing.  With the cursor on a live node `cur`: when the
parent pointer of `cur` is null, `setCurrentDirectory("..")` leaves the state as it is, also when
repeated any number of times; in a reachable state the node at the address of root has a null
parent; and for a name other than ".." and "/" that `dfs` from `cur` does not resolve,
`setCurrentDirectory` leaves the state as it is. -/
theorem C11_failed_navigation (st : Directory) (cur : FileNode)
    (hcur : st.root.deref st.currentDirectory = some cur) :
    (cur.getParent = none → st.setCurrentDirectory ".." = some st) ∧
    (cur.getParent = none →
      ∀ k, Directory.run (List.replicate k (Directory.Op.setCurrentDirectory "..")) st
        = some st) ∧
    (Directory.Reachable st → st.currentDirectory = st.root.addr → cur.getParent = none) ∧
    (∀ s, s ≠ ".." → s ≠ "/" → cur.dfs s = none → st.setCurrentDirectory s = some st) := by
  have h1 : cur.getParent = none → st.setCurrentDirectory ".." = some st := by
    intro hp
    simp [Directory.setCurrentDirectory, Directory.goToParentDirectory, hcur, hp]
  refine ⟨h1, ?_, ?_, ?_⟩
  · intro hp k
    induction k with
    | zero => rfl
    | succ k ih =>
      rw [List.replicate_succ, Directory.run]
      simp only [Directory.step, h1 hp]
      exact ih
  · intro hr hroot
    rw [hroot, FileNode.deref_self] at hcur
    simp only [Option.some.injEq] at hcur
    subst hcur
    exact (Directory.reachable_inv st hr).rootParent
  · intro s hs1 hs2 hd
    simp [Directory.setCurrentDirectory, hs1, hs2, hcur, hd]

/-- C12 (the claim fails): after `createFile("a")` and `setCurrentDirectory("a")` on a fresh
Directory the cursor is on the File `a`. -/
theorem C12_cursor_on_file :
    Directory.run [Directory.Op.createFile "a", Directory.Op.setCurrentDirectory "a"]
      (Directory.new 0 0) = some sampleOnFile ∧
    Directory.Reachable sampleOnFile ∧
    (sampleOnFile.root.deref sampleOnFile.currentDirectory).map FileNode.getType
      = some NodeType.File :=
  ⟨rfl, Directory.reachable_run
    [Directory.Op.createFile "a", Directory.Op.setCurrentDirectory "a"]
    (Directory.new 0 0) sampleOnFile (Directory.Reachable.init 0 0) rfl, rfl⟩

/-- C12 (amended): in every state reached from a freshly constructed Directory by calls none of
which is a `setCurrentDirectory(name)` whose name resolves to a File, the cursor is on a node of
the tree that is a Directory. -/
theorem C12_cursor_is_directory (st : Directory) (h : Directory.ReachableOnDirectories st) :
    ∃ cur, st.root.deref st.currentDirectory = some cur ∧
      cur.getType = NodeType.Directory := by
  have hI := Directory.reachable_inv st (Directory.reachableOnDirectories_reachable st h)
  obtain ⟨cur, hcur⟩ := FileNode.deref_isSome_of_mem _ _ hI.live
  exact ⟨cur, hcur, (Directory.reachableOnDirectories_invDir st h).cursor cur hcur⟩

/-- C13 (the claim fails): after `createFile("a")`, `setCurrentDirectory("a")` and
`createFile("b")` on a fresh Directory the tree has a node named `b`, below the File `a`, and
`findNodeInAll("b")` reports not-found. -/
theorem C13_node_below_file_not_found :
    Directory.run [Directory.Op.createFile "a", Directory.Op.setCurrentDirectory "a",
      Directory.Op.createFile "b"] (Directory.new 0 0) = some sampleBelowFile ∧
    Directory.Reachable sampleBelowFile ∧
    (∃ n ∈ sampleBelowFile.root.nodes, n.getName = "b") ∧
    sampleBelowFile.findNodeInAll "b" = none :=
  ⟨rfl, Directory.reachable_run
    [Directory.Op.createFile "a", Directory.Op.setCurrentDirectory "a",
      Directory.Op.createFile "b"]
    (Directory.new 0 0) sampleBelowFile (Directory.Reachable.init 0 0) rfl,
   by simp [sampleBelowFile, FileNode.nodes, FileNode.nodesList, FileNode.getName,
     FileNode.fields],
   rfl⟩

/-- C13 (amended): in every state, `findNodeInAll(s)` returns the first node named `s` among the
nodes the search visits (root, and recursively the children of the visited Directory children;
the children of a File child are not visited), so it returns a node exactly when one of those is
named `s`; the visited nodes are nodes of the tree, and in a state reached without a
`setCurrentDirectory` resolving to a File they are all its nodes, so there the lookup finds a
node exactly when some node of the tree is named `s`. -/
theorem C13_findNodeInAll_visited (st : Directory) (s : String) :
    st.findNodeInAll s = st.root.dfsNodes.find? (fun m => decide (m.getName = s)) ∧
    ((∃ r, st.findNodeInAll s = some r) ↔ ∃ n ∈ st.root.dfsNodes, n.getName = s) ∧
    (∀ n ∈ st.root.dfsNodes, n ∈ st.root.nodes) ∧
    (Directory.ReachableOnDirectories st →
      ((∃ r, st.findNodeInAll s = some r) ↔ ∃ n ∈ st.root.nodes, n.getName = s)) := by
  have h1 := FileNode.dfs_eq_find_dfsNodes s st.root
  have hgen : ∀ l : List FileNode,
      (∃ r, l.find? (fun m => decide (m.getName = s)) = some r) ↔ ∃ n ∈ l, n.getName = s := by
    intro l
    constructor
    · rintro ⟨r, hr⟩
      have hp := List.find?_some hr
      exact ⟨r, List.mem_of_find?_eq_some hr, by simpa using hp⟩
    · rintro ⟨n, hn, hs⟩
      cases hf : l.find? (fun m => decide (m.getName = s)) with
      | some r => exact ⟨r, rfl⟩
      | none =>
        have := List.find?_eq_none.1 hf n hn
        simp [hs] at this
  refine ⟨h1, ?_, FileNode.dfsNodes_subset st.root, ?_⟩
  · unfold Directory.findNodeInAll
    rw [h1]
    exact hgen _
  · intro hr
    have hleaf := Directory.files_are_leaves st (Directory.reachableOnDirectories_invDir st hr)
    unfold Directory.findNodeInAll
    rw [FileNode.dfs_eq_find s st.root hleaf]
    exact hgen _

/-- C18: in every reachable state the parent pointer of root is null; every node of the tree
other than root is a child of a node of the tree; and for every node `q` of the tree and every
child `n` in its children array, the parent pointer of `n` is the address of `q`, that address
leads to `q`, no other node of the tree holds `n` as a child, and with the cursor on `n` the
call `setCurrentDirectory("..")` puts the cursor on `q`. -/
theorem C18_parent_links (st : Directory) (h : Directory.Reachable st) :
    st.root.getParent = none ∧
    (∀ n ∈ st.root.nodes, n = st.root ∨ ∃ q ∈ st.root.nodes, n ∈ q.getChildren) ∧
    (∀ q ∈ st.root.nodes, ∀ n ∈ q.getChildren,
      n.getParent = some q.addr ∧ st.root.deref q.addr = some q ∧
      (∀ q2 ∈ st.root.nodes, n ∈ q2.getChildren → q2 = q) ∧
      Directory.setCurrentDirectory ".." { st with currentDirectory := n.addr }
        = some { st with currentDirectory := q.addr }) := by
  have hI := Directory.reachable_inv st h
  have hnd := Directory.inv_nodup_addr st hI
  refine ⟨hI.rootParent, fun n hn => FileNode.mem_nodes_cases st.root n hn, ?_⟩
  intro q hq n hn
  have hpar := (Directory.inv_node st hI q hq).2.2 n hn
  have hdq := FileNode.deref_of_mem_nodup st.root q hnd hq
  refine ⟨hpar, hdq, ?_, ?_⟩
  · intro q2 hq2 hn2
    have hpar2 := (Directory.inv_node st hI q2 hq2).2.2 n hn2
    rw [hpar] at hpar2
    simp only [Option.some.injEq] at hpar2
    have hdq2 := FileNode.deref_of_mem_nodup st.root q2 hnd hq2
    rw [← hpar2, hdq] at hdq2
    simp only [Option.some.injEq] at hdq2
    exact hdq2.symm
  · have hnmem : n ∈ st.root.nodes := FileNode.child_mem_nodes st.root q n hq hn
    have hdn : st.root.deref n.addr = some n := FileNode.deref_of_mem_nodup st.root n hnd hnmem
    have hI2 : Directory.Inv { st with currentDirectory := n.addr } :=
      Directory.inv_cursor st hI n.addr (List.mem_map_of_mem _ hnmem)
    have := Directory.goToParent_of_child { st with currentDirectory := n.addr } hI2 n q hdn hq hn
    simpa [Directory.setCurrentDirectory] using this

/-- C19: in every reachable state the cursor points to a node of the tree owned by root, and
every operation can be carried out from it. -/
theorem C19_cursor_in_tree (st : Directory) (h : Directory.Reachable st) :
    (∃ cur, st.root.deref st.currentDirectory = some cur ∧ cur ∈ st.root.nodes) ∧
    ∀ op, ∃ st1, Directory.step op st = some st1 := by
  have hI := Directory.reachable_inv st h
  obtain ⟨cur, hcur⟩ := FileNode.deref_isSome_of_mem _ _ hI.live
  exact ⟨⟨cur, hcur, FileNode.deref_mem _ _ _ hcur⟩,
    fun op => Directory.step_isSome op st cur hcur⟩

namespace Directory

open FileNode

theorem addr_addChild (child cur : FileNode) : (FileNode.addChild child cur).addr = cur.addr := by
  cases cur with
  | mk f cs => rfl

theorem pila_addChild (child cur : FileNode) :
    (FileNode.addChild child cur).getChildrenPila
      = (child.setParent (some cur.addr)).addr :: cur.getChildrenPila := by
  cases cur with
  | mk f cs => rfl

theorem cola_addChild (child cur : FileNode) :
    (FileNode.addChild child cur).getChildrenCola
      = cur.getChildrenCola ++ [(child.setParent (some cur.addr)).addr] := by
  cases cur with
  | mk f cs => rfl

theorem create_step (d : Directory) (cur : FileNode) (c : String × NodeType)
    (hcur : d.root.deref d.currentDirectory = some cur) :
    ∃ t1, step (createOp c) d
        = some (Directory.mk t1 d.currentDirectory (d.idIncremental + 1) (d.heapNext + 1)) ∧
      t1.deref d.currentDirectory
        = some (FileNode.addChild (FileNode.new d.heapNext d.idIncremental c.1 c.2) cur) := by
  obtain ⟨_, _, _, hg⟩ := update_spec d.currentDirectory d.root cur hcur
  obtain ⟨t1, hu, _, _, _⟩ := hg
    (FileNode.addChild (FileNode.new d.heapNext d.idIncremental c.1 c.2))
  have hd := cursor_after_update d.root t1 cur d.currentDirectory _ hcur
    (ident_addChild _ cur) hu
  refine ⟨t1, ?_, hd⟩
  obtain ⟨name, ty⟩ := c
  cases ty with
  | File => simp only [createOp, step, createFile, hu, Option.map_some']
  | Directory => simp only [createOp, step, createDirectory, hu, Option.map_some']

theorem creates_spec :
    ∀ (cs : List (String × NodeType)) (d : Directory) (cur : FileNode),
      d.root.deref d.currentDirectory = some cur →
      ∃ d1 cur1 news, run (cs.map createOp) d = some d1 ∧
        d1.currentDirectory = d.currentDirectory ∧
        d1.root.deref d1.currentDirectory = some cur1 ∧
        cur1.getChildren = cur.getChildren ++ news ∧
        news.map (fun n => (n.getName, n.getType)) = cs ∧
        cur1.getChildrenPila = (news.map FileNode.addr).reverse ++ cur.getChildrenPila ∧
        cur1.getChildrenCola = cur.getChildrenCola ++ news.map FileNode.addr := by
  intro cs
  induction cs with
  | nil =>
    intro d cur hcur
    exact ⟨d, cur, [], rfl, rfl, hcur, by simp, rfl, by simp, by simp⟩
  | cons c rest ih =>
    intro d cur hcur
    obtain ⟨t1, hs, hd⟩ := create_step d cur c hcur
    obtain ⟨d1, cur1, news, hrun, hc1, hcur1, hch, hnames, hpila, hcola⟩ :=
      ih (Directory.mk t1 d.currentDirectory (d.idIncremental + 1) (d.heapNext + 1)) _ hd
    refine ⟨d1, cur1,
      (FileNode.new d.heapNext d.idIncremental c.1 c.2).setParent (some cur.addr) :: news,
      ?_, hc1, hcur1, ?_, ?_, ?_, ?_⟩
    · rw [List.map_cons, run, hs]
      exact hrun
    · rw [hch, getChildren_addChild]
      simp
    · rw [List.map_cons, hnames]
      simp [FileNode.new, setParent, getName, getType, fields]
    · rw [hpila, pila_addChild]
      simp
    · rw [hcola, cola_addChild]
      simp

theorem getAllLoop_spec :
    ∀ (cs : List FileNode) (fs ds : List String),
      getAllLoop cs (fs, ds)
        = (fs ++ (cs.filter (fun n => decide (n.getType = NodeType.File))).map getName,
           ds ++ (cs.filter (fun n => decide (n.getType = NodeType.Directory))).map getName) := by
  intro cs
  induction cs with
  | nil => intro fs ds; simp [getAllLoop]
  | cons c rest ih =>
    intro fs ds
    rw [getAllLoop]
    cases ht : c.getType with
    | File => simp [ih, ht, arreglo_lista.push_final]
    | Directory => simp [ih, ht, arreglo_lista.push_final]

theorem getAllLastestLoop_spec (root : FileNode) :
    ∀ (l : List FileNode) (fs ds : List String), (∀ n ∈ l, root.deref n.addr = some n) →
      getAllLastestLoop root (l.map FileNode.addr) (fs, ds)
        = some (fs ++ (l.filter (fun n => decide (n.getType = NodeType.File))).map getName,
           ds ++ (l.filter (fun n => decide (n.getType = NodeType.Directory))).map getName) := by
  intro l
  induction l with
  | nil => intro fs ds _; simp [getAllLastestLoop]
  | cons c rest ih =>
    intro fs ds h
    have hc := h c (by simp)
    have hr : ∀ n ∈ rest, root.deref n.addr = some n := fun n hn =>
      h n (List.mem_cons_of_mem _ hn)
    rw [List.map_cons, getAllLastestLoop, hc]
    cases ht : c.getType with
    | File => simp [ih _ _ hr, ht, cola.encolar]
    | Directory => simp [ih _ _ hr, ht, cola.encolar]

theorem getAllOldestLoop_spec (root : FileNode) :
    ∀ (l : List FileNode) (fs ds : List String), (∀ n ∈ l, root.deref n.addr = some n) →
      getAllOldestLoop root (l.map FileNode.addr) (fs, ds)
        = some (fs ++ (l.filter (fun n => decide (n.getType = NodeType.File))).map getName,
           ds ++ (l.filter (fun n => decide (n.getType = NodeType.Directory))).map getName) := by
  intro l
  induction l with
  | nil => intro fs ds _; simp [getAllOldestLoop]
  | cons c rest ih =>
    intro fs ds h
    have hc := h c (by simp)
    have hr : ∀ n ∈ rest, root.deref n.addr = some n := fun n hn =>
      h n (List.mem_cons_of_mem _ hn)
    rw [List.map_cons, getAllOldestLoop, hc]
    cases ht : c.getType with
    | File => simp [ih _ _ hr, ht, cola.encolar]
    | Directory => simp [ih _ _ hr, ht, cola.encolar]

theorem names_of_kind (ty : NodeType) :
    ∀ (news : List FileNode),
      (news.filter (fun n => decide (n.getType = ty))).map getName
        = ((news.map (fun n => (n.getName, n.getType))).filter
            (fun c => decide (c.2 = ty))).map Prod.fst := by
  intro news
  induction news with
  | nil => rfl
  | cons n rest ih =>
    by_cases h : n.getType = ty
    · simp [List.filter_cons, h, ih]
    · simp [List.filter_cons, h, ih]

theorem names_length (cs : List (String × NodeType)) :
    (fileNamesOf cs).length + (directoryNamesOf cs).length = cs.length := by
  induction cs with
  | nil => rfl
  | cons c rest ih =>
    obtain ⟨name, ty⟩ := c
    cases ty with
    | File =>
      simp only [fileNamesOf, directoryNamesOf, List.filter_cons, List.length_map] at ih ⊢
      simp
      omega
    | Directory =>
      simp only [fileNamesOf, directoryNamesOf, List.filter_cons, List.length_map] at ih ⊢
      simp
      omega

theorem step_counter (op : Op) (d d1 : Directory) (hs : step op d = some d1) :
    d1.idIncremental = d.idIncremental + (if op.isCreate then 1 else 0) := by
  cases op with
  | createFile name =>
    simp only [step, createFile] at hs
    cases hu : d.root.update d.currentDirectory
        (FileNode.addChild (FileNode.new d.heapNext d.idIncremental name NodeType.File)) with
    | none => rw [hu] at hs; cases hs
    | some t1 =>
      rw [hu] at hs
      simp only [Option.map_some', Option.some.injEq] at hs
      subst hs
      simp [Op.isCreate]
  | createDirectory name =>
    simp only [step, createDirectory] at hs
    cases hu : d.root.update d.currentDirectory
        (FileNode.addChild (FileNode.new d.heapNext d.idIncremental name NodeType.Directory)) with
    | none => rw [hu] at hs; cases hs
    | some t1 =>
      rw [hu] at hs
      simp only [Option.map_some', Option.some.injEq] at hs
      subst hs
      simp [Op.isCreate]
  | setContent a x =>
    simp only [step, Directory.setContent] at hs
    cases hu : d.root.update d.currentDirectory
        (fun cur => FileNode.mk cur.fields (setContentLoop a x cur.getChildren)) with
    | none => rw [hu] at hs; cases hs
    | some t1 =>
      rw [hu] at hs
      simp only [Option.map_some', Option.some.injEq] at hs
      subst hs
      simp [Op.isCreate]
  | deleteNode name =>
    simp only [step, deleteNode] at hs
    cases hcur : d.root.deref d.currentDirectory with
    | none => rw [hcur] at hs; cases hs
    | some cur =>
      rw [hcur] at hs
      simp only at hs
      cases hu : d.root.update d.currentDirectory (fun n => (n.deleteChild name).2) with
      | none => rw [hu] at hs; cases hs
      | some t1 =>
        rw [hu] at hs
        simp only [Option.map_some', Option.some.injEq] at hs
        subst hs
        simp [Op.isCreate]
  | goToParentDirectory =>
    simp only [step, goToParentDirectory] at hs
    cases hcur : d.root.deref d.currentDirectory with
    | none => rw [hcur] at hs; cases hs
    | some cur =>
      rw [hcur] at hs
      simp only at hs
      cases hp : cur.getParent with
      | none =>
        rw [hp] at hs
        simp only [Option.some.injEq] at hs
        subst hs
        simp [Op.isCreate]
      | some p =>
        rw [hp] at hs
        simp only [Option.some.injEq] at hs
        subst hs
        simp [Op.isCreate]
  | setCurrentDirectory name =>
    simp only [step, setCurrentDirectory, goToParentDirectory] at hs
    simp only [Op.isCreate, Bool.false_eq_true, if_false, add_zero]
    split at hs
    · cases hcur : d.root.deref d.currentDirectory with
      | none => rw [hcur] at hs; cases hs
      | some cur =>
        rw [hcur] at hs
        simp only at hs
        cases hp : cur.getParent with
        | none =>
          rw [hp] at hs
          simp only [Option.some.injEq] at hs
          subst hs
          rfl
        | some p =>
          rw [hp] at hs
          simp only [Option.some.injEq] at hs
          subst hs
          rfl
    · split at hs
      · simp only [Option.some.injEq] at hs
        subst hs
        rfl
      · cases hcur : d.root.deref d.currentDirectory with
        | none => rw [hcur] at hs; cases hs
        | some cur =>
          rw [hcur] at hs
          simp only at hs
          cases hd : cur.dfs name with
          | none =>
            rw [hd] at hs
            simp only [Option.some.injEq] at hs
            subst hs
            rfl
          | some r =>
            rw [hd] at hs
            simp only [Option.some.injEq] at hs
            subst hs
            rfl

theorem constructed_id (op : Op) (d : Directory) (n : FileNode)
    (h : constructed op d = some n) : n.getId = d.idIncremental ∧ op.isCreate = true := by
  cases op with
  | createFile name =>
    simp only [constructed, Option.some.injEq] at h
    subst h
    exact ⟨rfl, rfl⟩
  | createDirectory name =>
    simp only [constructed, Option.some.injEq] at h
    subst h
    exact ⟨rfl, rfl⟩
  | setCurrentDirectory name => simp [constructed] at h
  | goToParentDirectory => simp [constructed] at h
  | setContent a x => simp [constructed] at h
  | deleteNode name => simp [constructed] at h

theorem constructed_none (op : Op) (d : Directory) (h : constructed op d = none) :
    op.isCreate = false := by
  cases op with
  | createFile name => simp [constructed] at h
  | createDirectory name => simp [constructed] at h
  | setCurrentDirectory name => rfl
  | goToParentDirectory => rfl
  | setContent a x => rfl
  | deleteNode name => rfl

theorem idsConstructed_spec :
    ∀ (ops : List Op) (d d1 : Directory), run ops d = some d1 →
      idsConstructed ops d
        = (List.range (ops.countP Op.isCreate)).map (fun (k : Nat) => d.idIncremental + (k : Int)) ∧
      d1.idIncremental = d.idIncremental + ((ops.countP Op.isCreate : Nat) : Int) := by
  intro ops
  induction ops with
  | nil =>
    intro d d1 h
    simp only [run, Option.some.injEq] at h
    subst h
    simp [idsConstructed]
  | cons op rest ih =>
    intro d d1 h
    rw [run] at h
    cases hs : step op d with
    | none => rw [hs] at h; cases h
    | some d2 =>
      rw [hs] at h
      obtain ⟨ih1, ih2⟩ := ih d2 d1 h
      have hc := step_counter op d d2 hs
      rw [idsConstructed, hs]
      simp only
      cases hn : constructed op d with
      | some n =>
        obtain ⟨hid, hcr⟩ := constructed_id op d n hn
        simp only [hcr, if_true] at hc
        rw [List.countP_cons_of_pos _ _ hcr, ih1, ih2, hc]
        simp only [hid]
        refine ⟨?_, by push_cast; ring⟩
        rw [List.range_succ_eq_map, List.map_cons, List.map_map]
        simp only [Nat.cast_zero, add_zero, List.cons.injEq, true_and]
        apply List.map_congr_left
        intro k _
        simp only [Function.comp, Nat.succ_eq_add_one]
        push_cast
        ring
      | none =>
        have hcr := constructed_none op d hn
        simp only [hcr, Bool.false_eq_true, if_false, add_zero] at hc
        rw [List.countP_cons_of_neg _ _ (by simp [hcr]), ih1, ih2, hc]
        exact ⟨rfl, rfl⟩

end Directory

namespace Directory

open FileNode

theorem getAll_after_creates (d1 : Directory) (cur1 : FileNode) (news : List FileNode)
    (cs : List (String × NodeType))
    (hcur1 : d1.root.deref d1.currentDirectory = some cur1)
    (hch : cur1.getChildren = news)
    (hnames : news.map (fun n => (n.getName, n.getType)) = cs) :
    d1.getAll = some (printListing (fileNamesOf cs) (directoryNamesOf cs)) := by
  simp only [getAll, hcur1, Option.map_some', hch, getAllLoop_spec, List.nil_append,
    names_of_kind, hnames, fileNamesOf, directoryNamesOf]

theorem printListing_nil : printListing [] [] = ["Directorio vacio"] := by
  simp [printListing]

theorem printListing_nonempty (fs ds : List String) (h : 0 < fs.length + ds.length) :
    printListing fs ds
      = fs.map (fun s => "[File] " ++ s) ++ ds.map (fun s => "[Directory] " ++ s) ++
        ["Total de archivos: " ++ toString fs.length,
         "Total de directorios: " ++ toString ds.length] := by
  unfold printListing
  have hc : fs.length > 0 ∨ ds.length > 0 := by omega
  rw [if_pos hc]

end Directory

/-- Where the stack view is in step with the children array: in a reachable state whose current
directory has no entry in the children array, the stack or the queue, after any sequence of
`createFile`/`createDirectory` calls `getAll` lists the file names in creation order followed by
the directory names in creation order, and `getAllLastest` lists the file names in reverse
creation order followed by the directory names in reverse creation order, with the same
totals. -/
theorem getAllLastest_reverse_of_empty_views (st : Directory) (cur : FileNode)
    (cs : List (String × NodeType)) (hR : Directory.Reachable st)
    (hcur : st.root.deref st.currentDirectory = some cur)
    (hempty : cur.getChildren = [] ∧ cur.getChildrenPila = [] ∧ cur.getChildrenCola = []) :
    ∃ st1, Directory.run (cs.map Directory.createOp) st = some st1 ∧
      st1.getAll = some (Directory.printListing (Directory.fileNamesOf cs)
        (Directory.directoryNamesOf cs)) ∧
      st1.getAllLastest = some (Directory.printListing (Directory.fileNamesOf cs).reverse
        (Directory.directoryNamesOf cs).reverse) := by
  obtain ⟨st1, cur1, news, hrun, _, hcur1, hch, hnames, hpila, _⟩ :=
    Directory.creates_spec cs st cur hcur
  rw [hempty.1, List.nil_append] at hch
  rw [hempty.2.1, List.append_nil] at hpila
  have hI := Directory.reachable_inv st1 (Directory.reachable_run _ st st1 hR hrun)
  have hnd := Directory.inv_nodup_addr st1 hI
  have hcm := FileNode.deref_mem _ _ _ hcur1
  have hderef : ∀ n ∈ news.reverse, st1.root.deref n.addr = some n := by
    intro n hn
    apply FileNode.deref_of_mem_nodup st1.root n hnd
    apply FileNode.child_mem_nodes st1.root cur1 n hcm
    rw [hch]
    exact List.mem_reverse.1 hn
  refine ⟨st1, hrun, Directory.getAll_after_creates st1 cur1 news cs hcur1 hch hnames, ?_⟩
  have hp : cur1.getChildrenPila = news.reverse.map FileNode.addr := by
    rw [hpila, List.map_reverse]
  simp only [Directory.getAllLastest, hcur1]
  rw [hp, Directory.getAllLastestLoop_spec st1.root news.reverse [] [] hderef]
  simp only [Option.map_some', List.nil_append, List.filter_reverse, List.map_reverse,
    Directory.names_of_kind, hnames, Directory.fileNamesOf, Directory.directoryNamesOf]

/-- C14 (evaluation of the code): after `createFile("x")` and `deleteNode("x")` on a fresh
Directory the current directory is empty (no child in the array) while its stack still holds the
pointer to the deleted node.  After `createFile` of `A`, `B`, `C` there, `getAll` lists A, B, C,
the stack holds four entries for the three children, and `getAllLastest` reads through the
pointer to the deleted node instead of listing C, B, A. -/
theorem C14_getAllLastest_reads_deleted_child :
    (Directory.run [Directory.Op.createFile "x", Directory.Op.deleteNode "x"]
      (Directory.new 0 0)).map (fun st => (st.root.getChildren.length, st.root.getChildrenPila))
      = some (0, [1]) ∧
    (Directory.run [Directory.Op.createFile "x", Directory.Op.deleteNode "x",
      Directory.Op.createFile "A", Directory.Op.createFile "B", Directory.Op.createFile "C"]
      (Directory.new 0 0)).bind Directory.getAll
      = some ["[File] A", "[File] B", "[File] C", "Total de archivos: 3",
          "Total de directorios: 0"] ∧
    (Directory.run [Directory.Op.createFile "x", Directory.Op.deleteNode "x",
      Directory.Op.createFile "A", Directory.Op.createFile "B", Directory.Op.createFile "C"]
      (Directory.new 0 0)).map
        (fun st => (st.root.getChildren.map FileNode.addr, st.root.getChildrenPila))
      = some ([2, 3, 4], [4, 3, 2, 1]) ∧
    (Directory.run [Directory.Op.createFile "x", Directory.Op.deleteNode "x",
      Directory.Op.createFile "A", Directory.Op.createFile "B", Directory.Op.createFile "C"]
      (Directory.new 0 0)).bind Directory.getAllLastest = none :=
  ⟨rfl, rfl, rfl, rfl⟩

/-- C15 (evaluation of the code): after `createFile("a")` and `deleteNode("a")` on a fresh
Directory the children array of the cursor is empty and `getAll` prints "Directorio vacio",
while the queue still holds the pointer to the deleted node and `getAllOldest` reads through
it. -/
theorem C15_getAllOldest_reads_deleted_child :
    (Directory.run [Directory.Op.createFile "a", Directory.Op.deleteNode "a"]
      (Directory.new 0 0)).bind Directory.getAll = some ["Directorio vacio"] ∧
    (Directory.run [Directory.Op.createFile "a", Directory.Op.deleteNode "a"]
      (Directory.new 0 0)).bind Directory.getAllOldest = none ∧
    (Directory.run [Directory.Op.createFile "a", Directory.Op.deleteNode "a"]
      (Directory.new 0 0)).map (fun st => (st.root.getChildren.length, st.root.getChildrenCola))
      = some (0, [1]) :=
  ⟨rfl, rfl, rfl⟩

/-- C16: from a state whose current directory has no children, after `createFile` /
`createDirectory` calls for the names and types `cs` the current directory has exactly as many
children as calls were made, and `getAll` prints the file names, the directory names and the
two totals, which are the numbers of files and of directories created and add up to the number
of calls; without any call it prints "Directorio vacio". -/
theorem C16_create_counts (st : Directory) (cur : FileNode) (cs : List (String × NodeType))
    (hcur : st.root.deref st.currentDirectory = some cur) (hempty : cur.getChildren = []) :
    ∃ st1 cur1, Directory.run (cs.map Directory.createOp) st = some st1 ∧
      st1.root.deref st1.currentDirectory = some cur1 ∧
      cur1.getChildren.length = cs.length ∧
      (Directory.fileNamesOf cs).length = cs.countP (fun c => decide (c.2 = NodeType.File)) ∧
      (Directory.directoryNamesOf cs).length
        = cs.countP (fun c => decide (c.2 = NodeType.Directory)) ∧
      (Directory.fileNamesOf cs).length + (Directory.directoryNamesOf cs).length = cs.length ∧
      (cs = [] → st1.getAll = some ["Directorio vacio"]) ∧
      (cs ≠ [] → st1.getAll = some (
        (Directory.fileNamesOf cs).map (fun s => "[File] " ++ s) ++
        (Directory.directoryNamesOf cs).map (fun s => "[Directory] " ++ s) ++
        ["Total de archivos: " ++ toString (Directory.fileNamesOf cs).length,
         "Total de directorios: " ++ toString (Directory.directoryNamesOf cs).length])) := by
  obtain ⟨st1, cur1, news, hrun, _, hcur1, hch, hnames, _, _⟩ :=
    Directory.creates_spec cs st cur hcur
  rw [hempty, List.nil_append] at hch
  have hall := Directory.getAll_after_creates st1 cur1 news cs hcur1 hch hnames
  have hlen := Directory.names_length cs
  refine ⟨st1, cur1, hrun, hcur1, ?_, ?_, ?_, hlen, ?_, ?_⟩
  · rw [hch, ← hnames, List.length_map]
  · simp [Directory.fileNamesOf, List.countP_eq_length_filter]
  · simp [Directory.directoryNamesOf, List.countP_eq_length_filter]
  · intro hnil
    rw [hall, hnil]
    rfl
  · intro hne
    rw [hall]
    apply congrArg
    apply Directory.printListing_nonempty
    rw [hlen]
    exact List.length_pos.2 hne

/-- C17: on a run of operations from a Directory constructed when the counter holds `c`, the
root gets id `c`, the ids of the nodes constructed afterwards are `c+1, c+2, ...` in creation
order (one per create call, each the successor of the previous one), so the ids handed out
form a strictly increasing sequence whose length is the number of nodes constructed; the
counter ends right after the last id, every node of the tree has an id below it, and the ids
of the nodes of the tree are pairwise distinct. -/
theorem C17_ids_strictly_increasing (c : Int) (hp : Nat) (ops : List Directory.Op)
    (st : Directory) (hrun : Directory.run ops (Directory.new c hp) = some st) :
    (Directory.new c hp).root.getId = c ∧
    Directory.idsConstructed ops (Directory.new c hp)
      = (List.range (ops.countP Directory.Op.isCreate)).map
          (fun (k : Nat) => c + 1 + (k : Int)) ∧
    List.Pairwise (fun a b : Int => a < b)
      (c :: Directory.idsConstructed ops (Directory.new c hp)) ∧
    (c :: Directory.idsConstructed ops (Directory.new c hp)).length
      = ops.countP Directory.Op.isCreate + 1 ∧
    st.idIncremental = c + 1 + ((ops.countP Directory.Op.isCreate : Nat) : Int) ∧
    (∀ n ∈ st.root.nodes, n.getId < st.idIncremental) ∧
    (st.root.nodes.map FileNode.getId).Nodup := by
  obtain ⟨h1, h2⟩ := Directory.idsConstructed_spec ops (Directory.new c hp) st hrun
  have hc : (Directory.new c hp).idIncremental = c + 1 := rfl
  rw [hc] at h1 h2
  have hI := Directory.reachable_inv st
    (Directory.reachable_run ops _ st (Directory.Reachable.init c hp) hrun)
  refine ⟨rfl, h1, ?_, ?_, h2, fun n hn => (Directory.inv_node st hI n hn).2.1,
    Directory.inv_nodup_id st hI⟩
  · rw [h1, List.pairwise_cons]
    constructor
    · intro x hx
      obtain ⟨k, _, rfl⟩ := List.mem_map.1 hx
      omega
    · rw [List.pairwise_map]
      apply List.Pairwise.imp _ (List.pairwise_lt_range _)
      intro a b hab
      omega
  · rw [h1]
    simp

namespace Directory

theorem scanUpT_fst (data : List FileNode) (r : Int) :
    ∀ (d : Nat) (j i : Int), (j - i).toNat ≤ d →
      (scanUpT data r j i).map Prod.fst = scanUp data r j i := by
  intro d
  induction d with
  | zero =>
    intro j i hd
    have hn : ¬ i < j := by omega
    rw [scanUpT, scanUp]
    simp [hn]
  | succ d ih =>
    intro j i hd
    rw [scanUpT, scanUp]
    by_cases hlt : i < j
    · simp only [hlt, if_true]
      cases h1 : arreglo_lista.at data i with
      | none => rfl
      | some x =>
        cases h2 : arreglo_lista.at data r with
        | none => rfl
        | some p =>
          simp only
          by_cases hle : x.getId ≤ p.getId
          · simp only [hle, if_true, Option.map_map]
            rw [← ih j (i + 1) (by omega)]
            rfl
          · simp only [hle, if_false, Option.map_some']
    · simp [hlt]

theorem scanDownT_fst (data : List FileNode) (r : Int) :
    ∀ (d : Nat) (i j : Int), (j - i).toNat ≤ d →
      (scanDownT data r i j).map Prod.fst = scanDown data r i j := by
  intro d
  induction d with
  | zero =>
    intro i j hd
    have hn : ¬ i < j := by omega
    rw [scanDownT, scanDown]
    simp [hn]
  | succ d ih =>
    intro i j hd
    rw [scanDownT, scanDown]
    by_cases hlt : i < j
    · simp only [hlt, if_true]
      cases h1 : arreglo_lista.at data j with
      | none => rfl
      | some x =>
        cases h2 : arreglo_lista.at data r with
        | none => rfl
        | some p =>
          simp only
          by_cases hle : x.getId ≥ p.getId
          · simp only [hle, if_true, Option.map_map]
            rw [← ih i (j - 1) (by omega)]
            rfl
          · simp only [hle, if_false, Option.map_some']
    · simp [hlt]

theorem scanUpT_log (data : List FileNode) (r : Int) :
    ∀ (d : Nat) (j i i1 : Int) (log : List Int), (j - i).toNat ≤ d → i ≤ j →
      scanUpT data r j i = some (i1, log) →
      i ≤ i1 ∧ i1 ≤ j ∧ ∀ k ∈ log, (i ≤ k ∧ k < j) ∨ k = r := by
  intro d
  induction d with
  | zero =>
    intro j i i1 log hd hij h
    have hn : ¬ i < j := by omega
    rw [scanUpT] at h
    simp only [hn, if_false, Option.some.injEq, Prod.mk.injEq] at h
    obtain ⟨h1, h2⟩ := h
    subst h1 h2
    exact ⟨le_refl _, hij, by simp⟩
  | succ d ih =>
    intro j i i1 log hd hij h
    rw [scanUpT] at h
    by_cases hlt : i < j
    · simp only [hlt, if_true] at h
      cases h1 : arreglo_lista.at data i with
      | none => rw [h1] at h; cases h
      | some x =>
        cases h2 : arreglo_lista.at data r with
        | none => rw [h1, h2] at h; cases h
        | some p =>
          rw [h1, h2] at h
          simp only at h
          by_cases hle : x.getId ≤ p.getId
          · simp only [hle, if_true] at h
            cases hrec : scanUpT data r j (i + 1) with
            | none => rw [hrec] at h; cases h
            | some res =>
              obtain ⟨i2, log2⟩ := res
              rw [hrec] at h
              simp only [Option.map_some', Option.some.injEq, Prod.mk.injEq] at h
              obtain ⟨e1, e2⟩ := h
              subst e1 e2
              obtain ⟨a1, a2, a3⟩ := ih j (i + 1) i2 log2 (by omega) (by omega) hrec
              refine ⟨by omega, a2, ?_⟩
              intro k hk
              simp only [List.mem_cons] at hk
              rcases hk with hk | hk | hk
              · left; omega
              · right; exact hk
              · rcases a3 k hk with hh | hh
                · left; omega
                · right; exact hh
          · simp only [hle, if_false, Option.some.injEq, Prod.mk.injEq] at h
            obtain ⟨e1, e2⟩ := h
            subst e1 e2
            refine ⟨le_refl _, by omega, ?_⟩
            intro k hk
            simp only [List.mem_cons, List.mem_singleton, List.not_mem_nil, or_false] at hk
            rcases hk with hk | hk
            · left; omega
            · right; exact hk
    · simp only [hlt, if_false, Option.some.injEq, Prod.mk.injEq] at h
      obtain ⟨e1, e2⟩ := h
      subst e1 e2
      exact ⟨le_refl _, hij, by simp⟩

theorem scanDownT_log (data : List FileNode) (r : Int) :
    ∀ (d : Nat) (i j j1 : Int) (log : List Int), (j - i).toNat ≤ d → i ≤ j →
      scanDownT data r i j = some (j1, log) →
      i ≤ j1 ∧ j1 ≤ j ∧ ∀ k ∈ log, (i < k ∧ k ≤ j) ∨ k = r := by
  intro d
  induction d with
  | zero =>
    intro i j j1 log hd hij h
    have hn : ¬ i < j := by omega
    rw [scanDownT] at h
    simp only [hn, if_false, Option.some.injEq, Prod.mk.injEq] at h
    obtain ⟨h1, h2⟩ := h
    subst h1 h2
    exact ⟨hij, le_refl _, by simp⟩
  | succ d ih =>
    intro i j j1 log hd hij h
    rw [scanDownT] at h
    by_cases hlt : i < j
    · simp only [hlt, if_true] at h
      cases h1 : arreglo_lista.at data j with
      | none => rw [h1] at h; cases h
      | some x =>
        cases h2 : arreglo_lista.at data r with
        | none => rw [h1, h2] at h; cases h
        | some p =>
          rw [h1, h2] at h
          simp only at h
          by_cases hle : x.getId ≥ p.getId
          · simp only [hle, if_true] at h
            cases hrec : scanDownT data r i (j - 1) with
            | none => rw [hrec] at h; cases h
            | some res =>
              obtain ⟨j2, log2⟩ := res
              rw [hrec] at h
              simp only [Option.map_some', Option.some.injEq, Prod.mk.injEq] at h
              obtain ⟨e1, e2⟩ := h
              subst e1 e2
              obtain ⟨a1, a2, a3⟩ := ih i (j - 1) j2 log2 (by omega) (by omega) hrec
              refine ⟨a1, by omega, ?_⟩
              intro k hk
              simp only [List.mem_cons] at hk
              rcases hk with hk | hk | hk
              · left; omega
              · right; exact hk
              · rcases a3 k hk with hh | hh
                · left; omega
                · right; exact hh
          · simp only [hle, if_false, Option.some.injEq, Prod.mk.injEq] at h
            obtain ⟨e1, e2⟩ := h
            subst e1 e2
            refine ⟨by omega, le_refl _, ?_⟩
            intro k hk
            simp only [List.mem_cons, List.mem_singleton, List.not_mem_nil, or_false] at hk
            rcases hk with hk | hk
            · left; omega
            · right; exact hk
    · simp only [hlt, if_false, Option.some.injEq, Prod.mk.injEq] at h
      obtain ⟨e1, e2⟩ := h
      subst e1 e2
      exact ⟨hij, le_refl _, by simp⟩

end Directory

namespace Directory

theorem swapT_fst (data : List FileNode) (i j : Int) (c : Prop) [Decidable c] :
    (if c then swapT data i j else some (data, [])).map Prod.fst
      = (if c then swap data i j else some data) := by
  by_cases h : c
  · simp only [h, if_true, swapT, Option.map_map]
    cases swap data i j <;> rfl
  · simp only [h, if_false, Option.map_some']

theorem swapT_log (data data1 : List FileNode) (i j : Int) (c : Prop) [Decidable c]
    (log : List Int) (h : (if c then swapT data i j else some (data, [])) = some (data1, log)) :
    ∀ k ∈ log, k = i ∨ k = j := by
  by_cases hc : c
  · simp only [hc, if_true, swapT] at h
    cases hs : swap data i j with
    | none => rw [hs] at h; cases h
    | some r =>
      rw [hs] at h
      simp only [Option.map_some', Option.some.injEq, Prod.mk.injEq] at h
      obtain ⟨_, e⟩ := h
      subst e
      intro k hk
      simpa using hk
  · simp only [hc, if_false, Option.some.injEq, Prod.mk.injEq] at h
    obtain ⟨_, e⟩ := h
    subst e
    intro k hk
    cases hk

theorem partitionLoopT_fst :
    ∀ (fuel : Nat) (data : List FileNode) (r i j : Int),
      (partitionLoopT fuel data r i j).map Prod.fst = partitionLoop fuel data r i j := by
  intro fuel
  induction fuel with
  | zero => intro data r i j; rfl
  | succ fuel ih =>
    intro data r i j
    rw [partitionLoopT, partitionLoop]
    by_cases hlt : i < j
    · simp only [hlt, if_true]
      have hu := scanUpT_fst data r _ j i (le_refl _)
      cases hT : scanUpT data r j i with
      | none =>
        rw [hT] at hu
        rw [← hu]
        rfl
      | some res1 =>
        obtain ⟨i1, log1⟩ := res1
        rw [hT] at hu
        rw [← hu]
        simp only [Option.map_some']
        have hd := scanDownT_fst data r _ i1 j (le_refl _)
        cases hT2 : scanDownT data r i1 j with
        | none =>
          rw [hT2] at hd
          rw [← hd]
          rfl
        | some res2 =>
          obtain ⟨j1, log2⟩ := res2
          rw [hT2] at hd
          rw [← hd]
          simp only [Option.map_some']
          have hsw := swapT_fst data i1 j1 (i1 ≠ j1)
          cases hT3 : (if i1 ≠ j1 then swapT data i1 j1 else some (data, [])) with
          | none =>
            rw [hT3] at hsw
            rw [← hsw]
            rfl
          | some res3 =>
            obtain ⟨data1, log3⟩ := res3
            rw [hT3] at hsw
            rw [← hsw]
            simp only [Option.map_some', Option.map_map]
            rw [← ih data1 r i1 j1]
            rfl
    · simp only [hlt, if_false, Option.map_some']

theorem partitionLoopT_log :
    ∀ (fuel : Nat) (data : List FileNode) (r i j : Int)
      (res : List FileNode × Int × Int) (log : List Int),
      partitionLoopT fuel data r i j = some (res, log) → i ≤ j → j ≤ r →
      i ≤ res.2.1 ∧ res.2.1 ≤ j ∧ ∀ k ∈ log, i ≤ k ∧ k ≤ r := by
  intro fuel
  induction fuel with
  | zero => intro data r i j res log h; simp [partitionLoopT] at h
  | succ fuel ih =>
    intro data r i j res log h hij hjr
    rw [partitionLoopT] at h
    by_cases hlt : i < j
    · simp only [hlt, if_true] at h
      cases hT : scanUpT data r j i with
      | none => rw [hT] at h; cases h
      | some res1 =>
        obtain ⟨i1, log1⟩ := res1
        rw [hT] at h
        simp only at h
        obtain ⟨a1, a2, a3⟩ := scanUpT_log data r _ j i i1 log1 (le_refl _) hij hT
        cases hT2 : scanDownT data r i1 j with
        | none => rw [hT2] at h; cases h
        | some res2 =>
          obtain ⟨j1, log2⟩ := res2
          rw [hT2] at h
          simp only at h
          obtain ⟨b1, b2, b3⟩ := scanDownT_log data r _ i1 j j1 log2 (le_refl _) a2 hT2
          cases hT3 : (if i1 ≠ j1 then swapT data i1 j1 else some (data, [])) with
          | none => rw [hT3] at h; cases h
          | some res3 =>
            obtain ⟨data1, log3⟩ := res3
            rw [hT3] at h
            simp only at h
            have c3 := swapT_log data data1 i1 j1 (i1 ≠ j1) log3 hT3
            cases hT4 : partitionLoopT fuel data1 r i1 j1 with
            | none => rw [hT4] at h; cases h
            | some res4 =>
              obtain ⟨res5, log4⟩ := res4
              rw [hT4] at h
              simp only [Option.map_some', Option.some.injEq, Prod.mk.injEq] at h
              obtain ⟨e1, e2⟩ := h
              subst e1 e2
              obtain ⟨d1, d2, d3⟩ := ih data1 r i1 j1 res5 log4 hT4 b1 (by omega)
              refine ⟨by omega, by omega, ?_⟩
              intro k hk
              simp only [List.mem_append] at hk
              rcases hk with ((hk | hk) | hk) | hk
              · rcases a3 k hk with hh | hh <;> omega
              · rcases b3 k hk with hh | hh <;> omega
              · rcases c3 k hk with hh | hh <;> omega
              · have := d3 k hk
                omega
    · simp only [hlt, if_false, Option.some.injEq, Prod.mk.injEq] at h
      obtain ⟨e1, e2⟩ := h
      subst e1 e2
      exact ⟨le_refl _, hij, by simp⟩

theorem sortDataQuickT_fst :
    ∀ (fuel : Nat) (l r : Int) (data : List FileNode),
      (sortDataQuickT fuel l r data).map Prod.fst = sortDataQuick fuel l r data := by
  intro fuel
  induction fuel with
  | zero => intro l r data; rfl
  | succ fuel ih =>
    intro l r data
    rw [sortDataQuickT, sortDataQuick]
    by_cases hge : l ≥ r
    · simp only [hge, if_true, Option.map_some']
    · simp only [hge, if_false]
      have hp := partitionLoopT_fst fuel data r l r
      cases hT : partitionLoopT fuel data r l r with
      | none =>
        rw [hT] at hp
        rw [← hp]
        rfl
      | some res1 =>
        obtain ⟨⟨data1, i, j⟩, log1⟩ := res1
        rw [hT] at hp
        rw [← hp]
        simp only [Option.map_some']
        have hsw := swapT_fst data1 i r (i ≠ r)
        cases hT2 : (if i ≠ r then swapT data1 i r else some (data1, [])) with
        | none =>
          rw [hT2] at hsw
          rw [← hsw]
          rfl
        | some res2 =>
          obtain ⟨data2, log2⟩ := res2
          rw [hT2] at hsw
          rw [← hsw]
          simp only [Option.map_some']
          have h3 := ih l (i - 1) data2
          cases hT3 : sortDataQuickT fuel l (i - 1) data2 with
          | none =>
            rw [hT3] at h3
            rw [← h3]
            rfl
          | some res3 =>
            obtain ⟨data3, log3⟩ := res3
            rw [hT3] at h3
            rw [← h3]
            simp only [Option.map_some', Option.map_map]
            rw [← ih (i + 1) r data3]
            rfl

theorem sortDataQuickT_log :
    ∀ (fuel : Nat) (l r : Int) (data out : List FileNode) (log : List Int),
      sortDataQuickT fuel l r data = some (out, log) → ∀ k ∈ log, l ≤ k ∧ k ≤ r := by
  intro fuel
  induction fuel with
  | zero => intro l r data out log h; simp [sortDataQuickT] at h
  | succ fuel ih =>
    intro l r data out log h
    rw [sortDataQuickT] at h
    by_cases hge : l ≥ r
    · simp only [hge, if_true, Option.some.injEq, Prod.mk.injEq] at h
      obtain ⟨_, e⟩ := h
      subst e
      intro k hk
      cases hk
    · simp only [hge, if_false] at h
      cases hT : partitionLoopT fuel data r l r with
      | none => rw [hT] at h; cases h
      | some res1 =>
        obtain ⟨⟨data1, i, j⟩, log1⟩ := res1
        rw [hT] at h
        simp only at h
        obtain ⟨a1, a2, a3⟩ := partitionLoopT_log fuel data r l r _ log1 hT (by omega)
          (le_refl _)
        simp only at a1 a2
        cases hT2 : (if i ≠ r then swapT data1 i r else some (data1, [])) with
        | none => rw [hT2] at h; cases h
        | some res2 =>
          obtain ⟨data2, log2⟩ := res2
          rw [hT2] at h
          simp only at h
          have b := swapT_log data1 data2 i r (i ≠ r) log2 hT2
          cases hT3 : sortDataQuickT fuel l (i - 1) data2 with
          | none => rw [hT3] at h; cases h
          | some res3 =>
            obtain ⟨data3, log3⟩ := res3
            rw [hT3] at h
            simp only at h
            have c := ih l (i - 1) data2 data3 log3 hT3
            cases hT4 : sortDataQuickT fuel (i + 1) r data3 with
            | none => rw [hT4] at h; cases h
            | some res4 =>
              obtain ⟨data4, log4⟩ := res4
              rw [hT4] at h
              simp only [Option.map_some', Option.some.injEq, Prod.mk.injEq] at h
              obtain ⟨_, e2⟩ := h
              subst e2
              have d := ih (i + 1) r data3 data4 log4 hT4
              intro k hk
              simp only [List.mem_append] at hk
              rcases hk with ((hk | hk) | hk) | hk
              · exact a3 k hk
              · rcases b k hk with hh | hh <;> omega
              · have := c k hk
                omega
              · have := d k hk
                omega

theorem partitionLoop_index (fuel : Nat) (data data1 : List FileNode) (l r i j : Int)
    (hlr : l ≤ r) (h : partitionLoop fuel data r l r = some (data1, i, j)) :
    l ≤ i ∧ i ≤ r := by
  have hp := partitionLoopT_fst fuel data r l r
  rw [h] at hp
  cases hT : partitionLoopT fuel data r l r with
  | none => rw [hT] at hp; cases hp
  | some res =>
    obtain ⟨res1, log⟩ := res
    rw [hT] at hp
    simp only [Option.map_some', Option.some.injEq] at hp
    subst hp
    obtain ⟨a1, a2, _⟩ := partitionLoopT_log fuel data r l r _ log hT hlr (le_refl _)
    exact ⟨a1, a2⟩

end Directory

/-- C20: for every array and every `leftEdge`, `rightEdge` with `0 <= leftEdge` and
`rightEdge < data.size()`, the call `sortDataQuick(leftEdge, rightEdge, data)` completes with
any fuel from `data.size() + 1` on, always with the same array `out`; every index at which the
run reads or swaps `data` lies in `[leftEdge, rightEdge]`; the elements at the indices outside
that range are the same in `out` as in `data`; and the index `i` at which the partition ends
lies in `[leftEdge, rightEdge]`, so both recursive calls, on `[leftEdge, i-1]` and
`[i+1, rightEdge]`, are on strictly shorter ranges. -/
theorem C20_sortDataQuick_stays_in_range (data : arreglo_lista FileNode)
    (leftEdge rightEdge : Int) (h0 : 0 ≤ leftEdge) (h1 : rightEdge < (data.length : Int)) :
    ∃ out : arreglo_lista FileNode,
      (∀ fuel, data.length + 1 ≤ fuel →
        Directory.sortDataQuick fuel leftEdge rightEdge data = some out ∧
        ∃ log, Directory.sortDataQuickT fuel leftEdge rightEdge data = some (out, log) ∧
          ∀ k ∈ log, leftEdge ≤ k ∧ k ≤ rightEdge) ∧
      (∀ k : Nat, ((k : Int) < leftEdge ∨ rightEdge < (k : Int)) → out[k]? = data[k]?) ∧
      (∀ fuel data1 i j, leftEdge < rightEdge →
        Directory.partitionLoop fuel data rightEdge leftEdge rightEdge = some (data1, i, j) →
        leftEdge ≤ i ∧ i ≤ rightEdge ∧
        (i - 1) - leftEdge < rightEdge - leftEdge ∧
        rightEdge - (i + 1) < rightEdge - leftEdge) := by
  have hout : ∃ out : arreglo_lista FileNode,
      Directory.sortDataQuick (data.length + 1) leftEdge rightEdge data = some out ∧
      (∀ k : Nat, ((k : Int) < leftEdge ∨ rightEdge < (k : Int)) → out[k]? = data[k]?) := by
    by_cases hge : leftEdge ≥ rightEdge
    · refine ⟨data, ?_, fun _ _ => rfl⟩
      rw [Directory.sortDataQuick]
      simp [hge]
    · obtain ⟨lo, hlo⟩ : ∃ lo : Nat, leftEdge = (lo : Int) := ⟨leftEdge.toNat, by omega⟩
      obtain ⟨hi, hhi⟩ : ∃ hi : Nat, rightEdge = (hi : Int) - 1 :=
        ⟨(rightEdge + 1).toNat, by omega⟩
      subst hlo hhi
      obtain ⟨out, hs, hw, _⟩ := Directory.sortDataQuick_spec (data.length + 1) data lo hi
        (by omega) (by omega) (by omega)
      refine ⟨out, hs, ?_⟩
      intro k hk
      apply hw.2.1 k
      omega
  obtain ⟨out, hs, hframe⟩ := hout
  refine ⟨out, ?_, hframe, ?_⟩
  · intro fuel hf
    have hs1 := Directory.sortDataQuick_fuel_le leftEdge rightEdge data out _ hs fuel hf
    refine ⟨hs1, ?_⟩
    have hfst := Directory.sortDataQuickT_fst fuel leftEdge rightEdge data
    rw [hs1] at hfst
    cases hT : Directory.sortDataQuickT fuel leftEdge rightEdge data with
    | none => rw [hT] at hfst; cases hfst
    | some res =>
      obtain ⟨out1, log⟩ := res
      rw [hT] at hfst
      simp only [Option.map_some', Option.some.injEq] at hfst
      subst hfst
      exact ⟨log, rfl, Directory.sortDataQuickT_log fuel leftEdge rightEdge data out1 log hT⟩
  · intro fuel data1 i j hlt hp
    obtain ⟨a1, a2⟩ := Directory.partitionLoop_index fuel data data1 leftEdge rightEdge i j
      (by omega) hp
    exact ⟨a1, a2, by omega, by omega⟩

/-- Instance of C11 on the sample state, whose cursor is on the root. -/
theorem C11_failed_navigation_witness :
    (sampleRoot.getParent = none → sampleDir.setCurrentDirectory ".." = some sampleDir) ∧
    (sampleRoot.getParent = none →
      ∀ k, Directory.run (List.replicate k (Directory.Op.setCurrentDirectory "..")) sampleDir
        = some sampleDir) ∧
    (Directory.Reachable sampleDir → sampleDir.currentDirectory = sampleDir.root.addr →
      sampleRoot.getParent = none) ∧
    (∀ s, s ≠ ".." → s ≠ "/" → sampleRoot.dfs s = none →
      sampleDir.setCurrentDirectory s = some sampleDir) :=
  C11_failed_navigation sampleDir sampleRoot rfl

/-- Instance of the amended C12 on the sample state. -/
theorem C12_cursor_is_directory_witness :
    ∃ cur, sampleDir.root.deref sampleDir.currentDirectory = some cur ∧
      cur.getType = NodeType.Directory :=
  C12_cursor_is_directory sampleDir Directory.sampleDir_reachableOnDirectories

/-- Instance of the amended C13 on the sample state: the file `f` inside the directory `d` is
found. -/
theorem C13_findNodeInAll_visited_witness :
    (∃ r, sampleDir.findNodeInAll "f" = some r) ↔ ∃ n ∈ sampleDir.root.nodes, n.getName = "f" :=
  (C13_findNodeInAll_visited sampleDir "f").2.2.2 Directory.sampleDir_reachableOnDirectories

/-- Instance of C18 on the sample state. -/
theorem C18_parent_links_witness :
    sampleDir.root.getParent = none ∧
    Directory.setCurrentDirectory ".." { sampleDir with currentDirectory := sampleDirD.addr }
      = some { sampleDir with currentDirectory := sampleRoot.addr } :=
  ⟨(C18_parent_links sampleDir Directory.sampleDir_reachable).1,
   ((C18_parent_links sampleDir Directory.sampleDir_reachable).2.2 sampleRoot
      (FileNode.self_mem_nodes sampleRoot) sampleDirD
      (by simp [sampleRoot, FileNode.getChildren])).2.2.2⟩

/-- Instance of C19 on the sample state. -/
theorem C19_cursor_in_tree_witness :
    (∃ cur, sampleDir.root.deref sampleDir.currentDirectory = some cur ∧
      cur ∈ sampleDir.root.nodes) ∧
    ∀ op, ∃ st1, Directory.step op sampleDir = some st1 :=
  C19_cursor_in_tree sampleDir Directory.sampleDir_reachable

/-- Files A, B, C created in a fresh Directory are listed C, B, A by `getAllLastest`. -/
theorem getAllLastest_reverse_fresh :
    ∃ st1, Directory.run [Directory.Op.createFile "A", Directory.Op.createFile "B",
        Directory.Op.createFile "C"] (Directory.new 0 0) = some st1 ∧
      st1.getAll = some ["[File] A", "[File] B", "[File] C", "Total de archivos: 3",
        "Total de directorios: 0"] ∧
      st1.getAllLastest = some ["[File] C", "[File] B", "[File] A", "Total de archivos: 3",
        "Total de directorios: 0"] :=
  getAllLastest_reverse_of_empty_views (Directory.new 0 0) (Directory.new 0 0).root
    [("A", NodeType.File), ("B", NodeType.File), ("C", NodeType.File)]
    (Directory.Reachable.init 0 0) rfl ⟨rfl, rfl, rfl⟩

/-- Instance of C16: two files and one directory created in a fresh Directory. -/
theorem C16_create_counts_witness :
    ∃ st1 cur1, Directory.run [Directory.Op.createFile "x", Directory.Op.createDirectory "y",
        Directory.Op.createFile "z"] (Directory.new 0 0) = some st1 ∧
      st1.root.deref st1.currentDirectory = some cur1 ∧
      cur1.getChildren.length = 3 ∧
      st1.getAll = some ["[File] x", "[File] z", "[Directory] y", "Total de archivos: 2",
        "Total de directorios: 1"] := by
  obtain ⟨st1, cur1, h1, h2, h3, _, _, _, _, h4⟩ :=
    C16_create_counts (Directory.new 0 0) (Directory.new 0 0).root
      [("x", NodeType.File), ("y", NodeType.Directory), ("z", NodeType.File)] rfl rfl
  exact ⟨st1, cur1, h1, h2, h3, h4 (by simp)⟩

/-- Instance of C17 on the run that builds the sample tree. -/
theorem C17_ids_strictly_increasing_witness :
    Directory.idsConstructed
      [Directory.Op.createFile "a", Directory.Op.createDirectory "d",
       Directory.Op.setCurrentDirectory "d", Directory.Op.createFile "f",
       Directory.Op.setCurrentDirectory ".."] (Directory.new 0 0) = [1, 2, 3] ∧
    (sampleDir.root.nodes.map FileNode.getId).Nodup :=
  ⟨(C17_ids_strictly_increasing 0 0
      [Directory.Op.createFile "a", Directory.Op.createDirectory "d",
       Directory.Op.setCurrentDirectory "d", Directory.Op.createFile "f",
       Directory.Op.setCurrentDirectory ".."] sampleDir rfl).2.1,
   (C17_ids_strictly_increasing 0 0
      [Directory.Op.createFile "a", Directory.Op.createDirectory "d",
       Directory.Op.setCurrentDirectory "d", Directory.Op.createFile "f",
       Directory.Op.setCurrentDirectory ".."] sampleDir rfl).2.2.2.2.2.2⟩

/-- Instance of C20: the range 1..2 of the sample array. -/
theorem C20_sortDataQuick_stays_in_range_witness :
    ∃ out : arreglo_lista FileNode,
      (∀ fuel, sampleData.length + 1 ≤ fuel →
        Directory.sortDataQuick fuel 1 2 sampleData = some out ∧
        ∃ log, Directory.sortDataQuickT fuel 1 2 sampleData = some (out, log) ∧
          ∀ k ∈ log, (1 : Int) ≤ k ∧ k ≤ 2) ∧
      (∀ k : Nat, ((k : Int) < 1 ∨ 2 < (k : Int)) → out[k]? = sampleData[k]?) := by
  obtain ⟨out, h1, h2, _⟩ := C20_sortDataQuick_stays_in_range sampleData 1 2 (by decide)
    (by decide)
  exact ⟨out, h1, h2⟩
